import Mathlib

/-!
# e2a: EBCDIC (code page 273) to ASCII converter with packed and zoned decimal fields

A shallow embedding of `e2a.c` and the properties of its field decoders.

Conventions of the embedding:

* a byte is a `Nat` in `0..255`; a buffer of `length` bytes is a `List Nat`;
* a C `long` is an `Int` kept in the signed 64-bit range by `wrap64` after every
  arithmetic operation, a C `int` of the schema loader an `Int` kept in the signed 32-bit
  range by `wrap32`;
* a call of `exit(-1)` is the `Except.error` outcome, tagged with the message printed.
-/

namespace E2A

/-! ## Faults and machine integers -/

/-- The fatal outcomes of the decoders: each is a message followed by `exit(-1)`. -/
inductive Fault where
  /-- "Invalid Sign nibble in Packed Decimal!" -/
  | invalidPackedSign
  /-- "Invalid Sign nibble in Zoned Decimal!" -/
  | invalidZonedSign
  /-- "Unmanaged Datatype!" -/
  | unmanagedDatatype
  /-- The process is killed by reading through a null pointer. -/
  | nullPointer
  deriving DecidableEq, Repr

deriving instance DecidableEq for Except

/-- Two's complement reduction of an integer to the range of a 64-bit `long`. -/
def wrap64 (x : Int) : Int :=
  (x + 9223372036854775808) % 18446744073709551616 - 9223372036854775808

/-- Two's complement reduction of an integer to the range of a 32-bit `int`. -/
def wrap32 (x : Int) : Int :=
  (x + 2147483648) % 4294967296 - 2147483648

/-- The high nibble of a byte. -/
def hiNibble (b : Nat) : Nat := b / 16

/-- The low nibble of a byte. -/
def loNibble (b : Nat) : Nat := b % 16

/-! ## `unzone`: zoned decimal to long -/

namespace unzone

/-- AND mask to drop HO sign bits. -/
abbrev DropHO : Nat := 0xFF
/-- Plus sign. -/
abbrev PlusSign : Nat := 0x0F
/-- Another minus sign. -/
abbrev OtherNegativeSign : Nat := 0x0B
/-- Minus. -/
abbrev MinusSign : Nat := 0x0D
/-- Get only LO digit. -/
abbrev GetLO : Nat := 0x0F

end unzone

open unzone in
/-- The loop `for (i = 0; i < length; i++)` of `unzone`: the first argument counts the
iterations still to run (`length - i`), the second is `i`, the third is `val`. -/
def unzoneLoop (pdIn : List Nat) (length : Nat) : Nat → Nat → Int → Except Fault Int
  | 0, _, val => .ok val
  | n + 1, i, val =>
    let aByte := pdIn.getD i 0 &&& DropHO
    let val := wrap64 (wrap64 (val * 10) + ((aByte &&& GetLO : Nat) : Int))
    if i = length - 1 then
      let sign := aByte >>> 4
      if sign = MinusSign ∨ sign = OtherNegativeSign then
        unzoneLoop pdIn length n (i + 1) (wrap64 (-val))
      else if sign ≠ PlusSign then
        .error Fault.invalidZonedSign
      else
        unzoneLoop pdIn length n (i + 1) val
    else
      unzoneLoop pdIn length n (i + 1) val

/-- Convert zoned decimal to long: `unzone(pdIn, length)` on the `length` bytes at `pdIn`. -/
def unzone (pdIn : List Nat) : Except Fault Int :=
  unzoneLoop pdIn pdIn.length pdIn.length 0 0

/-! ## `unpack`: packed decimal to long -/

namespace unpack

/-- Plus sign. -/
abbrev PlusSign : Nat := 0x0C
/-- Minus. -/
abbrev MinusSign : Nat := 0x0D
/-- Unsigned. -/
abbrev NoSign : Nat := 0x0F
/-- AND mask to drop HO sign bits. -/
abbrev DropHO : Nat := 0xFF
/-- Get only LO digit. -/
abbrev GetLO : Nat := 0x0F

end unpack

open unpack in
/-- The loop `for (i = 0; i < length; i++)` of `unpack`: the first argument counts the
iterations still to run (`length - i`), the second is `i`, the third is `val`. -/
def unpackLoop (pdIn : List Nat) (length : Nat) : Nat → Nat → Int → Except Fault Int
  | 0, _, val => .ok val
  | n + 1, i, val =>
    let aByte := pdIn.getD i 0 &&& DropHO
    if i = length - 1 then
      let digit := aByte >>> 4
      let val := wrap64 (wrap64 (val * 10) + (digit : Int))
      let sign := aByte &&& GetLO
      if sign = MinusSign then
        unpackLoop pdIn length n (i + 1) (wrap64 (-val))
      else if sign ≠ PlusSign ∧ sign ≠ NoSign then
        .error Fault.invalidPackedSign
      else
        unpackLoop pdIn length n (i + 1) val
    else
      let digit := aByte >>> 4
      let val := wrap64 (wrap64 (val * 10) + (digit : Int))
      let digit := aByte &&& GetLO
      let val := wrap64 (wrap64 (val * 10) + (digit : Int))
      unpackLoop pdIn length n (i + 1) val

/-- Convert packed decimal to long: `unpack(pdIn, length)` on the `length` bytes at `pdIn`. -/
def unpack (pdIn : List Nat) : Except Fault Int :=
  unpackLoop pdIn pdIn.length pdIn.length 0 0

/-! ## The code page table and `convert` -/

/-- Codepage 273 (for German and Austrian encodings): the table `ebc2asc[256]`. -/
def ebc2asc : List Nat :=
  [
    0x00, 0x01, 0x02, 0x03, 0x9C, 0x09, 0x86, 0x7F,
    0x97, 0x8D, 0x8E, 0x0B, 0x0C, 0x0D, 0x0E, 0x0F,
    0x10, 0x11, 0x12, 0x13, 0x9D, 0x85, 0x08, 0x87,
    0x18, 0x19, 0x92, 0x8F, 0x1C, 0x1D, 0x1E, 0x1F,
    0x80, 0x81, 0x82, 0x83, 0x84, 0x0A, 0x17, 0x1B,
    0x88, 0x89, 0x8A, 0x8B, 0x8C, 0x05, 0x06, 0x07,
    0x90, 0x91, 0x16, 0x93, 0x94, 0x95, 0x96, 0x04,
    0x98, 0x99, 0x9A, 0x9B, 0x14, 0x15, 0x9E, 0x1A,
    0x20, 0xA0, 0xE2, 0x7B, 0xE0, 0xE1, 0xE3, 0xE5,
    0xE7, 0xF1, 0xC4, 0x2E, 0x3C, 0x28, 0x2B, 0x21,
    0x26, 0xE9, 0xEA, 0xEB, 0xE8, 0xED, 0xEE, 0xEF,
    0xEC, 0x7E, 0xDC, 0x24, 0x2A, 0x29, 0x3B, 0x5E,
    0x2D, 0x2F, 0xC2, 0x5B, 0xC0, 0xC1, 0xC3, 0xC5,
    0xC7, 0xD1, 0xF6, 0x2C, 0x25, 0x5F, 0x3E, 0x3F,
    0xF8, 0xC9, 0xCA, 0xCB, 0xC8, 0xCD, 0xCE, 0xCF,
    0xCC, 0x60, 0x3A, 0x23, 0xA7, 0x27, 0x3D, 0x22,
    0xD8, 0x61, 0x62, 0x63, 0x64, 0x65, 0x66, 0x67,
    0x68, 0x69, 0xAB, 0xBB, 0xF0, 0xFD, 0xFE, 0xB1,
    0xB0, 0x6A, 0x6B, 0x6C, 0x6D, 0x6E, 0x6F, 0x70,
    0x71, 0x72, 0xAA, 0xBA, 0xE6, 0xB8, 0xC6, 0x3F,
    0xB5, 0xDF, 0x73, 0x74, 0x75, 0x76, 0x77, 0x78,
    0x79, 0x7A, 0xA1, 0xBF, 0xD0, 0xDD, 0xDE, 0xAE,
    0xA2, 0xA3, 0xA5, 0xB7, 0xA9, 0x40, 0xB6, 0xBC,
    0xBD, 0xBE, 0xAC, 0x7C, 0xAF, 0xA8, 0xB4, 0xD7,
    0xE4, 0x41, 0x42, 0x43, 0x44, 0x45, 0x46, 0x47,
    0x48, 0x49, 0xAD, 0xF4, 0xA6, 0xF2, 0xF3, 0xF5,
    0xFC, 0x4A, 0x4B, 0x4C, 0x4D, 0x4E, 0x4F, 0x50,
    0x51, 0x52, 0xB9, 0xFB, 0x7D, 0xF9, 0xFA, 0xFF,
    0xD6, 0xF7, 0x53, 0x54, 0x55, 0x56, 0x57, 0x58,
    0x59, 0x5A, 0xB2, 0xD4, 0x5C, 0xD2, 0xD3, 0xD5,
    0x30, 0x31, 0x32, 0x33, 0x34, 0x35, 0x36, 0x37,
    0x38, 0x39, 0xB3, 0xDB, 0x5D, 0xD9, 0xDA, 0x9F
  ]

/-- The loop `for (i = 0; i < count; i++) pBuffer[i] = ebc2asc[pBuffer[i]];` of `convert`:
the first argument counts the iterations still to run, the second is `i`. -/
def convertLoop : Nat → Nat → List Nat → List Nat
  | 0, _, pBuffer => pBuffer
  | n + 1, i, pBuffer =>
    convertLoop n (i + 1) (pBuffer.set i (ebc2asc.getD (pBuffer.getD i 0) 0))

/-- In-situ converter: `convert(pBuffer, count)`; the list is the memory at `pBuffer` and the
result is that memory after the call. -/
def convert (pBuffer : List Nat) (count : Nat) : List Nat :=
  convertLoop count 0 pBuffer

/-! ## `trim` -/

/-- The libc `isspace` in the "C" locale (the program never calls `setlocale`): space and the
five control characters `\t \n \v \f \r`. -/
def isspace (c : Nat) : Bool :=
  c == 0x20 || (0x09 ≤ c && c ≤ 0x0D)

/-- The byte `str[i]` for a C `int` index. Bytes outside the buffer read as 0; `trim` reads
them only for an empty buffer, where the loop conditions are false whatever they hold. -/
def charAt (str : List Nat) (i : Int) : Nat :=
  if 0 ≤ i then str.getD i.toNat 0 else 0

/-- The loop `while (isspace(str[iBegin]) && (iBegin < iEnd)) iBegin++;` of `trim`. The first
argument bounds the iterations; with `iEnd - iBegin` or more of them the bound is never the
reason to stop, since the loop condition is false as soon as `iBegin` reaches `iEnd`. -/
def trimBegin (str : List Nat) (iEnd : Int) : Nat → Int → Int
  | 0, iBegin => iBegin
  | n + 1, iBegin =>
    if isspace (charAt str iBegin) && decide (iBegin < iEnd) then
      trimBegin str iEnd n (iBegin + 1)
    else iBegin

/-- The loop `while (isspace(str[iEnd]) && (iEnd > iBegin)) iEnd--;` of `trim`, bounded
like `trimBegin`. -/
def trimEnd (str : List Nat) (iBegin : Int) : Nat → Int → Int
  | 0, iEnd => iEnd
  | n + 1, iEnd =>
    if isspace (charAt str iEnd) && decide (iEnd > iBegin) then
      trimEnd str iBegin n (iEnd - 1)
    else iEnd

/-- The copy loop `for (i = iBegin, j = 0; i <= iEnd;)` of `trim`: the last argument is
`pTempBuffer[0..j)`. Quote and pipe bytes are skipped, every other byte is appended. The
first argument bounds the iterations; `iEnd - i + 1` of them are enough. -/
def trimCopy (str : List Nat) (iEnd : Int) : Nat → Int → List Nat → List Nat
  | 0, _, pTempBuffer => pTempBuffer
  | n + 1, i, pTempBuffer =>
    if i ≤ iEnd then
      if charAt str i = 0x22 ∨ charAt str i = 0x7C then
        trimCopy str iEnd n (i + 1) pTempBuffer
      else
        trimCopy str iEnd n (i + 1) (pTempBuffer ++ [charAt str i])
    else pTempBuffer

/-- Trim leading/trailing blanks and filter invalid characters: `trim(str, iLength, tb)` on
the `iLength` bytes at `str`; the result is the content of `tb->pBuffer`, whose length is
`tb->iLength`. Allocation is taken to succeed, so the call returns 0. -/
def trim (str : List Nat) : List Nat :=
  let iLength : Int := str.length
  let iBegin : Int := 0
  let iEnd : Int := iLength - 1
  let iBegin := trimBegin str iEnd str.length iBegin
  let iEnd := trimEnd str iBegin str.length iEnd
  trimCopy str iEnd str.length iBegin []

/-! ## `ConvertDateToEuro` -/

/-- Memory that `ConvertDateToEuro` reads without having written it. Bytes beyond the end of a
list read as 0. -/
structure Indeterminate where
  /-- The heap bytes that follow the `tb->iLength` bytes of `parm->pBuffer`. -/
  afterParm : List Nat
  /-- The byte `sTmpBuffer[10]`: the terminator is stored at index 11, not 10. -/
  tmp10 : Nat
  /-- The stack bytes that follow `sTmpBuffer[11]`. -/
  afterTmp : List Nat
  /-- The stack bytes that follow the four bytes of `pYearTok`, which has no terminator. -/
  afterYear : List Nat

/-- The C string that starts at the beginning of `mem`: the bytes before the first NUL. -/
def cstr (mem : List Nat) : List Nat :=
  mem.takeWhile (fun c => c != 0)

/-- One call of `strtok` with the single delimiter `delim`, on the memory `mem` and the saved
position `p`: the start of the token (`none` for a NULL result), the memory with the
delimiter that ends the token overwritten by NUL, and the new saved position. -/
def strtok (mem : List Nat) (delim : Nat) (p : Nat) : Option Nat × List Nat × Nat :=
  let start := p + ((mem.drop p).takeWhile (fun c => c == delim)).length
  if mem.getD start 0 = 0 then
    (none, mem, start)
  else
    let stop := start + ((mem.drop start).takeWhile (fun c => c != delim && c != 0)).length
    if mem.getD stop 0 = 0 then
      (some start, mem, stop)
    else
      (some start, mem.set stop 0, stop + 1)

/-- The first `n` bytes of `mem`, bytes beyond its end reading as 0. -/
def readBytes (mem : List Nat) (n : Nat) : List Nat :=
  (List.range n).map (fun i => mem.getD i 0)

/-- The date conversion `ConvertDateToEuro(parm)` followed by the caller's
`memcpy(..., tb->pBuffer, tb->iLength)`: the result is the decoded field, the first
`tb->iLength` bytes of `parm->pBuffer` after the call. `parm` is the trimmed value.

The function stores a terminator at `sTmpBuffer[11]`, one past the array, copies the string
at `pYearTok`, an array of four bytes without a terminator, and writes the result and its
terminator to `resultBuffer[10]` and to the `tb->iLength` bytes of `parm->pBuffer`. The
embedding takes every such write to land in memory that nothing else uses, and every byte
read but never written from `ind`. A null token pointer handed to `memcpy` or `strcat` ends
the process. -/
def ConvertDateToEuro (ind : Indeterminate) (parm : List Nat) : Except Fault (List Nat) :=
  let SIZE_OF_THE_DATE := 10
  let DIGITS_IN_YEAR := 4
  -- memcpy(sTmpBuffer, parm->pBuffer, SIZE_OF_THE_DATE); sTmpBuffer[SIZE_OF_THE_DATE + 1] = 0
  let sTmpBuffer :=
    readBytes (parm ++ ind.afterParm) SIZE_OF_THE_DATE ++ [ind.tmp10, 0] ++ ind.afterTmp
  let (pDayTok, mem, saved) := strtok sTmpBuffer 0x2E 0
  let (pMonTok, mem, saved) := strtok mem 0x2E saved
  let (pYearTokWithEnding, mem, _) := strtok mem 0x2E saved
  match pDayTok, pMonTok, pYearTokWithEnding with
  | some day, some mon, some year =>
    -- memcpy(pYearTok, pYearTokWithEnding, DIGITS_IN_YEAR)
    let pYearTok := readBytes (mem.drop year) DIGITS_IN_YEAR
    -- strcpy(resultBuffer, pYearTok) and the four strcat calls
    let resultBuffer :=
      cstr (pYearTok ++ ind.afterYear) ++ [0x2D] ++ cstr (mem.drop mon) ++ [0x2D]
        ++ cstr (mem.drop day)
    -- strcpy(parm->pBuffer, resultBuffer)
    let pBuffer := resultBuffer ++ [0] ++ (parm ++ ind.afterParm).drop (resultBuffer.length + 1)
    .ok (readBytes pBuffer parm.length)
  | _, _, _ => .error Fault.nullPointer

/-! ## The schema: `METADATARECORD`, `CONVERTER` and `LoadMetadata` -/

/-- Holds the structure metadata of one field. A C `int` is an `Int`; the schema loader keeps
every value that it computes in the 32-bit range, by `atoi` and by `wrap32`. A string is the
list of its bytes, taken to fit the array that holds it. -/
structure METADATARECORD where
  sFieldname : List Nat
  sSize : List Nat
  iInputPosition : Int
  iOutputPosition : Int
  iPrecision : Int
  cDatatype : Nat
  iFrom : Int
  iTo : Int
  iInputFieldLength : Int
  iOutputFieldLength : Int
  sDescription : List Nat
  sTranslation : List Nat
  deriving DecidableEq, Repr

/-- The main container, reduced to what the schema loader and the record pipeline use.
`Metadata` is the array of `iNumberOfAttributes` records. -/
structure CONVERTER where
  iInputRecordLength : Int
  iOutputRecordLength : Int
  Metadata : List METADATARECORD
  deriving DecidableEq, Repr

/-- The field `cv->iNumberOfAttributes`: the number of records of `cv->Metadata`. -/
def CONVERTER.iNumberOfAttributes (cv : CONVERTER) : Int := cv.Metadata.length

/-- The digits part of `atoi`: the decimal value of the leading digits, from `acc`, as a
number without bound. -/
def atoiDigits : List Nat → Int → Int
  | [], acc => acc
  | c :: rest, acc =>
    if 0x30 ≤ c ∧ c ≤ 0x39 then atoiDigits rest (acc * 10 + ((c - 0x30 : Nat) : Int)) else acc

/-- The number that `strtol(s, NULL, 10)` reads in the C string `s`, without bound: leading
whitespace, an optional sign, then digits. -/
def strtolValue (s : List Nat) : Int :=
  match s.dropWhile isspace with
  | 0x2D :: rest => -atoiDigits rest 0
  | 0x2B :: rest => atoiDigits rest 0
  | rest => atoiDigits rest 0

/-- The result of `strtol(s, NULL, 10)`: a number outside the range of a 64-bit `long` is
replaced by the nearest bound of the range. -/
def strtol (s : List Nat) : Int :=
  if strtolValue s < -9223372036854775808 then -9223372036854775808
  else if 9223372036854775807 < strtolValue s then 9223372036854775807
  else strtolValue s

/-- The libc `atoi` on the C string `s`, which is `(int) strtol(s, NULL, 10)`: the `long` is
cut to the 32 bits of an `int`. -/
def atoi (s : List Nat) : Int :=
  wrap32 (strtol s)

/-- The `switch (j)` of `LoadMetadata`: store token number `j` in the record `md` being
filled. `cv` holds the records loaded so far, so `cv->Metadata[i-1]` is its last record and
`i == 0` means there is none. In case 2 the loop over `sSize` cuts the string at its first
comma (`strlen` is evaluated again once the comma is overwritten by NUL, which ends the loop)
and reads the precision after it. The sums are sums of `int`. -/
def storeToken (cv : CONVERTER) (j : Nat) (pToken : List Nat) (md : METADATARECORD) :
    CONVERTER × METADATARECORD :=
  match j with
  | 1 => (cv, { md with sFieldname := pToken })
  | 2 =>
    let sSize := pToken.takeWhile (fun c => c != 0x2C)
    let iPrecision : Int :=
      if 0x2C ∈ pToken then atoi (pToken.drop (sSize.length + 1)) else 0
    let iOutputFieldLength := atoi sSize
    let iOutputPosition : Int :=
      match cv.Metadata.getLast? with
      | none => 0
      | some prev => wrap32 (prev.iOutputPosition + prev.iOutputFieldLength)
    ({ cv with iOutputRecordLength := wrap32 (cv.iOutputRecordLength + iOutputFieldLength) },
      { md with sSize := sSize, iPrecision := iPrecision,
                iOutputFieldLength := iOutputFieldLength, iOutputPosition := iOutputPosition })
  | 3 => (cv, { md with cDatatype := pToken.headD 0 })
  | 4 => (cv, { md with iFrom := atoi pToken })
  | 5 => (cv, { md with iTo := atoi pToken })
  | 6 => (cv, { md with sDescription := pToken })
  | 7 => (cv, { md with sTranslation := pToken })
  | _ => (cv, md)

/-- The loop `while (pToken != NULL)` of `LoadMetadata` over the tokens of one line: `mem` is
`sBuffer`, `saved` the position `strtok` keeps, `pToken` the current token. The first argument
bounds the iterations; a line of `k` bytes has fewer than `k + 1` tokens. -/
def tokenLoop : Nat → List Nat → Nat → Option Nat → Nat → CONVERTER → METADATARECORD →
    CONVERTER × METADATARECORD
  | 0, _, _, _, _, cv, md => (cv, md)
  | _ + 1, _, _, none, _, cv, md => (cv, md)
  | n + 1, mem, saved, some tok, j, cv, md =>
    let (cv, md) := storeToken cv j (cstr (mem.drop tok)) md
    let (pToken, mem, saved) := strtok mem 0x09 saved
    tokenLoop n mem saved pToken (j + 1) cv md

/-- The body of the loop of `LoadMetadata` for one line: `sBuffer` is what `fgets` read
(without its terminator) and `fresh` the content of the record that `malloc` returned. The
position, the length and the total are computed in `int`. -/
def loadLine (cv : CONVERTER) (fresh : METADATARECORD) (sBuffer : List Nat) : CONVERTER :=
  let mem := sBuffer ++ [0]
  let (pToken, mem, saved) := strtok mem 0x09 0
  let (cv, md) := tokenLoop (sBuffer.length + 1) mem saved pToken 1 cv fresh
  let md := { md with iInputPosition := wrap32 (md.iFrom - 1) }
  let md := { md with iInputFieldLength := wrap32 (wrap32 (md.iTo - md.iFrom) + 1) }
  { cv with iInputRecordLength := wrap32 (cv.iInputRecordLength + md.iInputFieldLength),
            Metadata := cv.Metadata ++ [md] }

/-- The loop `while (!feof(fpMetadataFile))` of `LoadMetadata` over the lines that `fgets`
delivers; the second argument is `i`. -/
def loadLines (fresh : Nat → METADATARECORD) : List (List Nat) → Nat → CONVERTER → CONVERTER
  | [], _, cv => cv
  | sBuffer :: rest, i, cv => loadLines fresh rest (i + 1) (loadLine cv (fresh i) sBuffer)

/-- The schema loader `LoadMetadata(cv)` on a schema file that opens: `lines` are the
successive results of `fgets`, each a line of the file with its newline, and `fresh i` is the
content of the `i`-th record as `malloc` returns it, before any field is stored. Allocation
is taken to succeed, so the call returns 0 and no path ends the process. -/
def LoadMetadata (fresh : Nat → METADATARECORD) (lines : List (List Nat)) : CONVERTER :=
  loadLines fresh lines 0 { iInputRecordLength := 0, iOutputRecordLength := 0, Metadata := [] }

/-! ## The record pipeline: `ExecuteCSVConversion` -/

/-- What the record pipeline takes from outside the program text. -/
structure Env where
  /-- The libc call `sprintf(pFormatBuffer, "%-*.*Lf", width, precision, value / pow(10,
  precision))` as a function of `width`, `precision` and the unpacked `value`: the string it
  writes, without the terminator. -/
  sprintf : Int → Int → Int → List Nat
  /-- The memory that `ConvertDateToEuro` reads without having written it, for the field with
  a given index of the record with a given number. -/
  ind : Nat → Nat → Indeterminate

/-- The first byte of a field in the read buffer, `&cv->pReadBuffer[iInputPosition]`, as an
index. A negative position points outside the buffer and is not modelled. -/
def METADATARECORD.pos (md : METADATARECORD) : Nat := md.iInputPosition.toNat

/-- The byte count `iInputFieldLength` handed to `convert`, `trim`, `malloc` and `memcpy`. -/
def METADATARECORD.len (md : METADATARECORD) : Nat := md.iInputFieldLength.toNat

/-- The call `convert(&pReadBuffer[pos], len)`: the read buffer after it. -/
def convertAt (pReadBuffer : List Nat) (pos len : Nat) : List Nat :=
  pReadBuffer.take pos ++ convert (pReadBuffer.drop pos) len

/-- The `len` bytes at `&pReadBuffer[pos]`, as `trim` and `memcpy` read them. -/
def fieldBytes (pReadBuffer : List Nat) (pos len : Nat) : List Nat :=
  readBytes (pReadBuffer.drop pos) len

/-- The numeric branch shared by the cases `'S'` and `'P'` once the field is unpacked: format
the value into `pFormatBuffer` and trim its first `iOutputFieldLength` bytes. -/
def formatField (env : Env) (md : METADATARECORD) (ldUnpacked : Int) : List Nat :=
  let pFormatBuffer := env.sprintf md.iOutputFieldLength md.iPrecision ldUnpacked
  trim (readBytes pFormatBuffer md.iOutputFieldLength.toNat)

/-- The `switch (cv->Metadata[i]->cDatatype)` of `ExecuteCSVConversion` for field `i` of
record number `rec`: the read buffer after the case and the bytes of `tb->pBuffer` that are
copied to the write buffer. Allocation is taken to succeed. -/
def decodeField (env : Env) (rec i : Nat) (md : METADATARECORD) (pReadBuffer : List Nat) :
    Except Fault (List Nat × List Nat) :=
  if md.cDatatype = 0x4C then
    let pReadBuffer := convertAt pReadBuffer md.pos md.len
    let tb := trim (fieldBytes pReadBuffer md.pos md.len)
    match ConvertDateToEuro (env.ind rec i) tb with
    | .ok tb => .ok (pReadBuffer, tb)
    | .error e => .error e
  else if md.cDatatype = 0x41 ∨ md.cDatatype = 0x54 then
    let pReadBuffer := convertAt pReadBuffer md.pos md.len
    let tb := trim (fieldBytes pReadBuffer md.pos md.len)
    .ok (pReadBuffer, tb)
  else if md.cDatatype = 0x53 then
    let pUnpackBuffer := fieldBytes pReadBuffer md.pos md.len
    match unzone pUnpackBuffer with
    | .ok ldUnpacked => .ok (pReadBuffer, formatField env md ldUnpacked)
    | .error e => .error e
  else if md.cDatatype = 0x50 then
    let pUnpackBuffer := fieldBytes pReadBuffer md.pos md.len
    match unpack pUnpackBuffer with
    | .ok ldUnpacked => .ok (pReadBuffer, formatField env md ldUnpacked)
    | .error e => .error e
  else
    .error Fault.unmanagedDatatype

/-- A store of `bytes` at `&pWriteBuffer[pos]`. The write buffer is a list of the bytes stored
so far, every byte beyond its end holding the 0 of the `memset`; it is taken to be large
enough for the line. -/
def writeAt (pWriteBuffer : List Nat) (pos : Nat) (bytes : List Nat) : List Nat :=
  readBytes pWriteBuffer pos ++ bytes ++ pWriteBuffer.drop (pos + bytes.length)

/-- The loop `for (i = 0; i < cv->iNumberOfAttributes; i++)` of `ExecuteCSVConversion` over
the records of `cv->Metadata` still to decode: `n` is `iNumberOfAttributes`, and the state is
`i`, the read buffer, the write buffer and `iLastWritePosition`. -/
def fieldsLoop (env : Env) (rec : Nat) (n : Int) : List METADATARECORD → Nat → List Nat →
    List Nat → Nat → Except Fault (List Nat × Nat)
  | [], _, _, pWriteBuffer, iLastWritePosition => .ok (pWriteBuffer, iLastWritePosition)
  | md :: rest, i, pReadBuffer, pWriteBuffer, iLastWritePosition =>
    match decodeField env rec i md pReadBuffer with
    | .error e => .error e
    | .ok (pReadBuffer, tb) =>
      let pWriteBuffer := writeAt pWriteBuffer iLastWritePosition tb
      let iLastWritePosition := iLastWritePosition + tb.length
      if (i : Int) < n - 1 then
        fieldsLoop env rec n rest (i + 1) pReadBuffer
          (writeAt pWriteBuffer iLastWritePosition [0x7C]) (iLastWritePosition + 1)
      else
        fieldsLoop env rec n rest (i + 1) pReadBuffer
          (writeAt pWriteBuffer iLastWritePosition [0x0A]) iLastWritePosition

/-- The loop `for (j = 0; j < iLastWritePosition; j++)` that replaces CR/LF characters by `~`:
the first argument counts the iterations still to run, the second is `j`. -/
def sanitizeLoop : Nat → Nat → List Nat → List Nat
  | 0, _, pWriteBuffer => pWriteBuffer
  | n + 1, j, pWriteBuffer =>
    if pWriteBuffer.getD j 0 = 0x0A ∨ pWriteBuffer.getD j 0 = 0x0D then
      sanitizeLoop n (j + 1) (pWriteBuffer.set j 0x7E)
    else
      sanitizeLoop n (j + 1) pWriteBuffer

/-- The body of `if (fread(...) != 0)` in `ExecuteCSVConversion` for record number `rec`
held in the read buffer: the bytes handed to `fwrite`, or the fault that ends the process
before `fwrite` is reached. -/
def decodeRecord (env : Env) (rec : Nat) (cv : CONVERTER) (pReadBuffer : List Nat) :
    Except Fault (List Nat) :=
  match fieldsLoop env rec cv.iNumberOfAttributes cv.Metadata 0 pReadBuffer [] 0 with
  | .error e => .error e
  | .ok (pWriteBuffer, iLastWritePosition) =>
    let pWriteBuffer := sanitizeLoop iLastWritePosition 0 pWriteBuffer
    .ok (readBytes pWriteBuffer (iLastWritePosition + 1))

/-- The outcome of a run: the bytes handed to `fwrite` on the output file, in order, and the
fault that ended the process, `none` when `ExecuteCSVConversion` returned. -/
structure Run where
  output : List Nat
  fault : Option Fault
  deriving DecidableEq, Repr

/-- The loop `while (!feof(cv->fpInFile))` of `ExecuteCSVConversion`: `rec` counts the
records read, `fpInFile` is the unread rest of the source and `fpOutFile` what was written.
`fread` delivers a record when `iInputRecordLength` bytes are left; otherwise it consumes the
rest, returns 0 and sets the end-of-file indicator, which ends the loop. With a record length
of 0 it returns 0 without touching the stream, so the loop never ends. The first argument
bounds the iterations; the result is `none` when the loop is still running after them. -/
def recordLoop (env : Env) (cv : CONVERTER) : Nat → Nat → List Nat → List Nat → Option Run
  | 0, _, _, _ => none
  | n + 1, rec, fpInFile, fpOutFile =>
    if cv.iInputRecordLength = 0 then
      recordLoop env cv n rec fpInFile fpOutFile
    else if 0 < cv.iInputRecordLength ∧ cv.iInputRecordLength.toNat ≤ fpInFile.length then
      match decodeRecord env rec cv (fpInFile.take cv.iInputRecordLength.toNat) with
      | .error e => some { output := fpOutFile, fault := some e }
      | .ok line =>
        recordLoop env cv n (rec + 1) (fpInFile.drop cv.iInputRecordLength.toNat)
          (fpOutFile ++ line)
    else
      some { output := fpOutFile, fault := none }

/-- The record pipeline `ExecuteCSVConversion(cv)` for a non-null `cv` on the source
`fpInFile`, run for at most `fuel` iterations of its loop. Allocation is taken to succeed. -/
def ExecuteCSVConversion (env : Env) (cv : CONVERTER) (fuel : Nat) (fpInFile : List Nat) :
    Option Run :=
  recordLoop env cv fuel 0 fpInFile []

/-! ## An exact formatter -/

/-- The ASCII decimal digits of `n`, most significant first, at least one; the first argument
bounds their number. -/
def decimalDigits : Nat → Nat → List Nat
  | 0, _ => []
  | k + 1, n => if n < 10 then [0x30 + n] else decimalDigits k (n / 10) ++ [0x30 + n % 10]

/-- The fixed-point rendering of `v / 10^p` with exactly `p` fractional digits: a leading `-`
when negative, no decimal point when `p = 0`. -/
def fixedPoint (p : Nat) (v : Int) : List Nat :=
  let m := v.natAbs
  let whole := decimalDigits (m + 1) (m / 10 ^ p)
  let frac := (List.range p).map (fun i => 0x30 + m / 10 ^ (p - 1 - i) % 10)
  (if v < 0 then [0x2D] else []) ++ whole ++ (if p = 0 then [] else 0x2E :: frac)

/-- A formatter that renders exactly and pads with spaces on the right up to the width, as
`"%-*.*Lf"` asks for; meant for widths and precisions that are not negative. -/
def exactSprintf (width precision value : Int) : List Nat :=
  let text := fixedPoint precision.toNat value
  text ++ List.replicate (width.toNat - text.length) 0x20

/-- An environment with the exact formatter and no stray byte in indeterminate memory. -/
def exactEnv : Env :=
  { sprintf := exactSprintf, ind := fun _ _ => ⟨[], 0, [], []⟩ }

/-! ## The catalog: `CreateIngestionMetadataFile` -/

/-- Holds metadata required by the file ingestion process. `iPositionInPK` is never stored;
the row is printed with a literal 0 in its place. -/
structure INGESTIONMETADATA where
  sDatabase : List Nat
  sTable : List Nat
  iFieldposition : Int
  sFieldname : List Nat
  sDatatype : List Nat
  iLength : Int
  iPrecision : Int
  deriving DecidableEq, Repr

/-- The body of the loop of `CreateIngestionMetadataFile` for field `i`, up to the call of
`snprintf`: the content of `im` that the row is printed from. `im` is declared outside the
loop, so it enters with what the row before left in it; the `default` case of the switch
stores nothing in `sDatatype`. `sDatabase` is `cv->sDatabase` and `sTable` the base name of
the schema file. -/
def ingestionRow (sDatabase sTable : List Nat) (i : Nat) (md : METADATARECORD)
    (im : INGESTIONMETADATA) : INGESTIONMETADATA :=
  let im := { im with sDatabase := sDatabase, sTable := sTable,
                      iFieldposition := (i : Int) + 1, sFieldname := md.sFieldname }
  let im :=
    if md.cDatatype = 0x41 ∨ md.cDatatype = 0x54 then
      { im with sDatatype := [0x43, 0x48, 0x41, 0x52] }
    else if md.cDatatype = 0x50 ∨ md.cDatatype = 0x53 then
      if md.iPrecision = 0 then
        if md.iOutputFieldLength < 10 then
          { im with sDatatype := [0x49, 0x4E, 0x54, 0x45, 0x47, 0x45, 0x52] }
        else
          { im with sDatatype := [0x42, 0x49, 0x47, 0x49, 0x4E, 0x54] }
      else
        { im with sDatatype := [0x44, 0x45, 0x43, 0x49, 0x4D, 0x41, 0x4C] }
    else if md.cDatatype = 0x4C then
      { im with sDatatype := [0x44, 0x41, 0x54, 0x45] }
    else
      im
  { im with iLength := md.iOutputFieldLength, iPrecision := md.iPrecision }

/-- The loop `for (i = 0; i < cv->iNumberOfAttributes; i++)` of `CreateIngestionMetadataFile`
over the records still to print: the rows, in order. -/
def ingestionRows (sDatabase sTable : List Nat) : List METADATARECORD → Nat →
    INGESTIONMETADATA → List INGESTIONMETADATA
  | [], _, _ => []
  | md :: rest, i, im =>
    let im := ingestionRow sDatabase sTable i md im
    im :: ingestionRows sDatabase sTable rest (i + 1) im

/-- The catalog emitter `CreateIngestionMetadataFile(cv)` when the catalog file opens and the
schema path holds a slash with a dot after it: the content of `im` at each call of `snprintf`,
one row per field. `im` is the content of the local variable before the loop, which the
function never initialises; every string is taken to fit the array that holds it. The
rendering of the row by `snprintf` is left out. -/
def CreateIngestionMetadataFile (sDatabase sTable : List Nat) (im : INGESTIONMETADATA)
    (cv : CONVERTER) : List INGESTIONMETADATA :=
  ingestionRows sDatabase sTable cv.Metadata 0 im

/-! ## Definitions used to state and prove the properties -/

/-- The natural number whose base-10 digits, most significant first, are `ds`. -/
def decimalValue (ds : List Nat) : Nat := Nat.ofDigits 10 ds.reverse

/-- Horner evaluation of decimal digits, most significant first, from an initial value. -/
def horner (ds : List Nat) (v : Nat) : Nat := ds.foldl (fun a d => a * 10 + d) v

/-- The `2n-1` digit nibbles of a packed field of `n` bytes: high then low nibble of every byte
but the last, then the high nibble of the last byte. -/
def packedDigits (bs : List Nat) (last : Nat) : List Nat :=
  bs.flatMap (fun b => [hiNibble b, loNibble b]) ++ [hiNibble last]

/-- The result of `unpack` once the magnitude `m` is accumulated, by the sign nibble. -/
def packedFinish (sign : Nat) (m : Nat) : Except Fault Int :=
  if sign = 0x0D then .ok (-(m : Int))
  else if sign ≠ 0x0C ∧ sign ≠ 0x0F then .error Fault.invalidPackedSign
  else .ok (m : Int)

/-- The result of `unzone` once the magnitude `m` is accumulated, by the sign nibble. -/
def zonedFinish (sign : Nat) (m : Nat) : Except Fault Int :=
  if sign = 0x0D ∨ sign = 0x0B then .ok (-(m : Int))
  else if sign ≠ 0x0F then .error Fault.invalidZonedSign
  else .ok (m : Int)

open unpack in
/-- The loop of `unpack` as a recursion on the bytes still to read. -/
def unpackList : List Nat → Int → Except Fault Int
  | [], val => .ok val
  | [b], val =>
    let aByte := b &&& DropHO
    let val := wrap64 (wrap64 (val * 10) + ((aByte >>> 4 : Nat) : Int))
    let sign := aByte &&& GetLO
    if sign = MinusSign then .ok (wrap64 (-val))
    else if sign ≠ PlusSign ∧ sign ≠ NoSign then .error Fault.invalidPackedSign
    else .ok val
  | b :: c :: rest, val =>
    let aByte := b &&& DropHO
    let val := wrap64 (wrap64 (val * 10) + ((aByte >>> 4 : Nat) : Int))
    let val := wrap64 (wrap64 (val * 10) + ((aByte &&& GetLO : Nat) : Int))
    unpackList (c :: rest) val

open unzone in
/-- The loop of `unzone` as a recursion on the bytes still to read. -/
def unzoneList : List Nat → Int → Except Fault Int
  | [], val => .ok val
  | [b], val =>
    let aByte := b &&& DropHO
    let val := wrap64 (wrap64 (val * 10) + ((aByte &&& GetLO : Nat) : Int))
    let sign := aByte >>> 4
    if sign = MinusSign ∨ sign = OtherNegativeSign then .ok (wrap64 (-val))
    else if sign ≠ PlusSign then .error Fault.invalidZonedSign
    else .ok val
  | b :: c :: rest, val =>
    let aByte := b &&& DropHO
    let val := wrap64 (wrap64 (val * 10) + ((aByte &&& GetLO : Nat) : Int))
    unzoneList (c :: rest) val

/-- The bytes `trim` keeps: neither quote nor pipe. -/
def keepByte (c : Nat) : Bool := c != 0x22 && c != 0x7C

/-- The trimmed value as the specification words it: strip all leading and all trailing
whitespace bytes, then delete every quote and pipe byte from what remains. -/
def trimSpec (str : List Nat) : List Nat :=
  ((str.dropWhile isspace).rdropWhile isspace).filter keepByte

/-- The body of `trim` with the three loops bounded by `fuel` iterations each; `trim` is the
instance `fuel = iLength`. -/
def trimWith (fuel : Nat) (str : List Nat) : List Nat :=
  let iLength : Int := str.length
  let iBegin : Int := 0
  let iEnd : Int := iLength - 1
  let iBegin := trimBegin str iEnd fuel iBegin
  let iEnd := trimEnd str iBegin fuel iEnd
  trimCopy str iEnd fuel iBegin []

/-- A table that undoes `ebc2asc` wherever that is possible: entry `c` is the first position
of `ebc2asc` that holds `c`, and 0 for the one value `0xA4` that `ebc2asc` never yields. -/
def ebc2ascInverse : List Nat :=
  [
    0x00, 0x01, 0x02, 0x03, 0x37, 0x2D, 0x2E, 0x2F,
    0x16, 0x05, 0x25, 0x0B, 0x0C, 0x0D, 0x0E, 0x0F,
    0x10, 0x11, 0x12, 0x13, 0x3C, 0x3D, 0x32, 0x26,
    0x18, 0x19, 0x3F, 0x27, 0x1C, 0x1D, 0x1E, 0x1F,
    0x40, 0x4F, 0x7F, 0x7B, 0x5B, 0x6C, 0x50, 0x7D,
    0x4D, 0x5D, 0x5C, 0x4E, 0x6B, 0x60, 0x4B, 0x61,
    0xF0, 0xF1, 0xF2, 0xF3, 0xF4, 0xF5, 0xF6, 0xF7,
    0xF8, 0xF9, 0x7A, 0x5E, 0x4C, 0x7E, 0x6E, 0x6F,
    0xB5, 0xC1, 0xC2, 0xC3, 0xC4, 0xC5, 0xC6, 0xC7,
    0xC8, 0xC9, 0xD1, 0xD2, 0xD3, 0xD4, 0xD5, 0xD6,
    0xD7, 0xD8, 0xD9, 0xE2, 0xE3, 0xE4, 0xE5, 0xE6,
    0xE7, 0xE8, 0xE9, 0x63, 0xEC, 0xFC, 0x5F, 0x6D,
    0x79, 0x81, 0x82, 0x83, 0x84, 0x85, 0x86, 0x87,
    0x88, 0x89, 0x91, 0x92, 0x93, 0x94, 0x95, 0x96,
    0x97, 0x98, 0x99, 0xA2, 0xA3, 0xA4, 0xA5, 0xA6,
    0xA7, 0xA8, 0xA9, 0x43, 0xBB, 0xDC, 0x59, 0x07,
    0x20, 0x21, 0x22, 0x23, 0x24, 0x15, 0x06, 0x17,
    0x28, 0x29, 0x2A, 0x2B, 0x2C, 0x09, 0x0A, 0x1B,
    0x30, 0x31, 0x1A, 0x33, 0x34, 0x35, 0x36, 0x08,
    0x38, 0x39, 0x3A, 0x3B, 0x04, 0x14, 0x3E, 0xFF,
    0x41, 0xAA, 0xB0, 0xB1, 0x00, 0xB2, 0xCC, 0x7C,
    0xBD, 0xB4, 0x9A, 0x8A, 0xBA, 0xCA, 0xAF, 0xBC,
    0x90, 0x8F, 0xEA, 0xFA, 0xBE, 0xA0, 0xB6, 0xB3,
    0x9D, 0xDA, 0x9B, 0x8B, 0xB7, 0xB8, 0xB9, 0xAB,
    0x64, 0x65, 0x62, 0x66, 0x4A, 0x67, 0x9E, 0x68,
    0x74, 0x71, 0x72, 0x73, 0x78, 0x75, 0x76, 0x77,
    0xAC, 0x69, 0xED, 0xEE, 0xEB, 0xEF, 0xE0, 0xBF,
    0x80, 0xFD, 0xFE, 0xFB, 0x5A, 0xAD, 0xAE, 0xA1,
    0x44, 0x45, 0x42, 0x46, 0xC0, 0x47, 0x9C, 0x48,
    0x54, 0x51, 0x52, 0x53, 0x58, 0x55, 0x56, 0x57,
    0x8C, 0x49, 0xCD, 0xCE, 0xCB, 0xCF, 0x6A, 0xE1,
    0x70, 0xDD, 0xDE, 0xDB, 0xD0, 0x8D, 0x8E, 0xDF
  ]

/-- The replacement applied to every byte of the assembled line: CR and LF become `~`. -/
def sanitizeByte (c : Nat) : Nat := if c = 0x0A ∨ c = 0x0D then 0x7E else c

/-- Field values joined by a single `|` between consecutive fields. -/
def joinFields : List (List Nat) → List Nat
  | [] => []
  | [f] => f
  | f :: g :: rest => f ++ [0x7C] ++ joinFields (g :: rest)

/-- The decoded values of the fields `mds`, numbered from `i`, in schema order: each field is
decoded by `decodeField` on the read buffer that the fields before it leave. -/
def fieldValues (env : Env) (rec : Nat) : List METADATARECORD → Nat → List Nat →
    Except Fault (List (List Nat))
  | [], _, _ => .ok []
  | md :: rest, i, pReadBuffer =>
    match decodeField env rec i md pReadBuffer with
    | .error e => .error e
    | .ok (pReadBuffer, tb) =>
      match fieldValues env rec rest (i + 1) pReadBuffer with
      | .error e => .error e
      | .ok tbs => .ok (tb :: tbs)

/-- A record of `malloc` whose fields hold zeros and empty strings. -/
def zeroRecord : METADATARECORD :=
  { sFieldname := [], sSize := [], iInputPosition := 0, iOutputPosition := 0, iPrecision := 0,
    cDatatype := 0, iFrom := 0, iTo := 0, iInputFieldLength := 0, iOutputFieldLength := 0,
    sDescription := [], sTranslation := [] }

/-- The bytes of a string written with ASCII characters. -/
def ascii (s : String) : List Nat := s.toList.map Char.toNat

/-- The schema of the end-to-end property: a Text field at columns 1-5 and a Packed field at
columns 6-8 of width 10 and precision 2, loaded from its two schema lines. -/
def endToEndSchema : CONVERTER :=
  LoadMetadata (fun _ => zeroRecord)
    [ascii "NAME\t5\tA\t1\t5\tname\tname\n", ascii "AMOUNT\t10,2\tP\t6\t8\tamount\tamount\n"]

/-- A schema of one Text field at columns 1-3. -/
def oneTextSchema : CONVERTER :=
  LoadMetadata (fun _ => zeroRecord) [ascii "NAME\t3\tA\t1\t3\tname\tname\n"]

/-- Record number `j` of the source: its bytes `[j*L, (j+1)*L)`. -/
def recordAt (fpInFile : List Nat) (L j : Nat) : List Nat :=
  (fpInFile.drop (j * L)).take L

/-- The lines `lines 0`, ..., `lines (k-1)` one after the other. -/
def linesUpTo (lines : Nat → List Nat) (k : Nat) : List Nat :=
  ((List.range k).map lines).flatten

/-- The read buffer after the case of one field: a Date or Text field is translated in
place, a field of any other type leaves the buffer as it is. -/
def fieldReadBuffer (md : METADATARECORD) (pReadBuffer : List Nat) : List Nat :=
  if md.cDatatype = 0x4C ∨ md.cDatatype = 0x41 ∨ md.cDatatype = 0x54 then
    convertAt pReadBuffer md.pos md.len
  else pReadBuffer

/-- The read buffer after the cases of the fields `mds`, in order. -/
def readBufferAfter : List METADATARECORD → List Nat → List Nat
  | [], pReadBuffer => pReadBuffer
  | md :: rest, pReadBuffer => readBufferAfter rest (fieldReadBuffer md pReadBuffer)

/-- The ranges `[pos, pos + len)` of two fields do not overlap. -/
def Disjoint2 (a b : METADATARECORD) : Prop :=
  a.pos + a.len ≤ b.pos ∨ b.pos + b.len ≤ a.pos

/-- The field ranges of a schema do not overlap. -/
def RangesDisjoint (mds : List METADATARECORD) : Prop :=
  mds.Pairwise Disjoint2

instance instDecidableDisjoint2 (a b : METADATARECORD) : Decidable (Disjoint2 a b) := by
  unfold Disjoint2; infer_instance

instance instDecidableRangesDisjoint (mds : List METADATARECORD) :
    Decidable (RangesDisjoint mds) := by
  unfold RangesDisjoint; infer_instance

/-- A schema of one field at columns 1-3 whose type code is `X`. -/
def unmanagedSchema : CONVERTER :=
  LoadMetadata (fun _ => zeroRecord) [ascii "CODE\t3\tX\t1\t3\tcode\tcode\n"]

/-- A schema whose two fields, a Text field and a Packed field, both cover column 1. -/
def overlapSchema : CONVERTER :=
  LoadMetadata (fun _ => zeroRecord)
    [ascii "TEXT\t1\tA\t1\t1\ttext\ttext\n", ascii "NUM\t1\tP\t1\t1\tnum\tnum\n"]

/-- A source of two records of the end-to-end schema followed by three bytes. -/
def twoRecords : List Nat :=
  [0xC1, 0x25, 0xC2, 0x40, 0x40, 0x12, 0x34, 0x5C]
    ++ [0x40, 0x40, 0x40, 0x40, 0x40, 0x00, 0x00, 0x5D] ++ [0x01, 0x02, 0x03]

/-- The lines of the two records of `twoRecords`. -/
def twoLines (j : Nat) : List Nat :=
  if j = 0 then ascii "A~B|123.45\n" else ascii " |-0.05\n"

/-- Packed decimal as the specification describes it: the digits two per byte, high nibble
first, the last digit in the high nibble of the last byte and the sign in its low nibble.
The number of digits is odd. -/
def packNibbles : List Nat → Nat → List Nat
  | [], _ => []
  | [d], sign => [d * 16 + sign]
  | d1 :: d2 :: rest, sign => (d1 * 16 + d2) :: packNibbles rest sign

/-- The `k` low decimal digits of `m`, most significant first, zeros in front. -/
def digitsOfWidth : Nat → Nat → List Nat
  | 0, _ => []
  | k + 1, m => digitsOfWidth k (m / 10) ++ [m % 10]

/-- The packed encoding of the integer `v` in `n` bytes: the `2n-1` digits of its magnitude,
then the sign nibble, 0xD for a negative value and `plus` (0xC or 0xF) otherwise. -/
def encodePacked (n : Nat) (plus : Nat) (v : Int) : List Nat :=
  packNibbles (digitsOfWidth (2 * n - 1) v.natAbs) (if v < 0 then 0x0D else plus)

/-- The packed encoding of a digit sequence: a zero digit in front when their number is even,
then `packNibbles`. -/
def packedEncode (ds : List Nat) (sign : Nat) : List Nat :=
  packNibbles (if ds.length % 2 = 0 then 0 :: ds else ds) sign

/-- The zoned encoding of a digit sequence: one digit per low nibble, the sign in the high
nibble of the last byte, and the nibbles `zones` (0xF where there is none) in the high
nibbles of the bytes before it. -/
def zonedEncode : List Nat → List Nat → Nat → List Nat
  | _, [], _ => []
  | _, [d], sign => [sign * 16 + d]
  | zones, d :: d2 :: rest, sign =>
    (zones.headD 0x0F * 16 + d) :: zonedEncode zones.tail (d2 :: rest) sign

/-- The accumulation `val = val*10 + digit` of both decoders over a digit sequence, in 64-bit
arithmetic. -/
def wrapHorner (ds : List Nat) (val : Int) : Int :=
  ds.foldl (fun (v : Int) (d : Nat) => wrap64 (wrap64 (v * 10) + (d : Int))) val

/-- The end of `unpack` on the accumulated value, in 64-bit arithmetic. -/
def packedFinishW (sign : Nat) (v : Int) : Except Fault Int :=
  if sign = 0x0D then .ok (wrap64 (-v))
  else if sign ≠ 0x0C ∧ sign ≠ 0x0F then .error Fault.invalidPackedSign
  else .ok v

/-- The end of `unzone` on the accumulated value, in 64-bit arithmetic. -/
def zonedFinishW (sign : Nat) (v : Int) : Except Fault Int :=
  if sign = 0x0D ∨ sign = 0x0B then .ok (wrap64 (-v))
  else if sign ≠ 0x0F then .error Fault.invalidZonedSign
  else .ok v

open unpack in
/-- The loop of `unpack` over the unbounded integers: `unpackList` without the reduction to
64 bits. -/
def unpackExact : List Nat → Int → Except Fault Int
  | [], val => .ok val
  | [b], val =>
    let aByte := b &&& DropHO
    let val := val * (10 : Int) + ((aByte >>> 4 : Nat) : Int)
    let sign := aByte &&& GetLO
    if sign = MinusSign then .ok (-val)
    else if sign ≠ PlusSign ∧ sign ≠ NoSign then .error Fault.invalidPackedSign
    else .ok val
  | b :: c :: rest, val =>
    let aByte := b &&& DropHO
    let val := val * (10 : Int) + ((aByte >>> 4 : Nat) : Int)
    let val := val * (10 : Int) + ((aByte &&& GetLO : Nat) : Int)
    unpackExact (c :: rest) val

open unpack in
/-- Every value that `unpack` computes over the unbounded integers, in order: each product
`val * 10`, each sum `val * 10 + digit` and the negation at a minus sign. -/
def unpackValues : List Nat → Int → List Int
  | [], _ => []
  | [b], val =>
    let aByte := b &&& DropHO
    let v := val * (10 : Int) + ((aByte >>> 4 : Nat) : Int)
    val * 10 :: v :: (if aByte &&& GetLO = MinusSign then [-v] else [])
  | b :: c :: rest, val =>
    let aByte := b &&& DropHO
    let v1 := val * (10 : Int) + ((aByte >>> 4 : Nat) : Int)
    let v2 := v1 * (10 : Int) + ((aByte &&& GetLO : Nat) : Int)
    val * 10 :: v1 :: v1 * 10 :: v2 :: unpackValues (c :: rest) v2

open unzone in
/-- The loop of `unzone` over the unbounded integers: `unzoneList` without the reduction to
64 bits. -/
def unzoneExact : List Nat → Int → Except Fault Int
  | [], val => .ok val
  | [b], val =>
    let aByte := b &&& DropHO
    let val := val * (10 : Int) + ((aByte &&& GetLO : Nat) : Int)
    let sign := aByte >>> 4
    if sign = MinusSign ∨ sign = OtherNegativeSign then .ok (-val)
    else if sign ≠ PlusSign then .error Fault.invalidZonedSign
    else .ok val
  | b :: c :: rest, val =>
    let aByte := b &&& DropHO
    let val := val * (10 : Int) + ((aByte &&& GetLO : Nat) : Int)
    unzoneExact (c :: rest) val

open unzone in
/-- Every value that `unzone` computes over the unbounded integers, in order. -/
def unzoneValues : List Nat → Int → List Int
  | [], _ => []
  | [b], val =>
    let aByte := b &&& DropHO
    let v := val * (10 : Int) + ((aByte &&& GetLO : Nat) : Int)
    val * 10 :: v ::
      (if aByte >>> 4 = MinusSign ∨ aByte >>> 4 = OtherNegativeSign then [-v] else [])
  | b :: c :: rest, val =>
    let aByte := b &&& DropHO
    let v := val * (10 : Int) + ((aByte &&& GetLO : Nat) : Int)
    val * 10 :: v :: unzoneValues (c :: rest) v

/-- A token of a schema line: not empty, without a tab and without NUL. -/
def IsToken (t : List Nat) : Prop := t ≠ [] ∧ ∀ x ∈ t, x ≠ 0x09 ∧ x ≠ 0

instance instDecidableIsToken (t : List Nat) : Decidable (IsToken t) := by
  unfold IsToken; infer_instance

/-- The tokens `ts`, each followed by a tab, then the bytes `tail`. -/
def tabbed : List (List Nat) → List Nat → List Nat
  | [], tail => tail
  | t :: ts, tail => t ++ 0x09 :: tabbed ts tail

/-- The memory that `strtok` leaves of `tabbed ts tail` once it has returned every token of
`ts`: each tab is overwritten by NUL. -/
def zeroed : List (List Nat) → List Nat → List Nat
  | [], tail => tail
  | t :: ts, tail => t ++ 0 :: zeroed ts tail

/-- The first five columns of a line of the schema file and what follows the tab after the
fifth: the description, the translation and the newline. -/
structure SchemaLine where
  name : List Nat
  size : List Nat
  typ : List Nat
  colFrom : List Nat
  colTo : List Nat
  tail : List Nat

/-- The bytes of a schema line as `fgets` delivers them. -/
def SchemaLine.bytes (l : SchemaLine) : List Nat :=
  tabbed [l.name, l.size, l.typ, l.colFrom, l.colTo] l.tail

/-- A line is well formed when each of its first five columns is a token, the name fits
`sFieldname[11]`, the size fits `sSize[5]` and the line fits the buffer of `fgets`. -/
def SchemaLine.WellFormed (l : SchemaLine) : Prop :=
  IsToken l.name ∧ IsToken l.size ∧ IsToken l.typ ∧ IsToken l.colFrom ∧ IsToken l.colTo ∧
  l.name.length ≤ 10 ∧ l.size.length ≤ 4 ∧ l.bytes.length ≤ 254

instance instDecidableWellFormed (l : SchemaLine) : Decidable l.WellFormed := by
  unfold SchemaLine.WellFormed; infer_instance

/-- One call of `strtok` followed by the token loop: the state of `LoadMetadata` right before
a call of `strtok` on the line. -/
def scanTokens (fuel : Nat) (mem : List Nat) (saved j : Nat) (cv : CONVERTER)
    (md : METADATARECORD) : CONVERTER × METADATARECORD :=
  let (pToken, mem, saved) := strtok mem 0x09 saved
  tokenLoop fuel mem saved pToken j cv md

/-- The tokens `ts` stored one after the other as tokens number `j`, `j + 1`, ... -/
def storeTokens : List (List Nat) → Nat → CONVERTER × METADATARECORD →
    CONVERTER × METADATARECORD
  | [], _, s => s
  | t :: ts, j, s => storeTokens ts (j + 1) (storeToken s.1 j t s.2)

/-- The output position that `LoadMetadata` gives to the record that follows `prev`. -/
def nextOutputPosition (prev : Option METADATARECORD) : Int :=
  match prev with
  | none => 0
  | some p => wrap32 (p.iOutputPosition + p.iOutputFieldLength)

/-- What a loaded record takes from its line: name, type code, range and the input position
and length derived from the range in `int` arithmetic. -/
def Describes (l : SchemaLine) (md : METADATARECORD) : Prop :=
  md.sFieldname = l.name ∧ md.cDatatype = l.typ.headD 0 ∧
  md.iFrom = atoi l.colFrom ∧ md.iTo = atoi l.colTo ∧
  md.iInputPosition = wrap32 (md.iFrom - 1) ∧
  md.iInputFieldLength = wrap32 (wrap32 (md.iTo - md.iFrom) + 1)

/-- Each record of the list has the output position that follows from the record before it,
the first one from `prev`. -/
def OutputChain : Option METADATARECORD → List METADATARECORD → Prop
  | _, [] => True
  | prev, md :: rest => md.iOutputPosition = nextOutputPosition prev ∧ OutputChain (some md) rest

/-- The two lines of the end-to-end schema. -/
def endToEndLines : List SchemaLine :=
  [ ⟨ascii "NAME", ascii "5", ascii "A", ascii "1", ascii "5", ascii "name\tname\n"⟩,
    ⟨ascii "AMOUNT", ascii "10,2", ascii "P", ascii "6", ascii "8", ascii "amount\tamount\n"⟩ ]

/-- The ranges `iFrom..iTo` of the records tile the columns from `start` on: the first range
starts at `start`, no range is empty, each next range starts right after the one before. -/
def Tiles : Int → List METADATARECORD → Prop
  | _, [] => True
  | start, md :: rest => md.iFrom = start ∧ md.iFrom ≤ md.iTo ∧ Tiles (md.iTo + 1) rest

instance instDecidableTiles : ∀ (start : Int) (mds : List METADATARECORD),
    Decidable (Tiles start mds)
  | _, [] => isTrue trivial
  | start, md :: rest =>
    have := instDecidableTiles (md.iTo + 1) rest
    inferInstanceAs (Decidable (md.iFrom = start ∧ md.iFrom ≤ md.iTo ∧ Tiles (md.iTo + 1) rest))

/-- The slices `[pos, pos + len)` of the records follow one another from byte `s` on, none of
them empty. -/
def SlicesFrom : Nat → List METADATARECORD → Prop
  | _, [] => True
  | s, md :: rest => md.pos = s ∧ 1 ≤ md.len ∧ SlicesFrom (s + md.len) rest

/-- The sum of the input lengths of the records, as a natural number. -/
def totalLen (mds : List METADATARECORD) : Nat := (mds.map (fun m => m.len)).sum

/-- The output type of the catalog for a field of one of the five type codes, by the table of
the specification: CHAR for `A` and `T`, DATE for `L`, and for `P` and `S` INTEGER with
precision 0 and a width below 10, BIGINT with precision 0 and a width of 10 or more, DECIMAL
otherwise. -/
def catalogType (md : METADATARECORD) : List Nat :=
  if md.cDatatype = 0x41 ∨ md.cDatatype = 0x54 then ascii "CHAR"
  else if md.cDatatype = 0x4C then ascii "DATE"
  else if md.iPrecision = 0 then
    if md.iOutputFieldLength < 10 then ascii "INTEGER" else ascii "BIGINT"
  else ascii "DECIMAL"

/-- A schema of a Text field at columns 1-3 and a field of the unmanaged type code `X`. -/
def textThenUnmanaged : CONVERTER :=
  LoadMetadata (fun _ => zeroRecord)
    [ascii "NAME\t3\tA\t1\t3\tname\tname\n", ascii "CODE\t3\tX\t4\t6\tcode\tcode\n"]

/-- The schema `textThenUnmanaged` with the type code of its first field changed to `L`. -/
def dateThenUnmanaged : CONVERTER :=
  LoadMetadata (fun _ => zeroRecord)
    [ascii "NAME\t3\tL\t1\t3\tname\tname\n", ascii "CODE\t3\tX\t4\t6\tcode\tcode\n"]

/-- The content of `im` before the loop taken as zeros and empty strings. -/
def zeroIngestion : INGESTIONMETADATA :=
  { sDatabase := [], sTable := [], iFieldposition := 0, sFieldname := [], sDatatype := [],
    iLength := 0, iPrecision := 0 }

/-- The bound on the bytes that a field hands to the write buffer: the output length for a
Packed or Zoned field, the input length for a Text or Date field. -/
def fieldBound (md : METADATARECORD) : Nat :=
  if md.cDatatype = 0x50 ∨ md.cDatatype = 0x53 then md.iOutputFieldLength.toNat else md.len

/-- The range of a 32-bit `int`. -/
def InInt (x : Int) : Prop := -2147483648 ≤ x ∧ x ≤ 2147483647

instance instDecidableInInt (x : Int) : Decidable (InInt x) := by
  unfold InInt; infer_instance

/-- The bytes of a string of decimal digits. -/
def digitBytes (ds : List Nat) : List Nat := ds.map (fun d => 0x30 + d)

/-- Three well-formed lines, each with the columns 1 to 1000000000. -/
def wideLines : List SchemaLine :=
  [ ⟨ascii "F1", ascii "4", ascii "A", ascii "1", ascii "1000000000", ascii "d\tt\n"⟩,
    ⟨ascii "F2", ascii "4", ascii "A", ascii "1", ascii "1000000000", ascii "d\tt\n"⟩,
    ⟨ascii "F3", ascii "4", ascii "A", ascii "1", ascii "1000000000", ascii "d\tt\n"⟩ ]

/-- One well-formed line whose from-column and to-column are both 4294967297. -/
def farLines : List SchemaLine :=
  [ ⟨ascii "F1", ascii "4", ascii "A", ascii "4294967297", ascii "4294967297",
      ascii "d\tt\n"⟩ ]

/-! # Properties -/

set_option maxRecDepth 100000

/-! ## Machine arithmetic and nibbles -/

theorem wrap64_of_range (x : Int) (h1 : -9223372036854775808 ≤ x) (h2 : x < 9223372036854775808) :
    wrap64 x = x := by
  unfold wrap64; omega

theorem wrapStep_exact (v d : Nat) (h : v * 10 + d < 9223372036854775808) :
    wrap64 (wrap64 ((v : Int) * 10) + (d : Int)) = ((v * 10 + d : Nat) : Int) := by
  rw [wrap64_of_range ((v : Int) * 10) (by omega) (by omega)]
  rw [wrap64_of_range _ (by omega) (by omega)]
  push_cast; rfl

theorem mask_shift (b : Nat) : (b &&& 0xFF) >>> 4 = hiNibble (b % 256) := by
  have := Nat.and_pow_two_sub_one_eq_mod b 8
  simp only [hiNibble, Nat.shiftRight_eq_div_pow]
  norm_num at this ⊢
  rw [this]

theorem mask_low (b : Nat) : (b &&& 0xFF) &&& 0x0F = loNibble b := by
  have h1 := Nat.and_pow_two_sub_one_eq_mod b 8
  have h2 := Nat.and_pow_two_sub_one_eq_mod (b % 256) 4
  norm_num at h1 h2
  rw [h1, h2]; rfl
theorem le_horner (ds : List Nat) : ∀ v, v ≤ horner ds v := by
  induction ds with
  | nil => intro v; simp [horner]
  | cons d ds ih =>
    intro v
    have := ih (v * 10 + d)
    simp only [horner, List.foldl_cons] at this ⊢
    omega

theorem horner_eq_ofDigits (ds : List Nat) :
    ∀ v, horner ds v = v * 10 ^ ds.length + Nat.ofDigits 10 ds.reverse := by
  induction ds with
  | nil => intro v; simp [horner]
  | cons d ds ih =>
    intro v
    have := ih (v * 10 + d)
    simp only [horner, List.foldl_cons] at this ⊢
    rw [this, List.reverse_cons, Nat.ofDigits_append, Nat.ofDigits_singleton]
    simp only [List.length_reverse, List.length_cons]
    ring

theorem decimalValue_lt (ds : List Nat) (h : ∀ d ∈ ds, d ≤ 9) :
    decimalValue ds < 10 ^ ds.length := by
  have := Nat.ofDigits_lt_base_pow_length (b := 10) (l := ds.reverse) (by norm_num)
    (fun x hx => by have := h x (by simpa using hx); omega)
  simpa [decimalValue] using this

/-! ## `unpack` -/

theorem unpackLoop_eq_unpackList (pdIn : List Nat) :
    ∀ (n i : Nat) (val : Int), i + n = pdIn.length →
      unpackLoop pdIn pdIn.length n i val = unpackList (pdIn.drop i) val := by
  intro n
  induction n with
  | zero =>
    intro i val h
    have : pdIn.drop i = [] := by simp [List.drop_eq_nil_iff]; omega
    simp [unpackLoop, this, unpackList]
  | succ n ih =>
    intro i val h
    have hi : i < pdIn.length := by omega
    have hd : pdIn.drop i = pdIn[i] :: pdIn.drop (i + 1) := List.drop_eq_getElem_cons hi
    have hg : pdIn.getD i 0 = pdIn[i] := by simp [List.getD_eq_getElem?_getD, List.getElem?_eq_getElem hi]
    rw [hd]
    by_cases hlast : i = pdIn.length - 1
    · have hn : n = 0 := by omega
      subst hn
      have : pdIn.drop (i + 1) = [] := by simp [List.drop_eq_nil_iff]; omega
      rw [this]
      simp only [unpackLoop, unpackList, hg, if_pos hlast]
    · have hi2 : i + 1 < pdIn.length := by omega
      have hd2 : pdIn.drop (i + 1) = pdIn[i + 1] :: pdIn.drop (i + 1 + 1) :=
        List.drop_eq_getElem_cons hi2
      rw [hd2]
      simp only [unpackLoop, unpackList, hg, if_neg hlast]
      rw [ih (i + 1) _ (by omega), hd2]

theorem unpack_eq_unpackList (pdIn : List Nat) : unpack pdIn = unpackList pdIn 0 := by
  unfold unpack
  rw [unpackLoop_eq_unpackList pdIn pdIn.length 0 0 (by omega)]
  simp

theorem unpackList_exact (last : Nat) (hlast : last < 256) :
    ∀ (bs : List Nat) (v : Nat), (∀ b ∈ bs, b < 256) →
      horner (packedDigits bs last) v < 9223372036854775808 →
      unpackList (bs ++ [last]) (v : Int)
        = packedFinish (loNibble last) (horner (packedDigits bs last) v) := by
  intro bs
  induction bs with
  | nil =>
    intro v _ hov
    simp only [packedDigits, List.flatMap_nil, List.nil_append, horner, List.foldl_cons,
      List.foldl_nil] at hov ⊢
    simp only [unpackList, mask_shift, mask_low, Nat.mod_eq_of_lt hlast]
    rw [wrapStep_exact _ _ hov]
    rw [wrap64_of_range (-((v * 10 + hiNibble last : Nat) : Int)) (by omega) (by omega)]
    simp [packedFinish]
  | cons b bs ih =>
    intro v hb hov
    have hb256 : b < 256 := hb b (by simp)
    have hrest : ∀ x ∈ bs, x < 256 := fun x hx => hb x (by simp [hx])
    have hd : packedDigits (b :: bs) last = hiNibble b :: loNibble b :: packedDigits bs last := by
      simp [packedDigits]
    rw [hd] at hov ⊢
    simp only [horner, List.foldl_cons] at hov ⊢
    have h2 := le_horner (packedDigits bs last) ((v * 10 + hiNibble b) * 10 + loNibble b)
    simp only [horner] at h2
    obtain ⟨c, rest, hcr⟩ : ∃ c rest, bs ++ [last] = c :: rest := by
      cases bs with
      | nil => exact ⟨last, [], rfl⟩
      | cons x xs => exact ⟨x, xs ++ [last], rfl⟩
    rw [List.cons_append, hcr, unpackList]
    simp only [mask_shift, mask_low, Nat.mod_eq_of_lt hb256]
    rw [wrapStep_exact v _ (by omega), wrapStep_exact _ _ (by omega), ← hcr]
    exact ih _ hrest hov

theorem packedDigits_length (bs : List Nat) (last : Nat) :
    (packedDigits bs last).length = 2 * (bs ++ [last]).length - 1 := by
  induction bs with
  | nil => simp [packedDigits]
  | cons b bs ih =>
    simp only [packedDigits, List.flatMap_cons, List.cons_append, List.length_cons,
      List.nil_append, List.length_append, List.length_nil] at ih ⊢
    omega

/-- Claim C1: for every packed field of `n ≥ 1` bytes (`bs` followed by `last`) whose `2n-1`
digit nibbles are decimal digits and whose decimal value fits a 64-bit `long` (no overflow),
`unpack` returns that value, the integer whose base-10 digits, most significant first, are the
`2n-1` nibbles, when the sign nibble is 0xC or 0xF, and its negation when the sign nibble
is 0xD. -/
theorem unpack_decodes (bs : List Nat) (last : Nat)
    (hbytes : ∀ b ∈ bs ++ [last], b < 256)
    (hdigits : ∀ d ∈ packedDigits bs last, d ≤ 9)
    (hov : decimalValue (packedDigits bs last) < 2 ^ 63) :
    (packedDigits bs last).length = 2 * (bs ++ [last]).length - 1 ∧
    decimalValue (packedDigits bs last) < 10 ^ (2 * (bs ++ [last]).length - 1) ∧
    ((loNibble last = 0xC ∨ loNibble last = 0xF) →
      unpack (bs ++ [last]) = .ok (decimalValue (packedDigits bs last) : Int)) ∧
    (loNibble last = 0xD →
      unpack (bs ++ [last]) = .ok (-(decimalValue (packedDigits bs last) : Int))) := by
  have hlast : last < 256 := hbytes last (by simp)
  have hbs : ∀ b ∈ bs, b < 256 := fun b hb => hbytes b (by simp [hb])
  have hval : horner (packedDigits bs last) 0 = decimalValue (packedDigits bs last) := by
    rw [horner_eq_ofDigits]; simp [decimalValue]
  have hmain := unpackList_exact last hlast bs 0 hbs (by rw [hval]; norm_num at hov; exact hov)
  rw [hval] at hmain
  rw [unpack_eq_unpackList]
  simp only [Nat.cast_zero] at hmain
  refine ⟨packedDigits_length bs last, ?_, ?_, ?_⟩
  · rw [← packedDigits_length bs last]
    exact decimalValue_lt _ hdigits
  · intro h
    rw [hmain]
    rcases h with h | h <;> simp [packedFinish, h]
  · intro h
    rw [hmain]
    simp [packedFinish, h]

/-- Witness of C1 on the packed bytes `12 34 5D`, which decode to -12345. -/
theorem unpack_decodes_witness : unpack [0x12, 0x34, 0x5D] = .ok (-12345) := by
  have h := (unpack_decodes [0x12, 0x34] 0x5D (by decide) (by decide) (by decide)).2.2.2
    (by decide)
  simpa [packedDigits, hiNibble, loNibble, decimalValue, Nat.ofDigits] using h

theorem unpackList_error_iff : ∀ (l : List Nat) (val : Int),
    (∃ e, unpackList l val = .error e) ↔
      ∃ last, l.getLast? = some last ∧
        loNibble last ≠ 0xC ∧ loNibble last ≠ 0xD ∧ loNibble last ≠ 0xF := by
  intro l
  induction l with
  | nil => intro val; simp [unpackList]
  | cons b l ih =>
    intro val
    cases l with
    | nil =>
      simp only [unpackList, mask_low, List.getLast?_singleton, Option.some.injEq, exists_eq_left']
      split_ifs with h1 h2
      · simp [h1]
      · simp; tauto
      · simp; tauto
    | cons c rest =>
      rw [unpackList, ih]
      simp [List.getLast?_cons_cons]

theorem unpackList_error_kind : ∀ (l : List Nat) (val : Int) (e : Fault),
    unpackList l val = .error e → e = Fault.invalidPackedSign := by
  intro l
  induction l with
  | nil => intro val e h; simp [unpackList] at h
  | cons b l ih =>
    intro val e h
    cases l with
    | nil =>
      simp only [unpackList] at h
      split_ifs at h
      simp_all
    | cons c rest =>
      rw [unpackList] at h
      exact ih _ e h

/-- Claim C3: `unpack` ends in a decode fault if and only if the input is non-empty and the
low nibble of its last byte is none of 0xC, 0xD, 0xF; the condition does not mention any digit
nibble, and the only fault `unpack` raises is the invalid packed sign. -/
theorem unpack_fault_iff (pdIn : List Nat) :
    ((∃ e, unpack pdIn = .error e) ↔
      ∃ last, pdIn.getLast? = some last ∧
        loNibble last ≠ 0xC ∧ loNibble last ≠ 0xD ∧ loNibble last ≠ 0xF) ∧
    (∀ e, unpack pdIn = .error e → e = Fault.invalidPackedSign) := by
  rw [unpack_eq_unpackList]
  exact ⟨unpackList_error_iff pdIn 0, unpackList_error_kind pdIn 0⟩

/-! ## `unzone` -/

theorem unzoneLoop_eq_unzoneList (pdIn : List Nat) :
    ∀ (n i : Nat) (val : Int), i + n = pdIn.length →
      unzoneLoop pdIn pdIn.length n i val = unzoneList (pdIn.drop i) val := by
  intro n
  induction n with
  | zero =>
    intro i val h
    have : pdIn.drop i = [] := by simp [List.drop_eq_nil_iff]; omega
    simp [unzoneLoop, this, unzoneList]
  | succ n ih =>
    intro i val h
    have hi : i < pdIn.length := by omega
    have hd : pdIn.drop i = pdIn[i] :: pdIn.drop (i + 1) := List.drop_eq_getElem_cons hi
    have hg : pdIn.getD i 0 = pdIn[i] := by
      simp [List.getD_eq_getElem?_getD, List.getElem?_eq_getElem hi]
    rw [hd]
    by_cases hlast : i = pdIn.length - 1
    · have hn : n = 0 := by omega
      subst hn
      have : pdIn.drop (i + 1) = [] := by simp [List.drop_eq_nil_iff]; omega
      rw [this]
      simp only [unzoneLoop, unzoneList, hg, if_pos hlast]
    · have hi2 : i + 1 < pdIn.length := by omega
      have hd2 : pdIn.drop (i + 1) = pdIn[i + 1] :: pdIn.drop (i + 1 + 1) :=
        List.drop_eq_getElem_cons hi2
      rw [hd2]
      simp only [unzoneLoop, unzoneList, hg, if_neg hlast]
      rw [ih (i + 1) _ (by omega), hd2]

theorem unzone_eq_unzoneList (pdIn : List Nat) : unzone pdIn = unzoneList pdIn 0 := by
  unfold unzone
  rw [unzoneLoop_eq_unzoneList pdIn pdIn.length 0 0 (by omega)]
  simp

theorem unzoneList_exact (last : Nat) (hlast : last < 256) :
    ∀ (bs : List Nat) (v : Nat),
      horner ((bs ++ [last]).map loNibble) v < 9223372036854775808 →
      unzoneList (bs ++ [last]) (v : Int)
        = zonedFinish (hiNibble last) (horner ((bs ++ [last]).map loNibble) v) := by
  intro bs
  induction bs with
  | nil =>
    intro v hov
    simp only [List.nil_append, List.map_cons, List.map_nil, horner, List.foldl_cons,
      List.foldl_nil] at hov ⊢
    simp only [unzoneList, mask_shift, mask_low, Nat.mod_eq_of_lt hlast]
    rw [wrapStep_exact _ _ hov]
    rw [wrap64_of_range (-((v * 10 + loNibble last : Nat) : Int)) (by omega) (by omega)]
    simp [zonedFinish]
  | cons b bs ih =>
    intro v hov
    simp only [List.cons_append, List.map_cons, horner, List.foldl_cons] at hov ⊢
    have h2 := le_horner ((bs ++ [last]).map loNibble) (v * 10 + loNibble b)
    simp only [horner] at h2
    obtain ⟨c, rest, hcr⟩ : ∃ c rest, bs ++ [last] = c :: rest := by
      cases bs with
      | nil => exact ⟨last, [], rfl⟩
      | cons x xs => exact ⟨x, xs ++ [last], rfl⟩
    rw [hcr, unzoneList]
    simp only [mask_low]
    rw [wrapStep_exact v _ (by omega), ← hcr]
    exact ih _ hov

theorem unzoneList_congr (last : Nat) :
    ∀ (bs bs' : List Nat) (val : Int), bs.map loNibble = bs'.map loNibble →
      unzoneList (bs ++ [last]) val = unzoneList (bs' ++ [last]) val := by
  intro bs
  induction bs with
  | nil =>
    intro bs' val h
    cases bs' with
    | nil => rfl
    | cons x xs => simp at h
  | cons b bs ih =>
    intro bs' val h
    cases bs' with
    | nil => simp at h
    | cons b' bs' =>
      simp only [List.map_cons, List.cons.injEq] at h
      obtain ⟨c, rest, hcr⟩ : ∃ c rest, bs ++ [last] = c :: rest := by
        cases bs with
        | nil => exact ⟨last, [], rfl⟩
        | cons x xs => exact ⟨x, xs ++ [last], rfl⟩
      obtain ⟨c', rest', hcr'⟩ : ∃ c rest, bs' ++ [last] = c :: rest := by
        cases bs' with
        | nil => exact ⟨last, [], rfl⟩
        | cons x xs => exact ⟨x, xs ++ [last], rfl⟩
      rw [List.cons_append, List.cons_append, hcr, hcr', unzoneList, unzoneList]
      simp only [mask_low, h.1]
      rw [← hcr, ← hcr']
      exact ih bs' _ h.2

/-- Claim C2: for every zoned field of `n ≥ 1` bytes (`bs` followed by `last`) whose low nibbles
are decimal digits and whose decimal value fits a 64-bit `long` (no overflow), `unzone` returns
the integer whose base-10 digits, most significant first, are the `n` low nibbles when the high
nibble of the last byte is 0xF, and its negation when that nibble is 0xD or 0xB; replacing the
bytes before the last by bytes with the same low nibbles does not change the result. -/
theorem unzone_decodes (bs : List Nat) (last : Nat)
    (hbytes : ∀ b ∈ bs ++ [last], b < 256)
    (hdigits : ∀ d ∈ (bs ++ [last]).map loNibble, d ≤ 9)
    (hov : decimalValue ((bs ++ [last]).map loNibble) < 2 ^ 63) :
    decimalValue ((bs ++ [last]).map loNibble) < 10 ^ (bs ++ [last]).length ∧
    (hiNibble last = 0xF →
      unzone (bs ++ [last]) = .ok (decimalValue ((bs ++ [last]).map loNibble) : Int)) ∧
    (hiNibble last = 0xD ∨ hiNibble last = 0xB →
      unzone (bs ++ [last]) = .ok (-(decimalValue ((bs ++ [last]).map loNibble) : Int))) ∧
    (∀ bs' : List Nat, bs'.map loNibble = bs.map loNibble →
      unzone (bs' ++ [last]) = unzone (bs ++ [last])) := by
  have hlast : last < 256 := hbytes last (by simp)
  have hval : horner ((bs ++ [last]).map loNibble) 0
      = decimalValue ((bs ++ [last]).map loNibble) := by
    rw [horner_eq_ofDigits]; simp [decimalValue]
  have hov' : decimalValue ((bs ++ [last]).map loNibble) < 9223372036854775808 := by
    have h263 : (2 : Nat) ^ 63 = 9223372036854775808 := by norm_num
    rw [← h263]; exact hov
  have hmain := unzoneList_exact last hlast bs 0 (by rw [hval]; exact hov')
  rw [hval] at hmain
  simp only [Nat.cast_zero] at hmain
  refine ⟨?_, ?_, ?_, ?_⟩
  · simpa using decimalValue_lt _ hdigits
  · intro h
    rw [unzone_eq_unzoneList, hmain]
    simp [zonedFinish, h]
  · intro h
    rw [unzone_eq_unzoneList, hmain]
    rcases h with h | h <;> simp [zonedFinish, h]
  · intro bs' h
    rw [unzone_eq_unzoneList, unzone_eq_unzoneList]
    exact unzoneList_congr last bs' bs 0 h

/-- Witness of C2 on the zoned bytes `F1 42 D3`, which decode to -123. -/
theorem unzone_decodes_witness : unzone [0xF1, 0x42, 0xD3] = .ok (-123) := by
  have h := (unzone_decodes [0xF1, 0x42] 0xD3 (by decide) (by decide) (by decide)).2.2.1
    (by decide)
  simpa [hiNibble, loNibble, decimalValue, Nat.ofDigits] using h

theorem unzoneList_error_iff : ∀ (l : List Nat) (val : Int),
    (∃ e, unzoneList l val = .error e) ↔
      ∃ last, l.getLast? = some last ∧
        hiNibble (last % 256) ≠ 0xF ∧ hiNibble (last % 256) ≠ 0xD ∧
        hiNibble (last % 256) ≠ 0xB := by
  intro l
  induction l with
  | nil => intro val; simp [unzoneList]
  | cons b l ih =>
    intro val
    cases l with
    | nil =>
      simp only [unzoneList, mask_shift, List.getLast?_singleton, Option.some.injEq,
        exists_eq_left']
      split_ifs with h1 h2
      · simp; tauto
      · simp; tauto
      · simp; tauto
    | cons c rest =>
      rw [unzoneList, ih]
      simp [List.getLast?_cons_cons]

theorem unzoneList_error_kind : ∀ (l : List Nat) (val : Int) (e : Fault),
    unzoneList l val = .error e → e = Fault.invalidZonedSign := by
  intro l
  induction l with
  | nil => intro val e h; simp [unzoneList] at h
  | cons b l ih =>
    intro val e h
    cases l with
    | nil =>
      simp only [unzoneList] at h
      split_ifs at h
      simp only [Except.error.injEq] at h
      exact h.symm
    | cons c rest =>
      rw [unzoneList] at h
      exact ih _ e h

/-- Claim C4: `unzone` ends in a decode fault if and only if the input is non-empty and the
high nibble of its last byte is none of 0xF, 0xD, 0xB; the condition mentions no other nibble,
and the only fault `unzone` raises is the invalid zoned sign. -/
theorem unzone_fault_iff (pdIn : List Nat) (hbytes : ∀ b ∈ pdIn, b < 256) :
    ((∃ e, unzone pdIn = .error e) ↔
      ∃ last, pdIn.getLast? = some last ∧
        hiNibble last ≠ 0xF ∧ hiNibble last ≠ 0xD ∧ hiNibble last ≠ 0xB) ∧
    (∀ e, unzone pdIn = .error e → e = Fault.invalidZonedSign) := by
  rw [unzone_eq_unzoneList]
  refine ⟨?_, unzoneList_error_kind pdIn 0⟩
  rw [unzoneList_error_iff]
  constructor
  · rintro ⟨last, hl, h⟩
    have : last < 256 := hbytes last (List.mem_of_getLast?_eq_some hl)
    rw [Nat.mod_eq_of_lt this] at h
    exact ⟨last, hl, h⟩
  · rintro ⟨last, hl, h⟩
    have : last < 256 := hbytes last (List.mem_of_getLast?_eq_some hl)
    refine ⟨last, hl, ?_⟩
    rw [Nat.mod_eq_of_lt this]
    exact h

/-- Witness of C4 on the bytes `01 22 A3`, whose last high nibble 0xA is no sign. -/
theorem unzone_fault_iff_witness : ∃ e, unzone [0x01, 0x22, 0xA3] = .error e :=
  (unzone_fault_iff [0x01, 0x22, 0xA3] (by decide)).1.2 ⟨0xA3, by decide⟩

/-! ## `trim` -/

theorem charAt_natCast (str : List Nat) (k : Nat) : charAt str (k : Int) = str.getD k 0 := by
  simp [charAt]

theorem charAt_append_cons (pre : List Nat) (x : Nat) (rest : List Nat) (i : Int)
    (hi : i = pre.length) : charAt (pre ++ x :: rest) i = x := by
  subst hi
  have h : (pre ++ x :: rest)[pre.length]? = some x := by
    rw [List.getElem?_append_right (le_refl _)]; simp
  rw [charAt_natCast, List.getD_eq_getElem?_getD, h]; rfl

theorem trimCopy_keeps (str : List Nat) (iEnd : Int) :
    ∀ (fuel : Nat) (i : Int) (buf : List Nat), (∀ c ∈ buf, keepByte c = true) →
      ∀ c ∈ trimCopy str iEnd fuel i buf, keepByte c = true := by
  intro fuel
  induction fuel with
  | zero => intro i buf h; simpa [trimCopy] using h
  | succ n ih =>
    intro i buf h
    rw [trimCopy]
    split_ifs with h1 h2
    · exact ih _ _ h
    · apply ih
      intro c hc
      rcases List.mem_append.1 hc with hc | hc
      · exact h c hc
      · have : c = charAt str i := by simpa using hc
        subst this
        simp only [not_or] at h2
        simp [keepByte, h2.1, h2.2]
    · exact h

theorem trimCopy_length (str : List Nat) (iEnd : Int) :
    ∀ (fuel : Nat) (i : Int) (buf : List Nat),
      (trimCopy str iEnd fuel i buf).length ≤ buf.length + fuel := by
  intro fuel
  induction fuel with
  | zero => intro i buf; simp [trimCopy]
  | succ n ih =>
    intro i buf
    rw [trimCopy]
    split_ifs with h1 h2
    · have := ih (i + 1) buf; omega
    · have := ih (i + 1) (buf ++ [charAt str i])
      simp only [List.length_append, List.length_singleton] at this
      omega
    · omega

theorem trimCopy_mid (post : List Nat) :
    ∀ (mid pre : List Nat) (fuel : Nat) (i iEnd : Int) (buf : List Nat), mid.length ≤ fuel →
      i = pre.length → iEnd = (pre.length : Int) + mid.length - 1 →
      trimCopy (pre ++ mid ++ post) iEnd fuel i buf = buf ++ mid.filter keepByte := by
  intro mid
  induction mid with
  | nil =>
    intro pre fuel i iEnd buf _ hi hE
    cases fuel with
    | zero => simp [trimCopy]
    | succ n =>
      rw [trimCopy, if_neg (by simp at hE; omega)]
      simp
  | cons x mid ih =>
    intro pre fuel i iEnd buf hf hi hE
    cases fuel with
    | zero => simp at hf
    | succ n =>
      simp only [List.length_cons, Nat.cast_add, Nat.cast_one] at hE hf
      have hx : charAt (pre ++ x :: mid ++ post) i = x := by
        rw [List.append_assoc, List.cons_append]
        exact charAt_append_cons pre x _ i hi
      have hstr : pre ++ x :: mid ++ post = (pre ++ [x]) ++ mid ++ post := by simp
      rw [trimCopy, if_pos (by omega), hx]
      have hlen : (i + 1 : Int) = ((pre ++ [x]).length : Nat) := by simp [hi]
      have hE' : iEnd = (((pre ++ [x]).length : Nat) : Int) + mid.length - 1 := by
        simp; omega
      split_ifs with h2
      · rw [hstr, ih (pre ++ [x]) n (i + 1) iEnd buf (by omega) hlen hE']
        have : keepByte x = false := by
          rcases h2 with h2 | h2 <;> simp [keepByte, h2]
        simp [List.filter_cons, this]
      · rw [hstr, ih (pre ++ [x]) n (i + 1) iEnd _ (by omega) hlen hE']
        simp only [not_or] at h2
        have : keepByte x = true := by simp [keepByte, h2.1, h2.2]
        simp [List.filter_cons, this]

theorem trimBegin_skip (c : Nat) (rest : List Nat) (iEnd : Int) (hc : isspace c = false) :
    ∀ (ws pre : List Nat) (fuel : Nat) (i : Int), (∀ w ∈ ws, isspace w = true) →
      ws.length ≤ fuel → i = pre.length → (pre.length : Int) + ws.length ≤ iEnd →
      trimBegin (pre ++ ws ++ c :: rest) iEnd fuel i = (pre.length : Int) + ws.length := by
  intro ws
  induction ws with
  | nil =>
    intro pre fuel i _ _ hi _
    cases fuel with
    | zero => simp [trimBegin, hi]
    | succ n =>
      have hx : charAt (pre ++ [] ++ c :: rest) i = c := by
        rw [List.append_nil]; exact charAt_append_cons pre c _ i hi
      rw [trimBegin, hx, hc]
      simp [hi]
  | cons w ws ih =>
    intro pre fuel i hws hf hi hE
    cases fuel with
    | zero => simp at hf
    | succ n =>
      simp only [List.length_cons, Nat.cast_add, Nat.cast_one] at hE hf
      have hx : charAt (pre ++ w :: ws ++ c :: rest) i = w := by
        rw [List.append_assoc, List.cons_append]
        exact charAt_append_cons pre w _ i hi
      have hw : isspace w = true := hws w (by simp)
      have hstr : pre ++ w :: ws ++ c :: rest = (pre ++ [w]) ++ ws ++ c :: rest := by simp
      rw [trimBegin, hx, hw]
      have hlt : i < iEnd := by omega
      simp only [Bool.true_and, decide_eq_true_eq, hlt, if_true]
      rw [hstr, ih (pre ++ [w]) n (i + 1) (fun v hv => hws v (by simp [hv])) (by omega)
        (by simp [hi]) (by simp; omega)]
      simp; omega

theorem trimEnd_skip (pre : List Nat) (c : Nat) (ws : List Nat) (iBegin : Int)
    (hc : isspace c = false) (hws : ∀ w ∈ ws, isspace w = true) (hb : iBegin ≤ pre.length) :
    ∀ (j fuel : Nat) (iEnd : Int), j ≤ ws.length → j ≤ fuel → iEnd = (pre.length : Int) + j →
      trimEnd (pre ++ c :: ws) iBegin fuel iEnd = pre.length := by
  intro j
  induction j with
  | zero =>
    intro fuel iEnd _ _ hE
    simp only [Nat.cast_zero, add_zero] at hE
    cases fuel with
    | zero => simp [trimEnd, hE]
    | succ n =>
      rw [trimEnd, charAt_append_cons pre c ws iEnd hE, hc]
      simp [hE]
  | succ j ih =>
    intro fuel iEnd hj hf hE
    cases fuel with
    | zero => simp at hf
    | succ n =>
      have hjlt : j < ws.length := by omega
      have hx : charAt (pre ++ c :: ws) iEnd = ws[j] := by
        have : iEnd = ((pre.length + (j + 1) : Nat) : Int) := by rw [hE]; push_cast; ring
        have h : (pre ++ c :: ws)[pre.length + (j + 1)]? = some ws[j] := by
          rw [List.getElem?_append_right (by omega)]
          have : pre.length + (j + 1) - pre.length = j + 1 := by omega
          rw [this, List.getElem?_cons_succ, List.getElem?_eq_getElem hjlt]
        rw [this, charAt_natCast, List.getD_eq_getElem?_getD, h]; rfl
      have hw : isspace ws[j] = true := hws _ (List.getElem_mem hjlt)
      rw [trimEnd, hx, hw]
      have hgt : iEnd > iBegin := by rw [hE]; push_cast; omega
      simp only [Bool.true_and, decide_eq_true_eq, hgt, if_true]
      exact ih n (iEnd - 1) (by omega) (by omega) (by rw [hE]; push_cast; ring)

theorem rdropWhile_append_rtakeWhile (p : Nat → Bool) (l : List Nat) :
    l.rdropWhile p ++ l.rtakeWhile p = l := by
  have h := List.takeWhile_append_dropWhile p l.reverse
  have h2 := congrArg List.reverse h
  rw [List.reverse_append, List.reverse_reverse] at h2
  exact h2

theorem trim_decompose (str : List Nat) (h : ∃ c ∈ str, isspace c = false) :
    ∃ (ws1 body : List Nat) (cl : Nat) (ws2 : List Nat),
      str = ws1 ++ (body ++ [cl]) ++ ws2 ∧
      (∀ w ∈ ws1, isspace w = true) ∧ (∀ w ∈ ws2, isspace w = true) ∧
      isspace ((body ++ [cl]).headI) = false ∧ isspace cl = false ∧
      (str.dropWhile isspace).rdropWhile isspace = body ++ [cl] := by
  obtain ⟨c, hc, hcs⟩ := h
  have hr : str.dropWhile isspace ≠ [] := by
    intro hnil
    have := (List.dropWhile_eq_nil_iff.1 hnil) c hc
    simp [hcs] at this
  have hmid : (str.dropWhile isspace).rdropWhile isspace ≠ [] := by
    intro hnil
    have hall := List.rdropWhile_eq_nil_iff.1 hnil
    have h0 := List.head_dropWhile_not isspace str hr
    have h1 := hall _ (List.head_mem hr)
    simp [h1] at h0
  have hlastns := List.rdropWhile_last_not (p := isspace) (l := str.dropWhile isspace) hmid
  have hsplit := List.dropLast_append_getLast hmid
  refine ⟨str.takeWhile isspace, ((str.dropWhile isspace).rdropWhile isspace).dropLast,
    ((str.dropWhile isspace).rdropWhile isspace).getLast hmid,
    (str.dropWhile isspace).rtakeWhile isspace, ?_, ?_, ?_, ?_, ?_, ?_⟩
  · rw [hsplit, List.append_assoc, rdropWhile_append_rtakeWhile,
      List.takeWhile_append_dropWhile]
  · intro w hw; exact List.mem_takeWhile_imp hw
  · intro w hw; exact List.mem_rtakeWhile_imp hw
  · rw [hsplit]
    have hpre : (str.dropWhile isspace).rdropWhile isspace <+: str.dropWhile isspace :=
      List.rdropWhile_prefix isspace _
    obtain ⟨t, ht⟩ := hpre
    have h0 := List.head_dropWhile_not isspace str hr
    cases hm : (str.dropWhile isspace).rdropWhile isspace with
    | nil => exact absurd hm hmid
    | cons x xs =>
      rw [hm] at ht
      have : (str.dropWhile isspace).head hr = x := by
        simp [← ht]
      rw [this] at h0
      simpa using h0
  · simpa using hlastns
  · exact hsplit.symm

theorem trim_eq_trimSpec (str : List Nat) (h : ∃ c ∈ str, isspace c = false) :
    trim str = trimSpec str := by
  obtain ⟨ws1, body, cl, ws2, hstr, hws1, hws2, hhead, hcl, hspec⟩ := trim_decompose str h
  have hlen : str.length = ws1.length + (body.length + 1) + ws2.length := by
    rw [hstr]; simp; omega
  -- the first loop stops at the first byte of the span
  obtain ⟨c1, rest1, hc1⟩ : ∃ c1 rest1, body ++ [cl] = c1 :: rest1 := by
    cases body with
    | nil => exact ⟨cl, [], rfl⟩
    | cons x xs => exact ⟨x, xs ++ [cl], rfl⟩
  have hc1s : isspace c1 = false := by rw [hc1] at hhead; simpa using hhead
  have hB : trimBegin str ((str.length : Int) - 1) str.length 0 = ws1.length := by
    have hform : str = [] ++ ws1 ++ c1 :: (rest1 ++ ws2) := by
      rw [hstr, hc1]; simp
    have := trimBegin_skip c1 (rest1 ++ ws2) ((str.length : Int) - 1) hc1s ws1 [] str.length 0
      hws1 (by omega) (by simp) (by simp; omega)
    rw [← hform] at this
    simpa using this
  -- the second loop stops at the last byte of the span
  have hE : trimEnd str (ws1.length : Int) str.length ((str.length : Int) - 1)
      = ((ws1 ++ body).length : Nat) := by
    have hform : str = (ws1 ++ body) ++ cl :: ws2 := by
      rw [hstr]; simp
    have := trimEnd_skip (ws1 ++ body) cl ws2 (ws1.length : Int) hcl hws2 (by simp)
      ws2.length str.length ((str.length : Int) - 1) (le_refl _) (by omega)
      (by simp; omega)
    rw [← hform] at this
    exact this
  -- the copy loop filters the span
  have hC : trimCopy str (((ws1 ++ body).length : Nat) : Int) str.length (ws1.length : Int) []
      = (body ++ [cl]).filter keepByte := by
    have := trimCopy_mid ws2 (body ++ [cl]) ws1 str.length (ws1.length : Int)
      (((ws1 ++ body).length : Nat) : Int) [] (by simp; omega) rfl (by simp; omega)
    rw [← hstr] at this
    simpa using this
  simp only [trim, trimSpec]
  rw [hB, hE, hC, hspec]

theorem trimBegin_fuel (str : List Nat) (iEnd : Int) :
    ∀ (fuel k : Nat) (i : Int), iEnd - i ≤ fuel →
      trimBegin str iEnd (fuel + k) i = trimBegin str iEnd fuel i := by
  intro fuel
  induction fuel with
  | zero =>
    intro k i h
    cases k with
    | zero => rfl
    | succ k =>
      have : ¬ i < iEnd := by simp at h; omega
      simp [trimBegin, this]
  | succ n ih =>
    intro k i h
    have hk : n + 1 + k = (n + k) + 1 := by omega
    rw [hk, trimBegin, trimBegin, ih k (i + 1) (by push_cast at h; omega)]

theorem trimEnd_fuel (str : List Nat) (iBegin : Int) :
    ∀ (fuel k : Nat) (i : Int), i - iBegin ≤ fuel →
      trimEnd str iBegin (fuel + k) i = trimEnd str iBegin fuel i := by
  intro fuel
  induction fuel with
  | zero =>
    intro k i h
    cases k with
    | zero => rfl
    | succ k =>
      have : ¬ i > iBegin := by simp at h; omega
      simp [trimEnd, this]
  | succ n ih =>
    intro k i h
    have hk : n + 1 + k = (n + k) + 1 := by omega
    rw [hk, trimEnd, trimEnd, ih k (i - 1) (by push_cast at h; omega)]

theorem trimCopy_fuel (str : List Nat) (iEnd : Int) :
    ∀ (fuel k : Nat) (i : Int) (buf : List Nat), iEnd - i + 1 ≤ fuel →
      trimCopy str iEnd (fuel + k) i buf = trimCopy str iEnd fuel i buf := by
  intro fuel
  induction fuel with
  | zero =>
    intro k i buf h
    cases k with
    | zero => rfl
    | succ k =>
      have : ¬ i ≤ iEnd := by simp at h; omega
      simp [trimCopy, this]
  | succ n ih =>
    intro k i buf h
    have hk : n + 1 + k = (n + k) + 1 := by omega
    rw [hk, trimCopy, trimCopy, ih k (i + 1) _ (by push_cast at h; omega),
      ih k (i + 1) _ (by push_cast at h; omega)]

theorem le_trimBegin (str : List Nat) (iEnd : Int) :
    ∀ (fuel : Nat) (i : Int), i ≤ trimBegin str iEnd fuel i := by
  intro fuel
  induction fuel with
  | zero => intro i; simp [trimBegin]
  | succ n ih =>
    intro i
    rw [trimBegin]
    split_ifs
    · have := ih (i + 1); omega
    · exact le_refl _

theorem trimEnd_le (str : List Nat) (iBegin : Int) :
    ∀ (fuel : Nat) (i : Int), trimEnd str iBegin fuel i ≤ i := by
  intro fuel
  induction fuel with
  | zero => intro i; simp [trimEnd]
  | succ n ih =>
    intro i
    rw [trimEnd]
    split_ifs
    · have := ih (i - 1); omega
    · exact le_refl _

/-- The iteration bound of the loops of `trim` is never what stops them: with any larger
bound the three loops compute the same value. -/
theorem trim_fuel_adequate (str : List Nat) (k : Nat) :
    trimWith (str.length + k) str = trim str := by
  have h1 := trimBegin_fuel str ((str.length : Int) - 1) str.length k 0 (by omega)
  have hb := le_trimBegin str ((str.length : Int) - 1) str.length 0
  have h2 := trimEnd_fuel str (trimBegin str ((str.length : Int) - 1) str.length 0)
    str.length k ((str.length : Int) - 1) (by omega)
  have he := trimEnd_le str (trimBegin str ((str.length : Int) - 1) str.length 0)
    str.length ((str.length : Int) - 1)
  have h3 := trimCopy_fuel str
    (trimEnd str (trimBegin str ((str.length : Int) - 1) str.length 0) str.length
      ((str.length : Int) - 1))
    str.length k (trimBegin str ((str.length : Int) - 1) str.length 0) [] (by omega)
  simp only [trimWith, trim]
  rw [h1, h2, h3]

/-- Claim C5: for every buffer the value produced by `trim` contains no quote byte (0x22) and no
pipe byte (0x7C); the nine bytes `  A"B|C  ` give `ABC`. -/
theorem trim_no_delimiter (str : List Nat) :
    0x22 ∉ trim str ∧ 0x7C ∉ trim str ∧
    trim [0x20, 0x20, 0x41, 0x22, 0x42, 0x7C, 0x43, 0x20, 0x20] = [0x41, 0x42, 0x43] := by
  have h := trimCopy_keeps str
    (trimEnd str (trimBegin str ((str.length : Int) - 1) str.length 0) str.length
      ((str.length : Int) - 1))
    str.length (trimBegin str ((str.length : Int) - 1) str.length 0) [] (by simp)
  refine ⟨?_, ?_, by decide⟩
  · intro hmem
    have := h _ hmem
    simp [keepByte] at this
  · intro hmem
    have := h _ hmem
    simp [keepByte] at this

/-- Claim C6 as stated fails: the one-byte field holding a space is returned unchanged, while
stripping its whitespace leaves the empty string. -/
theorem trim_blank_counterexample :
    1 ≤ [0x20].length ∧ trim [0x20] = [0x20] ∧ trimSpec [0x20] = [] ∧
      trim [0x20] ≠ trimSpec [0x20] := by
  decide

/-- Claim C6, amended: the value of `trim` is never longer than the field, and for a field that
holds at least one non-whitespace byte it is exactly the field with all leading and all
trailing whitespace bytes stripped and every quote and pipe byte of the rest deleted. -/
theorem trim_strips (str : List Nat) :
    (trim str).length ≤ str.length ∧
    ((∃ c ∈ str, isspace c = false) → trim str = trimSpec str) := by
  refine ⟨?_, trim_eq_trimSpec str⟩
  have := trimCopy_length str
    (trimEnd str (trimBegin str ((str.length : Int) - 1) str.length 0) str.length
      ((str.length : Int) - 1))
    str.length (trimBegin str ((str.length : Int) - 1) str.length 0) []
  simpa [trim] using this

/-- Witness of C6 amended on the eight bytes `\t"A |B\n ` (tab first, space last). -/
theorem trim_strips_witness :
    trim [0x09, 0x22, 0x41, 0x20, 0x7C, 0x42, 0x0A, 0x20] = [0x41, 0x20, 0x42] := by
  have h := (trim_strips [0x09, 0x22, 0x41, 0x20, 0x7C, 0x42, 0x0A, 0x20]).2
    ⟨0x41, by decide, by decide⟩
  rw [h]; decide

/-! ## The code page table and `convert` -/

theorem convertLoop_outside : ∀ (n i : Nat) (buf : List Nat), buf.length ≤ i →
    convertLoop n i buf = buf := by
  intro n
  induction n with
  | zero => intro i buf _; rfl
  | succ n ih =>
    intro i buf h
    rw [convertLoop, List.set_eq_of_length_le h]
    exact ih (i + 1) buf (by omega)

theorem convertLoop_eq : ∀ (n : Nat) (pre post : List Nat),
    convertLoop n pre.length (pre ++ post)
      = pre ++ (post.take n).map (fun b => ebc2asc.getD b 0) ++ post.drop n := by
  intro n
  induction n with
  | zero => intro pre post; simp [convertLoop]
  | succ n ih =>
    intro pre post
    cases post with
    | nil =>
      rw [convertLoop_outside (n + 1) pre.length (pre ++ []) (by simp)]
      simp
    | cons x post =>
      have hg : (pre ++ x :: post).getD pre.length 0 = x := by
        have h : (pre ++ x :: post)[pre.length]? = some x := by
          rw [List.getElem?_append_right (le_refl _)]; simp
        rw [List.getD_eq_getElem?_getD, h]; rfl
      have hs : (pre ++ x :: post).set pre.length (ebc2asc.getD x 0)
          = (pre ++ [ebc2asc.getD x 0]) ++ post := by
        simp [List.set_append_right]
      rw [convertLoop, hg, hs]
      have := ih (pre ++ [ebc2asc.getD x 0]) post
      simp only [List.length_append, List.length_singleton] at this
      rw [this]
      simp

theorem convert_eq (pBuffer : List Nat) (count : Nat) :
    convert pBuffer count
      = (pBuffer.take count).map (fun b => ebc2asc.getD b 0) ++ pBuffer.drop count := by
  have := convertLoop_eq count [] pBuffer
  simpa [convert] using this

/-- Claim C9 as stated fails: positions 0x6F and 0x9F of the table both hold 0x3F, so no table
can undo the translation of every byte. -/
theorem ebc2asc_no_inverse :
    ¬ ∃ inv : List Nat, inv.length = 256 ∧
      ∀ b, b < 256 → inv.getD (ebc2asc.getD b 0) 0 = b := by
  rintro ⟨inv, _, h⟩
  have h1 := h 0x6F (by norm_num)
  have h2 := h 0x9F (by norm_num)
  have e1 : ebc2asc.getD 0x6F 0 = 0x3F := by decide
  have e2 : ebc2asc.getD 0x9F 0 = 0x3F := by decide
  rw [e1] at h1
  rw [e2] at h2
  omega

theorem ebc2ascInverse_spec :
    ∀ b, b < 256 → b ≠ 0x9F → ebc2ascInverse.getD (ebc2asc.getD b 0) 0 = b := by
  decide

/-- Claim C9, amended: the 256-entry table `ebc2ascInverse` undoes `ebc2asc` on every byte
other than 0x9F; the bytes 0x6F and 0x9F both translate to 0x3F. -/
theorem ebc2asc_inverse_except_9F (b : Nat) (hb : b < 256) (hne : b ≠ 0x9F) :
    ebc2ascInverse.length = 256 ∧
    ebc2asc.getD 0x6F 0 = 0x3F ∧ ebc2asc.getD 0x9F 0 = 0x3F ∧
    ebc2ascInverse.getD (ebc2asc.getD b 0) 0 = b :=
  ⟨by decide, by decide, by decide, ebc2ascInverse_spec b hb hne⟩

/-- Witness of C9 amended on the byte 0xC1, the letter `A`. -/
theorem ebc2asc_inverse_except_9F_witness :
    ebc2asc.getD 0xC1 0 = 0x41 ∧ ebc2ascInverse.getD (ebc2asc.getD 0xC1 0) 0 = 0xC1 :=
  ⟨by decide, (ebc2asc_inverse_except_9F 0xC1 (by decide) (by decide)).2.2.2⟩

/-- Claim C10: the table maps the code page 273 positions of the digits, the space, the
upper and lower case letters and the seven German letters to their ASCII/Latin-1 codes, and
`convert` replaces every byte of a buffer by its table entry, keeping the length. -/
theorem ebc2asc_letters_digits :
    (ebc2asc.length = 256 ∧
      (∀ d, d < 10 → ebc2asc.getD (0xF0 + d) 0 = 0x30 + d) ∧
      ebc2asc.getD 0x40 0 = 0x20 ∧
      (∀ k, k < 9 → ebc2asc.getD (0xC1 + k) 0 = 0x41 + k) ∧
      (∀ k, k < 9 → ebc2asc.getD (0xD1 + k) 0 = 0x4A + k) ∧
      (∀ k, k < 8 → ebc2asc.getD (0xE2 + k) 0 = 0x53 + k) ∧
      (∀ k, k < 9 → ebc2asc.getD (0x81 + k) 0 = 0x61 + k) ∧
      (∀ k, k < 9 → ebc2asc.getD (0x91 + k) 0 = 0x6A + k) ∧
      (∀ k, k < 8 → ebc2asc.getD (0xA2 + k) 0 = 0x73 + k) ∧
      ebc2asc.getD 0x4A 0 = 0xC4 ∧ ebc2asc.getD 0xE0 0 = 0xD6 ∧
      ebc2asc.getD 0x5A 0 = 0xDC ∧ ebc2asc.getD 0xC0 0 = 0xE4 ∧
      ebc2asc.getD 0x6A 0 = 0xF6 ∧ ebc2asc.getD 0xD0 0 = 0xFC ∧
      ebc2asc.getD 0xA1 0 = 0xDF) ∧
    (∀ pBuffer : List Nat,
      convert pBuffer pBuffer.length = pBuffer.map (fun b => ebc2asc.getD b 0) ∧
      (convert pBuffer pBuffer.length).length = pBuffer.length) := by
  constructor
  · decide
  · intro pBuffer
    have h := convert_eq pBuffer pBuffer.length
    simp only [List.take_length, List.drop_length, List.append_nil] at h
    rw [h]
    exact ⟨rfl, by simp⟩

theorem ebc2asc_all_bytes : ∀ b, b < 256 → ebc2asc.getD b 0 < 256 := by
  decide

/-! ## `ConvertDateToEuro` -/

theorem strtok_first (a b : Nat) (tail : List Nat) (ha : a ≠ 0x2E) (hb : b ≠ 0x2E)
    (ha0 : a ≠ 0) (hb0 : b ≠ 0) :
    strtok (a :: b :: 0x2E :: tail) 0x2E 0 = (some 0, a :: b :: 0 :: tail, 3) := by
  simp [strtok, List.takeWhile_cons, ha, hb, ha0, hb0]

theorem strtok_second (x y z a b : Nat) (tail : List Nat) (ha : a ≠ 0x2E) (hb : b ≠ 0x2E)
    (ha0 : a ≠ 0) (hb0 : b ≠ 0) :
    strtok (x :: y :: z :: a :: b :: 0x2E :: tail) 0x2E 3
      = (some 3, x :: y :: z :: a :: b :: 0 :: tail, 6) := by
  simp [strtok, List.takeWhile_cons, ha, hb, ha0, hb0]

theorem strtok_third (x1 x2 x3 x4 x5 x6 y1 y2 y3 y4 t : Nat) (tail : List Nat)
    (h1 : y1 ≠ 0x2E) (h2 : y2 ≠ 0x2E) (h3 : y3 ≠ 0x2E) (h4 : y4 ≠ 0x2E)
    (n1 : y1 ≠ 0) (n2 : y2 ≠ 0) (n3 : y3 ≠ 0) (n4 : y4 ≠ 0) :
    ∃ t' p, strtok (x1 :: x2 :: x3 :: x4 :: x5 :: x6 :: y1 :: y2 :: y3 :: y4 :: t :: 0 :: tail)
        0x2E 6
      = (some 6, x1 :: x2 :: x3 :: x4 :: x5 :: x6 :: y1 :: y2 :: y3 :: y4 :: t' :: 0 :: tail,
          p) := by
  by_cases ht0 : t = 0
  · refine ⟨t, 10, ?_⟩
    subst ht0
    simp [strtok, List.takeWhile_cons, h1, h2, h3, h4, n1, n2, n3, n4]
  · by_cases htd : t = 0x2E
    · refine ⟨0, 11, ?_⟩
      subst htd
      simp [strtok, List.takeWhile_cons, h1, h2, h3, h4, n1, n2, n3, n4]
    · refine ⟨t, 11, ?_⟩
      simp [strtok, List.takeWhile_cons, h1, h2, h3, h4, n1, n2, n3, n4, ht0, htd]

/-- When the byte that follows the four year bytes of `pYearTok` is NUL, a trimmed value
`DD.MM.YYYY` whose eight date bytes are neither dots nor NUL decodes to `YYYY-MM-DD`, whatever
the other indeterminate bytes hold. -/
theorem ConvertDateToEuro_terminated (ind : Indeterminate)
    (d1 d2 m1 m2 y1 y2 y3 y4 : Nat)
    (hdot : d1 ≠ 0x2E ∧ d2 ≠ 0x2E ∧ m1 ≠ 0x2E ∧ m2 ≠ 0x2E ∧
      y1 ≠ 0x2E ∧ y2 ≠ 0x2E ∧ y3 ≠ 0x2E ∧ y4 ≠ 0x2E)
    (hnul : d1 ≠ 0 ∧ d2 ≠ 0 ∧ m1 ≠ 0 ∧ m2 ≠ 0 ∧ y1 ≠ 0 ∧ y2 ≠ 0 ∧ y3 ≠ 0 ∧ y4 ≠ 0)
    (hterm : cstr ind.afterYear = []) :
    ConvertDateToEuro ind [d1, d2, 0x2E, m1, m2, 0x2E, y1, y2, y3, y4]
      = .ok [y1, y2, y3, y4, 0x2D, m1, m2, 0x2D, d1, d2] := by
  obtain ⟨h1, h2, h3, h4, h5, h6, h7, h8⟩ := hdot
  obtain ⟨n1, n2, n3, n4, n5, n6, n7, n8⟩ := hnul
  have hr : readBytes (d1 :: d2 :: 0x2E :: m1 :: m2 :: 0x2E :: y1 :: y2 :: y3 :: y4
      :: ind.afterParm) 10 = [d1, d2, 0x2E, m1, m2, 0x2E, y1, y2, y3, y4] := rfl
  have s1 := strtok_first d1 d2
    (m1 :: m2 :: 0x2E :: y1 :: y2 :: y3 :: y4 :: ind.tmp10 :: 0 :: ind.afterTmp) h1 h2 n1 n2
  have s2 := strtok_second d1 d2 0 m1 m2
    (y1 :: y2 :: y3 :: y4 :: ind.tmp10 :: 0 :: ind.afterTmp) h3 h4 n3 n4
  obtain ⟨t', p, s3⟩ := strtok_third d1 d2 0 m1 m2 0 y1 y2 y3 y4 ind.tmp10 ind.afterTmp
    h5 h6 h7 h8 n5 n6 n7 n8
  have hy : cstr (readBytes (List.drop 6
      (d1 :: d2 :: 0 :: m1 :: m2 :: 0 :: y1 :: y2 :: y3 :: y4 :: t' :: 0 :: ind.afterTmp)) 4
        ++ ind.afterYear) = [y1, y2, y3, y4] := by
    have : readBytes (List.drop 6
      (d1 :: d2 :: 0 :: m1 :: m2 :: 0 :: y1 :: y2 :: y3 :: y4 :: t' :: 0 :: ind.afterTmp)) 4
        = [y1, y2, y3, y4] := rfl
    rw [this]
    simp only [cstr] at hterm ⊢
    simp [List.takeWhile_cons, n5, n6, n7, n8, hterm]
  have hm : cstr (List.drop 3
      (d1 :: d2 :: 0 :: m1 :: m2 :: 0 :: y1 :: y2 :: y3 :: y4 :: t' :: 0 :: ind.afterTmp))
        = [m1, m2] := by
    simp [cstr, List.takeWhile_cons, n3, n4]
  have hdy : cstr (List.drop 0
      (d1 :: d2 :: 0 :: m1 :: m2 :: 0 :: y1 :: y2 :: y3 :: y4 :: t' :: 0 :: ind.afterTmp))
        = [d1, d2] := by
    simp [cstr, List.takeWhile_cons, n1, n2]
  unfold ConvertDateToEuro
  simp only [hr, List.cons_append, List.nil_append, s1, s2, s3, hy, hm, hdy]
  rfl

/-- Claim C7 fails on the code: on the trimmed value `01.02.2020`, when one stray byte `X`
follows the four year bytes of `pYearTok` in memory, `strcpy` copies it into the result and the
decoded field is `2020X-02-0` instead of `2020-02-01`. -/
theorem ConvertDateToEuro_unterminated_year :
    ConvertDateToEuro ⟨[], 0, [], [0x58]⟩
        [0x30, 0x31, 0x2E, 0x30, 0x32, 0x2E, 0x32, 0x30, 0x32, 0x30]
      = .ok [0x32, 0x30, 0x32, 0x30, 0x58, 0x2D, 0x30, 0x32, 0x2D, 0x30] ∧
    ConvertDateToEuro ⟨[], 0, [], [0x58]⟩
        [0x30, 0x31, 0x2E, 0x30, 0x32, 0x2E, 0x32, 0x30, 0x32, 0x30]
      ≠ .ok [0x32, 0x30, 0x32, 0x30, 0x2D, 0x30, 0x32, 0x2D, 0x30, 0x31] := by
  decide

/-! ## The written line -/

theorem readBytes_length (mem : List Nat) (n : Nat) : (readBytes mem n).length = n := by
  simp [readBytes]

theorem readBytes_self (mem : List Nat) : readBytes mem mem.length = mem := by
  apply List.ext_getElem
  · simp [readBytes]
  · intro k h1 h2
    simp [readBytes, List.getD_eq_getElem?_getD, List.getElem?_eq_getElem h2]

theorem readBytes_append_left (mem rest : List Nat) :
    readBytes (mem ++ rest) mem.length = mem := by
  apply List.ext_getElem
  · simp [readBytes]
  · intro k h1 h2
    simp [readBytes, List.getD_eq_getElem?_getD, List.getElem?_append_left h2,
      List.getElem?_eq_getElem h2]

theorem writeAt_end (w bytes : List Nat) : writeAt w w.length bytes = w ++ bytes := by
  simp [writeAt, readBytes_self]

theorem joinFields_cons (f : List Nat) (fs : List (List Nat)) (h : fs ≠ []) :
    joinFields (f :: fs) = f ++ [0x7C] ++ joinFields fs := by
  cases fs with
  | nil => exact absurd rfl h
  | cons g rest => rfl

theorem fieldValues_length (env : Env) (rec : Nat) :
    ∀ (mds : List METADATARECORD) (i : Nat) (r : List Nat) (tbs : List (List Nat)),
      fieldValues env rec mds i r = .ok tbs → tbs.length = mds.length := by
  intro mds
  induction mds with
  | nil => intro i r tbs h; simp [fieldValues] at h; subst h; rfl
  | cons md rest ih =>
    intro i r tbs h
    rw [fieldValues] at h
    cases hd : decodeField env rec i md r with
    | error e => rw [hd] at h; simp at h
    | ok p =>
      obtain ⟨r', tb⟩ := p
      rw [hd] at h
      simp only at h
      cases hv : fieldValues env rec rest (i + 1) r' with
      | error e => rw [hv] at h; simp at h
      | ok tbs' =>
        rw [hv] at h
        simp only [Except.ok.injEq] at h
        subst h
        simp [ih (i + 1) r' tbs' hv]

/-- The loop over the fields, started with a write buffer filled up to
`iLastWritePosition`, appends the joined field values and stores the line feed at the final
`iLastWritePosition`. -/
theorem fieldsLoop_eq (env : Env) (rec : Nat) (n : Int) :
    ∀ (mds : List METADATARECORD) (i : Nat) (r w : List Nat), mds ≠ [] →
      n = (i : Int) + mds.length →
      fieldsLoop env rec n mds i r w w.length
        = (fieldValues env rec mds i r).map
            (fun tbs => (w ++ joinFields tbs ++ [0x0A], (w ++ joinFields tbs).length)) := by
  intro mds
  induction mds with
  | nil => intro i r w h; exact absurd rfl h
  | cons md rest ih =>
    intro i r w _ hn
    rw [fieldsLoop, fieldValues]
    cases hd : decodeField env rec i md r with
    | error e => rfl
    | ok p =>
      obtain ⟨r', tb⟩ := p
      simp only
      rw [writeAt_end]
      have hlen : w.length + tb.length = (w ++ tb).length := by simp
      rw [hlen]
      cases rest with
      | nil =>
        have hlast : ¬ ((i : Int) < n - 1) := by simp at hn; omega
        rw [if_neg hlast, writeAt_end]
        simp [fieldsLoop, fieldValues, Except.map, joinFields]
      | cons md2 rest2 =>
        have hlt : (i : Int) < n - 1 := by simp at hn; omega
        rw [if_pos hlt, writeAt_end]
        have hlen2 : (w ++ tb).length + 1 = (w ++ tb ++ [0x7C]).length := by simp; omega
        rw [hlen2, ih (i + 1) r' (w ++ tb ++ [0x7C]) (by simp) (by simp at hn ⊢; omega)]
        cases hv : fieldValues env rec (md2 :: rest2) (i + 1) r' with
        | error e => rfl
        | ok tbs =>
          have hne : tbs ≠ [] := by
            intro h0
            have := fieldValues_length env rec _ _ _ _ hv
            simp [h0] at this
          simp [Except.map, joinFields_cons tb tbs hne]

theorem sanitizeLoop_outside : ∀ (n j : Nat) (buf : List Nat), buf.length ≤ j →
    sanitizeLoop n j buf = buf := by
  intro n
  induction n with
  | zero => intro j buf _; rfl
  | succ n ih =>
    intro j buf h
    have hg : buf.getD j 0 = 0 := by
      rw [List.getD_eq_getElem?_getD, List.getElem?_eq_none h]; rfl
    rw [sanitizeLoop, hg]
    simp only [OfNat.zero_ne_ofNat, or_self, if_false]
    exact ih (j + 1) buf (by omega)

theorem sanitizeLoop_eq : ∀ (n : Nat) (pre post : List Nat),
    sanitizeLoop n pre.length (pre ++ post)
      = pre ++ (post.take n).map sanitizeByte ++ post.drop n := by
  intro n
  induction n with
  | zero => intro pre post; simp [sanitizeLoop]
  | succ n ih =>
    intro pre post
    cases post with
    | nil =>
      rw [sanitizeLoop_outside (n + 1) pre.length (pre ++ []) (by simp)]
      simp
    | cons x post =>
      have hg : (pre ++ x :: post).getD pre.length 0 = x := by
        have h : (pre ++ x :: post)[pre.length]? = some x := by
          rw [List.getElem?_append_right (le_refl _)]; simp
        rw [List.getD_eq_getElem?_getD, h]; rfl
      have hs : (pre ++ x :: post).set pre.length 0x7E = (pre ++ [0x7E]) ++ post := by
        simp [List.set_append_right]
      have hx : pre ++ x :: post = (pre ++ [x]) ++ post := by simp
      rw [sanitizeLoop, hg]
      by_cases hc : x = 0x0A ∨ x = 0x0D
      · rw [if_pos hc, hs]
        have := ih (pre ++ [0x7E]) post
        simp only [List.length_append, List.length_singleton] at this
        rw [this]
        simp [sanitizeByte, hc]
      · rw [if_neg hc, hx]
        have := ih (pre ++ [x]) post
        simp only [List.length_append, List.length_singleton] at this
        rw [this]
        simp [sanitizeByte, hc]

/-- The bytes handed to `fwrite` for a record of a schema with at least one field: the joined
field values with CR and LF replaced, then the line feed. -/
theorem decodeRecord_eq (env : Env) (rec : Nat) (cv : CONVERTER) (r : List Nat)
    (hn : cv.Metadata ≠ []) :
    decodeRecord env rec cv r
      = (fieldValues env rec cv.Metadata 0 r).map
          (fun tbs => (joinFields tbs).map sanitizeByte ++ [0x0A]) := by
  have h := fieldsLoop_eq env rec cv.iNumberOfAttributes cv.Metadata 0 r [] hn
    (by simp [CONVERTER.iNumberOfAttributes])
  simp only [List.length_nil, List.nil_append] at h
  rw [decodeRecord, h]
  cases hv : fieldValues env rec cv.Metadata 0 r with
  | error e => rfl
  | ok tbs =>
    simp only [Except.map]
    have hs := sanitizeLoop_eq (joinFields tbs).length [] (joinFields tbs ++ [0x0A])
    simp only [List.length_nil, List.nil_append, List.take_left, List.drop_left] at hs
    rw [hs]
    have hl : (joinFields tbs).length + 1
        = ((joinFields tbs).map sanitizeByte ++ [0x0A]).length := by simp
    rw [hl, readBytes_self]

theorem trim_keeps (str : List Nat) : ∀ c ∈ trim str, keepByte c = true :=
  trimCopy_keeps str _ str.length _ [] (by simp)

theorem pipe_not_mem_trim (str : List Nat) : 0x7C ∉ trim str := by
  intro h
  have := trim_keeps str _ h
  simp [keepByte] at this

/-! ## The written line: field separators and line feeds -/

theorem sanitizeByte_eq_pipe (c : Nat) : sanitizeByte c = 0x7C ↔ c = 0x7C := by
  unfold sanitizeByte
  split_ifs with h
  · rcases h with h | h <;> simp [h]
  · rfl

theorem map_joinFields (f : Nat → Nat) (hf : f 0x7C = 0x7C) :
    ∀ tbs : List (List Nat), (joinFields tbs).map f = joinFields (tbs.map (List.map f)) := by
  intro tbs
  induction tbs with
  | nil => rfl
  | cons tb rest ih =>
    cases rest with
    | nil => rfl
    | cons g rest2 =>
      simp only [joinFields, List.map_append, List.map_cons, List.map_nil, hf] at ih ⊢
      rw [ih]

theorem count_joinFields : ∀ tbs : List (List Nat), (∀ tb ∈ tbs, 0x7C ∉ tb) →
    (joinFields tbs).count 0x7C = tbs.length - 1 := by
  intro tbs
  induction tbs with
  | nil => intro _; rfl
  | cons tb rest ih =>
    intro h
    have htb : tb.count 0x7C = 0 := List.count_eq_zero.2 (h tb (by simp))
    cases rest with
    | nil => simpa [joinFields] using htb
    | cons g rest2 =>
      have := ih (fun x hx => h x (by simp [hx]))
      have hj : joinFields (tb :: g :: rest2) = tb ++ [0x7C] ++ joinFields (g :: rest2) := rfl
      rw [hj, List.count_append, List.count_append, htb, this]
      simp
      omega

theorem decodeField_pipe_free (env : Env) (rec i : Nat) (md : METADATARECORD)
    (r r' tb : List Nat) (ht : md.cDatatype ∈ [0x41, 0x54, 0x50, 0x53])
    (h : decodeField env rec i md r = .ok (r', tb)) : 0x7C ∉ tb := by
  have hL : md.cDatatype ≠ 0x4C := by
    intro hL; rw [hL] at ht; simp at ht
  rw [decodeField, if_neg hL] at h
  split_ifs at h with h1 h2 h3
  · simp only [Except.ok.injEq, Prod.mk.injEq] at h
    rw [← h.2]; exact pipe_not_mem_trim _
  · dsimp only at h
    cases hu : unzone (fieldBytes r md.pos md.len) with
    | error e => rw [hu] at h; simp at h
    | ok v =>
      rw [hu] at h
      simp only [Except.ok.injEq, Prod.mk.injEq] at h
      rw [← h.2]; exact pipe_not_mem_trim _
  · dsimp only at h
    cases hu : unpack (fieldBytes r md.pos md.len) with
    | error e => rw [hu] at h; simp at h
    | ok v =>
      rw [hu] at h
      simp only [Except.ok.injEq, Prod.mk.injEq] at h
      rw [← h.2]; exact pipe_not_mem_trim _

theorem fieldValues_pipe_free (env : Env) (rec : Nat) :
    ∀ (mds : List METADATARECORD) (i : Nat) (r : List Nat) (tbs : List (List Nat)),
      (∀ md ∈ mds, md.cDatatype ∈ [0x41, 0x54, 0x50, 0x53]) →
      fieldValues env rec mds i r = .ok tbs → ∀ tb ∈ tbs, 0x7C ∉ tb := by
  intro mds
  induction mds with
  | nil => intro i r tbs _ h; simp [fieldValues] at h; subst h; simp
  | cons md rest ih =>
    intro i r tbs ht h
    rw [fieldValues] at h
    cases hd : decodeField env rec i md r with
    | error e => rw [hd] at h; simp at h
    | ok p =>
      obtain ⟨r', tb⟩ := p
      rw [hd] at h
      simp only at h
      cases hv : fieldValues env rec rest (i + 1) r' with
      | error e => rw [hv] at h; simp at h
      | ok tbs' =>
        rw [hv] at h
        simp only [Except.ok.injEq] at h
        subst h
        intro x hx
        rcases List.mem_cons.1 hx with hx | hx
        · subst hx
          exact decodeField_pipe_free env rec i md r r' x (ht md (by simp)) hd
        · exact ih (i + 1) r' tbs' (fun m hm => ht m (by simp [hm])) hv x hx

/-- Claim C17 as stated fails: a Text field that holds a line feed between two letters is
decoded to `A`, LF, `B`, but the line written is `A~B` and the terminator. -/
theorem written_line_counterexample :
    fieldValues exactEnv 0 oneTextSchema.Metadata 0 [0xC1, 0x25, 0xC2]
      = .ok [[0x41, 0x0A, 0x42]] ∧
    decodeRecord exactEnv 0 oneTextSchema [0xC1, 0x25, 0xC2] = .ok [0x41, 0x7E, 0x42, 0x0A] ∧
    decodeRecord exactEnv 0 oneTextSchema [0xC1, 0x25, 0xC2]
      ≠ .ok (joinFields [[0x41, 0x0A, 0x42]] ++ [0x0A]) := by
  decide

/-- Claim C17, amended: for a schema of `n ≥ 1` fields of types Text (`A`, `T`), Packed or
Zoned and a record that decodes without fault, the written line is the decoded field values,
every CR and LF byte in them replaced by `~`, in schema order, joined by a single pipe
between consecutive fields and followed by one line feed; no field holds a pipe, so the line
holds exactly `n - 1` pipes. -/
theorem written_line_joins_fields (env : Env) (rec : Nat) (cv : CONVERTER)
    (pReadBuffer line : List Nat) (hn : cv.Metadata ≠ [])
    (htypes : ∀ md ∈ cv.Metadata, md.cDatatype ∈ [0x41, 0x54, 0x50, 0x53])
    (h : decodeRecord env rec cv pReadBuffer = .ok line) :
    ∃ tbs : List (List Nat),
      fieldValues env rec cv.Metadata 0 pReadBuffer = .ok tbs ∧
      tbs.length = cv.Metadata.length ∧
      (∀ tb ∈ tbs, 0x7C ∉ tb) ∧
      line = joinFields (tbs.map (List.map sanitizeByte)) ++ [0x0A] ∧
      line.count 0x7C = cv.Metadata.length - 1 := by
  rw [decodeRecord_eq env rec cv pReadBuffer hn] at h
  cases hv : fieldValues env rec cv.Metadata 0 pReadBuffer with
  | error e => rw [hv] at h; simp [Except.map] at h
  | ok tbs =>
    rw [hv] at h
    simp only [Except.map, Except.ok.injEq] at h
    have hlen := fieldValues_length env rec _ _ _ _ hv
    have hfree := fieldValues_pipe_free env rec _ _ _ _ htypes hv
    refine ⟨tbs, rfl, hlen, hfree, ?_, ?_⟩
    · rw [← h, map_joinFields sanitizeByte (by decide)]
    · rw [← h, List.count_append, map_joinFields sanitizeByte (by decide), count_joinFields]
      · simp [hlen]
      · intro tb htb
        obtain ⟨x, hx, rfl⟩ := List.mem_map.1 htb
        intro hmem
        obtain ⟨c, hc, hcs⟩ := List.mem_map.1 hmem
        rw [sanitizeByte_eq_pipe] at hcs
        subst hcs
        exact hfree x hx hc

/-- Witness of C17 amended: a record of the end-to-end schema is written as `A~B|123.45`. -/
theorem written_line_joins_fields_witness :
    ∃ tbs : List (List Nat),
      fieldValues exactEnv 0 endToEndSchema.Metadata 0
          [0xC1, 0x25, 0xC2, 0x40, 0x40, 0x12, 0x34, 0x5C] = .ok tbs ∧
      tbs.length = endToEndSchema.Metadata.length ∧
      (∀ tb ∈ tbs, 0x7C ∉ tb) ∧
      ascii "A~B|123.45\n" = joinFields (tbs.map (List.map sanitizeByte)) ++ [0x0A] ∧
      (ascii "A~B|123.45\n").count 0x7C = endToEndSchema.Metadata.length - 1 :=
  written_line_joins_fields exactEnv 0 endToEndSchema
    [0xC1, 0x25, 0xC2, 0x40, 0x40, 0x12, 0x34, 0x5C] (ascii "A~B|123.45\n")
    (by decide) (by decide) (by decide)

/-- Claim C18: for a schema of `n ≥ 1` fields and a record that decodes without fault, the
bytes written hold no carriage return and exactly one line feed, which is the last byte. -/
theorem written_line_single_line_feed (env : Env) (rec : Nat) (cv : CONVERTER)
    (pReadBuffer line : List Nat) (hn : cv.Metadata ≠ [])
    (h : decodeRecord env rec cv pReadBuffer = .ok line) :
    0x0D ∉ line ∧ line.count 0x0A = 1 ∧ line.getLast? = some 0x0A := by
  rw [decodeRecord_eq env rec cv pReadBuffer hn] at h
  cases hv : fieldValues env rec cv.Metadata 0 pReadBuffer with
  | error e => rw [hv] at h; simp [Except.map] at h
  | ok tbs =>
    rw [hv] at h
    simp only [Except.map, Except.ok.injEq] at h
    have hs : ∀ c ∈ (joinFields tbs).map sanitizeByte, c ≠ 0x0A ∧ c ≠ 0x0D := by
      intro c hc
      obtain ⟨x, _, rfl⟩ := List.mem_map.1 hc
      unfold sanitizeByte
      split_ifs with hx
      · decide
      · exact ⟨fun h0 => hx (Or.inl h0), fun h0 => hx (Or.inr h0)⟩
    subst h
    refine ⟨?_, ?_, by simp⟩
    · intro hmem
      rcases List.mem_append.1 hmem with hm | hm
      · exact (hs _ hm).2 rfl
      · simp at hm
    · rw [List.count_append, List.count_eq_zero.2 (fun hm => (hs _ hm).1 rfl)]
      rfl

/-- Witness of C18 on a record of the end-to-end schema whose text holds CR and LF. -/
theorem written_line_single_line_feed_witness :
    0x0D ∉ ascii "A~~B|123.45\n" ∧ (ascii "A~~B|123.45\n").count 0x0A = 1 ∧
      (ascii "A~~B|123.45\n").getLast? = some 0x0A :=
  written_line_single_line_feed exactEnv 0 endToEndSchema
    [0xC1, 0x0D, 0x25, 0xC2, 0x40, 0x12, 0x34, 0x5C] (ascii "A~~B|123.45\n")
    (by decide) (by decide)

/-! ## The record loop -/

theorem linesUpTo_succ (lines : Nat → List Nat) (k : Nat) :
    linesUpTo lines (k + 1) = linesUpTo lines k ++ lines k := by
  simp [linesUpTo, List.range_succ]

theorem recordAt_drop (fpInFile : List Nat) (L j : Nat) :
    recordAt (fpInFile.drop L) L j = recordAt fpInFile L (j + 1) := by
  simp only [recordAt, List.drop_drop]
  congr 2
  ring

/-- One iteration of the loop on a record that decodes. -/
theorem recordLoop_step (env : Env) (cv : CONVERTER) (fuel rec : Nat)
    (fpInFile fpOutFile line : List Nat) (hL : 1 ≤ cv.iInputRecordLength)
    (hlen : cv.iInputRecordLength.toNat ≤ fpInFile.length)
    (h : decodeRecord env rec cv (recordAt fpInFile cv.iInputRecordLength.toNat 0) = .ok line) :
    recordLoop env cv (fuel + 1) rec fpInFile fpOutFile
      = recordLoop env cv fuel (rec + 1) (fpInFile.drop cv.iInputRecordLength.toNat)
          (fpOutFile ++ line) := by
  have h0 : cv.iInputRecordLength ≠ 0 := by omega
  simp only [recordAt, Nat.zero_mul, List.drop_zero] at h
  rw [recordLoop, if_neg h0, if_pos ⟨by omega, hlen⟩, h]

/-- One iteration of the loop on a record that ends in a fault. -/
theorem recordLoop_fault (env : Env) (cv : CONVERTER) (fuel rec : Nat)
    (fpInFile fpOutFile : List Nat) (e : Fault) (hL : 1 ≤ cv.iInputRecordLength)
    (hlen : cv.iInputRecordLength.toNat ≤ fpInFile.length)
    (h : decodeRecord env rec cv (recordAt fpInFile cv.iInputRecordLength.toNat 0) = .error e) :
    recordLoop env cv (fuel + 1) rec fpInFile fpOutFile
      = some { output := fpOutFile, fault := some e } := by
  have h0 : cv.iInputRecordLength ≠ 0 := by omega
  simp only [recordAt, Nat.zero_mul, List.drop_zero] at h
  rw [recordLoop, if_neg h0, if_pos ⟨by omega, hlen⟩, h]

/-- One iteration of the loop on a short read. -/
theorem recordLoop_short (env : Env) (cv : CONVERTER) (fuel rec : Nat)
    (fpInFile fpOutFile : List Nat) (hL : 1 ≤ cv.iInputRecordLength)
    (hlen : fpInFile.length < cv.iInputRecordLength.toNat) :
    recordLoop env cv (fuel + 1) rec fpInFile fpOutFile
      = some { output := fpOutFile, fault := none } := by
  have h0 : cv.iInputRecordLength ≠ 0 := by omega
  rw [recordLoop, if_neg h0, if_neg (by omega)]

/-- The loop over `k` records that decode. -/
theorem recordLoop_records (env : Env) (cv : CONVERTER) (hL : 1 ≤ cv.iInputRecordLength) :
    ∀ (k fuel rec : Nat) (fpInFile fpOutFile : List Nat) (lines : Nat → List Nat),
      k * cv.iInputRecordLength.toNat ≤ fpInFile.length →
      (∀ j, j < k → decodeRecord env (rec + j) cv
          (recordAt fpInFile cv.iInputRecordLength.toNat j) = .ok (lines j)) →
      recordLoop env cv (fuel + k) rec fpInFile fpOutFile
        = recordLoop env cv fuel (rec + k) (fpInFile.drop (k * cv.iInputRecordLength.toNat))
            (fpOutFile ++ linesUpTo lines k) := by
  intro k
  induction k with
  | zero => intro fuel rec fpInFile fpOutFile lines _ _; simp [linesUpTo]
  | succ k ih =>
    intro fuel rec fpInFile fpOutFile lines hlen hdec
    have hk : fuel + (k + 1) = (fuel + 1) + k := by omega
    have hmul : (k + 1) * cv.iInputRecordLength.toNat
        = k * cv.iInputRecordLength.toNat + cv.iInputRecordLength.toNat := by ring
    rw [hk, ih (fuel + 1) rec fpInFile fpOutFile lines (by omega)
      (fun j hj => hdec j (by omega))]
    have hstep := recordLoop_step env cv fuel (rec + k)
      (fpInFile.drop (k * cv.iInputRecordLength.toNat)) (fpOutFile ++ linesUpTo lines k)
      (lines k) hL (by simp; omega)
      (by
        have := hdec k (by omega)
        simpa [recordAt] using this)
    rw [hstep, List.drop_drop, linesUpTo_succ, List.append_assoc, hmul]
    rfl

/-- Claim C19: for a schema with record length `L ≥ 1` and a source of `m` bytes whose
records all decode without fault, the conversion ends, whatever number of iterations above
`m / L` it is allowed, without a fault, and has written exactly the `m / L` lines of the
records `[j*L, (j+1)*L)`, each the decode of its own record; the trailing bytes, fewer than
`L`, end the loop and produce nothing. -/
theorem conversion_writes_every_record (env : Env) (cv : CONVERTER) (fpInFile : List Nat)
    (lines : Nat → List Nat) (fuel : Nat) (hL : 1 ≤ cv.iInputRecordLength)
    (hdec : ∀ j, j < fpInFile.length / cv.iInputRecordLength.toNat →
      decodeRecord env j cv (recordAt fpInFile cv.iInputRecordLength.toNat j) = .ok (lines j))
    (hfuel : fpInFile.length / cv.iInputRecordLength.toNat < fuel) :
    ExecuteCSVConversion env cv fuel fpInFile
      = some { output := linesUpTo lines (fpInFile.length / cv.iInputRecordLength.toNat),
               fault := none } := by
  have hLpos : 0 < cv.iInputRecordLength.toNat := by omega
  obtain ⟨f, hf⟩ : ∃ f, fuel = (f + 1) + fpInFile.length / cv.iInputRecordLength.toNat :=
    ⟨fuel - 1 - fpInFile.length / cv.iInputRecordLength.toNat, by omega⟩
  have hmul := Nat.div_mul_le_self fpInFile.length cv.iInputRecordLength.toNat
  have hrest : fpInFile.length
      - fpInFile.length / cv.iInputRecordLength.toNat * cv.iInputRecordLength.toNat
        < cv.iInputRecordLength.toNat := by
    have := Nat.div_add_mod fpInFile.length cv.iInputRecordLength.toNat
    have := Nat.mod_lt fpInFile.length hLpos
    have hc : cv.iInputRecordLength.toNat * (fpInFile.length / cv.iInputRecordLength.toNat)
        = fpInFile.length / cv.iInputRecordLength.toNat * cv.iInputRecordLength.toNat :=
      Nat.mul_comm _ _
    omega
  rw [ExecuteCSVConversion, hf, recordLoop_records env cv hL _ (f + 1) 0 fpInFile [] lines hmul
    (fun j hj => by simpa using hdec j hj)]
  rw [recordLoop_short env cv f _ _ _ hL (by simpa using hrest)]
  simp

/-! ## The read buffer across fields -/

theorem decodeField_readBuffer (env : Env) (rec i : Nat) (md : METADATARECORD)
    (r r' tb : List Nat) (h : decodeField env rec i md r = .ok (r', tb)) :
    r' = fieldReadBuffer md r := by
  rw [decodeField] at h
  unfold fieldReadBuffer
  split_ifs at h with h1 h2 h3 h4
  · dsimp only at h
    cases hc : ConvertDateToEuro (env.ind rec i)
        (trim (fieldBytes (convertAt r md.pos md.len) md.pos md.len)) with
    | error e => rw [hc] at h; simp at h
    | ok v =>
      rw [hc] at h
      simp only [Except.ok.injEq, Prod.mk.injEq] at h
      rw [if_pos (Or.inl h1)]; exact h.1.symm
  · simp only [Except.ok.injEq, Prod.mk.injEq] at h
    rw [if_pos (Or.inr h2)]; exact h.1.symm
  · dsimp only at h
    cases hu : unzone (fieldBytes r md.pos md.len) with
    | error e => rw [hu] at h; simp at h
    | ok v =>
      rw [hu] at h
      simp only [Except.ok.injEq, Prod.mk.injEq] at h
      rw [if_neg (by rw [h3]; decide)]; exact h.1.symm
  · dsimp only at h
    cases hu : unpack (fieldBytes r md.pos md.len) with
    | error e => rw [hu] at h; simp at h
    | ok v =>
      rw [hu] at h
      simp only [Except.ok.injEq, Prod.mk.injEq] at h
      rw [if_neg (by rw [h4]; decide)]; exact h.1.symm

theorem fieldValues_append (env : Env) (rec : Nat) :
    ∀ (pre post : List METADATARECORD) (i : Nat) (r : List Nat) (tbs : List (List Nat)),
      fieldValues env rec pre i r = .ok tbs →
      fieldValues env rec (pre ++ post) i r
        = (fieldValues env rec post (i + pre.length) (readBufferAfter pre r)).map
            (fun tbs2 => tbs ++ tbs2) := by
  intro pre
  induction pre with
  | nil =>
    intro post i r tbs h
    simp only [fieldValues, Except.ok.injEq] at h
    subst h
    simp only [List.nil_append, List.length_nil, Nat.add_zero, readBufferAfter]
    cases fieldValues env rec post i r <;> rfl
  | cons md rest ih =>
    intro post i r tbs h
    rw [fieldValues] at h
    rw [List.cons_append, fieldValues]
    cases hd : decodeField env rec i md r with
    | error e => rw [hd] at h; simp at h
    | ok p =>
      obtain ⟨r', tb⟩ := p
      rw [hd] at h
      simp only at h ⊢
      cases hv : fieldValues env rec rest (i + 1) r' with
      | error e => rw [hv] at h; simp at h
      | ok tbs' =>
        rw [hv] at h
        simp only [Except.ok.injEq] at h
        subst h
        rw [ih post (i + 1) r' tbs' hv]
        have hr := decodeField_readBuffer env rec i md r r' tb hd
        have hi : i + 1 + rest.length = i + (rest.length + 1) := by omega
        simp only [readBufferAfter, List.length_cons, ← hr, hi]
        cases fieldValues env rec post (i + (rest.length + 1)) (readBufferAfter rest r') <;> rfl

theorem length_convertAt (buf : List Nat) (pos len : Nat) :
    (convertAt buf pos len).length = buf.length := by
  rw [convertAt, convert_eq]
  simp only [List.length_append, List.length_take, List.length_map, List.length_drop]
  omega

theorem getD_convertAt (buf : List Nat) (pos len k : Nat) (h : k < pos ∨ pos + len ≤ k) :
    (convertAt buf pos len).getD k 0 = buf.getD k 0 := by
  simp only [List.getD_eq_getElem?_getD]
  congr 1
  by_cases hk : k < buf.length
  · rw [convertAt, convert_eq]
    rcases h with h | h
    · rw [List.getElem?_append_left
        (by simp only [List.length_take]; omega), List.getElem?_take_of_lt h]
    · rw [List.getElem?_append_right (by simp only [List.length_take]; omega),
        List.getElem?_append_right
          (by simp only [List.length_take, List.length_map, List.length_drop]; omega)]
      simp only [List.length_take, List.length_map, List.length_drop, List.getElem?_drop]
      congr 1
      omega
  · rw [List.getElem?_eq_none (by rw [length_convertAt]; omega),
      List.getElem?_eq_none (by omega)]

theorem fieldBytes_eq_of_getD (b1 b2 : List Nat) (pos len : Nat)
    (h : ∀ k, pos ≤ k → k < pos + len → b1.getD k 0 = b2.getD k 0) :
    fieldBytes b1 pos len = fieldBytes b2 pos len := by
  unfold fieldBytes readBytes
  apply List.map_congr_left
  intro i hi
  have hi' : i < len := by simpa using hi
  have := h (pos + i) (by omega) (by omega)
  simpa [List.getD_eq_getElem?_getD, List.getElem?_drop] using this

theorem fieldBytes_fieldReadBuffer (a md : METADATARECORD) (buf : List Nat)
    (h : Disjoint2 a md) :
    fieldBytes (fieldReadBuffer a buf) md.pos md.len = fieldBytes buf md.pos md.len := by
  unfold fieldReadBuffer
  split_ifs
  · apply fieldBytes_eq_of_getD
    intro k h1 h2
    apply getD_convertAt
    rcases h with h | h
    · right; omega
    · left; omega
  · rfl

theorem fieldBytes_readBufferAfter (md : METADATARECORD) :
    ∀ (pre : List METADATARECORD) (buf : List Nat), (∀ a ∈ pre, Disjoint2 a md) →
      fieldBytes (readBufferAfter pre buf) md.pos md.len = fieldBytes buf md.pos md.len := by
  intro pre
  induction pre with
  | nil => intro buf _; rfl
  | cons a rest ih =>
    intro buf h
    rw [readBufferAfter, ih _ (fun x hx => h x (by simp [hx])),
      fieldBytes_fieldReadBuffer a md buf (h a (by simp))]

/-! ## Numeric fields read the raw record -/

theorem decodeField_packed (env : Env) (rec i : Nat) (md : METADATARECORD) (r : List Nat)
    (hP : md.cDatatype = 0x50) :
    decodeField env rec i md r
      = match unpack (fieldBytes r md.pos md.len) with
        | .ok v => .ok (r, formatField env md v)
        | .error e => .error e := by
  have h1 : md.cDatatype ≠ 0x4C := by rw [hP]; decide
  have h2 : ¬ (md.cDatatype = 0x41 ∨ md.cDatatype = 0x54) := by rw [hP]; decide
  have h3 : md.cDatatype ≠ 0x53 := by rw [hP]; decide
  rw [decodeField, if_neg h1, if_neg h2, if_neg h3, if_pos hP]

theorem decodeField_zoned (env : Env) (rec i : Nat) (md : METADATARECORD) (r : List Nat)
    (hS : md.cDatatype = 0x53) :
    decodeField env rec i md r
      = match unzone (fieldBytes r md.pos md.len) with
        | .ok v => .ok (r, formatField env md v)
        | .error e => .error e := by
  have h1 : md.cDatatype ≠ 0x4C := by rw [hS]; decide
  have h2 : ¬ (md.cDatatype = 0x41 ∨ md.cDatatype = 0x54) := by rw [hS]; decide
  rw [decodeField, if_neg h1, if_neg h2, if_pos hS]

theorem decodeField_numeric_congr (env : Env) (rec i : Nat) (md : METADATARECORD)
    (r1 r2 : List Nat) (hnum : md.cDatatype = 0x50 ∨ md.cDatatype = 0x53)
    (h : fieldBytes r1 md.pos md.len = fieldBytes r2 md.pos md.len) :
    (decodeField env rec i md r1).map Prod.snd = (decodeField env rec i md r2).map Prod.snd := by
  rcases hnum with hP | hS
  · rw [decodeField_packed env rec i md r1 hP, decodeField_packed env rec i md r2 hP, h]
    cases unpack (fieldBytes r2 md.pos md.len) <;> rfl
  · rw [decodeField_zoned env rec i md r1 hS, decodeField_zoned env rec i md r2 hS, h]
    cases unzone (fieldBytes r2 md.pos md.len) <;> rfl

theorem mem_take_disjoint (mds : List METADATARECORD) (i : Nat) (md : METADATARECORD)
    (hdisj : RangesDisjoint mds) (hmd : mds[i]? = some md) :
    ∀ a ∈ mds.take i, Disjoint2 a md := by
  intro a ha
  have hi : i < mds.length := by
    by_contra hc
    rw [List.getElem?_eq_none (by omega)] at hmd
    exact absurd hmd (by simp)
  have hsplit : mds = mds.take i ++ md :: mds.drop (i + 1) := by
    have h1 := List.take_append_drop i mds
    have h2 : mds.drop i = md :: mds.drop (i + 1) := by
      rw [List.drop_eq_getElem_cons hi]
      rw [List.getElem?_eq_getElem hi] at hmd
      simp only [Option.some.injEq] at hmd
      rw [hmd]
    rw [h2] at h1
    exact h1.symm
  unfold RangesDisjoint at hdisj
  rw [hsplit, List.pairwise_append] at hdisj
  exact hdisj.2.2 a ha md (by simp)

/-! ## Faults of a field, a record and a run -/

theorem split_at_index (mds : List METADATARECORD) (i : Nat) (md : METADATARECORD)
    (hmd : mds[i]? = some md) : mds = mds.take i ++ md :: mds.drop (i + 1) := by
  have hi : i < mds.length := by
    by_contra hc
    rw [List.getElem?_eq_none (by omega)] at hmd
    exact absurd hmd (by simp)
  have h1 := List.take_append_drop i mds
  have h2 : mds.drop i = md :: mds.drop (i + 1) := by
    rw [List.drop_eq_getElem_cons hi]
    rw [List.getElem?_eq_getElem hi] at hmd
    simp only [Option.some.injEq] at hmd
    rw [hmd]
  rw [h2] at h1
  exact h1.symm

theorem length_take_of_index (mds : List METADATARECORD) (i : Nat) (md : METADATARECORD)
    (hmd : mds[i]? = some md) : (mds.take i).length = i := by
  have hi : i < mds.length := by
    by_contra hc
    rw [List.getElem?_eq_none (by omega)] at hmd
    exact absurd hmd (by simp)
  simp only [List.length_take]
  omega

/-- A fault of field `i`, when the fields before it decode, is the fault of the record. -/
theorem decodeRecord_fault_at (env : Env) (rec : Nat) (cv : CONVERTER) (r : List Nat)
    (i : Nat) (md : METADATARECORD) (e : Fault) (tbs : List (List Nat))
    (hmd : cv.Metadata[i]? = some md)
    (hpre : fieldValues env rec (cv.Metadata.take i) 0 r = .ok tbs)
    (hf : decodeField env rec i md (readBufferAfter (cv.Metadata.take i) r) = .error e) :
    decodeRecord env rec cv r = .error e := by
  have hne : cv.Metadata ≠ [] := by
    intro h0; rw [h0] at hmd; simp at hmd
  have hsplit := split_at_index cv.Metadata i md hmd
  have hlen := length_take_of_index cv.Metadata i md hmd
  rw [decodeRecord_eq env rec cv r hne]
  have happ := fieldValues_append env rec (cv.Metadata.take i) (md :: cv.Metadata.drop (i + 1))
    0 r tbs hpre
  rw [← hsplit, hlen, Nat.zero_add, fieldValues, hf] at happ
  rw [happ]
  rfl

/-- A fault of field `i` makes the record end in a fault, its own or an earlier one. -/
theorem decodeRecord_fault_of_field (env : Env) (rec : Nat) (cv : CONVERTER) (r : List Nat)
    (i : Nat) (md : METADATARECORD) (e : Fault) (hmd : cv.Metadata[i]? = some md)
    (hf : decodeField env rec i md (readBufferAfter (cv.Metadata.take i) r) = .error e) :
    ∃ e2, decodeRecord env rec cv r = .error e2 ∧
      ((∃ tbs, fieldValues env rec (cv.Metadata.take i) 0 r = .ok tbs) → e2 = e) := by
  cases hpre : fieldValues env rec (cv.Metadata.take i) 0 r with
  | ok tbs =>
    exact ⟨e, decodeRecord_fault_at env rec cv r i md e tbs hmd hpre hf, fun _ => rfl⟩
  | error e1 =>
    refine ⟨e1, ?_, fun h => ?_⟩
    · have hne : cv.Metadata ≠ [] := by
        intro h0; rw [h0] at hmd; simp at hmd
      have hsplit := split_at_index cv.Metadata i md hmd
      rw [decodeRecord_eq env rec cv r hne, hsplit]
      have : ∀ (pre post : List METADATARECORD) (i0 : Nat) (r0 : List Nat) (e0 : Fault),
          fieldValues env rec pre i0 r0 = .error e0 →
          fieldValues env rec (pre ++ post) i0 r0 = .error e0 := by
        intro pre
        induction pre with
        | nil => intro post i0 r0 e0 h; simp [fieldValues] at h
        | cons a rest ih =>
          intro post i0 r0 e0 h
          rw [fieldValues] at h
          rw [List.cons_append, fieldValues]
          cases hd : decodeField env rec i0 a r0 with
          | error e3 => rw [hd] at h; simpa using h
          | ok p =>
            obtain ⟨r', tb⟩ := p
            rw [hd] at h
            simp only at h ⊢
            cases hv : fieldValues env rec rest (i0 + 1) r' with
            | error e4 =>
              rw [hv] at h
              simp only [Except.error.injEq] at h
              rw [ih post (i0 + 1) r' e4 hv, h]
            | ok tbs' => rw [hv] at h; simp at h
      rw [this _ _ 0 r e1 hpre]
      rfl
    · obtain ⟨tbs, ht⟩ := h
      cases ht

/-- A run whose first `j` records decode and whose next record ends in a fault. -/
theorem run_fault_at (env : Env) (cv : CONVERTER) (fpInFile : List Nat)
    (lines : Nat → List Nat) (j fuel : Nat) (e : Fault) (hL : 1 ≤ cv.iInputRecordLength)
    (hfull : (j + 1) * cv.iInputRecordLength.toNat ≤ fpInFile.length)
    (hprev : ∀ k, k < j →
      decodeRecord env k cv (recordAt fpInFile cv.iInputRecordLength.toNat k) = .ok (lines k))
    (hj : decodeRecord env j cv (recordAt fpInFile cv.iInputRecordLength.toNat j) = .error e)
    (hfuel : j < fuel) :
    ExecuteCSVConversion env cv fuel fpInFile
      = some { output := linesUpTo lines j, fault := some e } := by
  obtain ⟨f, hf⟩ : ∃ f, fuel = (f + 1) + j := ⟨fuel - 1 - j, by omega⟩
  have hmul : (j + 1) * cv.iInputRecordLength.toNat
      = j * cv.iInputRecordLength.toNat + cv.iInputRecordLength.toNat := by ring
  rw [ExecuteCSVConversion, hf, recordLoop_records env cv hL j (f + 1) 0 fpInFile [] lines
    (by omega) (fun k hk => by simpa using hprev k hk)]
  rw [recordLoop_fault env cv f _ _ _ e hL (by simp; omega)
    (by simpa [recordAt] using hj)]
  simp

/-! ## Packed and Zoned fields in the record pipeline -/

theorem fieldValues_prefix (env : Env) (rec : Nat) :
    ∀ (pre post : List METADATARECORD) (i : Nat) (r : List Nat) (tbs : List (List Nat)),
      fieldValues env rec (pre ++ post) i r = .ok tbs →
      ∃ tpre, fieldValues env rec pre i r = .ok tpre := by
  intro pre
  induction pre with
  | nil => intro post i r tbs _; exact ⟨[], rfl⟩
  | cons md rest ih =>
    intro post i r tbs h
    rw [List.cons_append, fieldValues] at h
    rw [fieldValues]
    cases hd : decodeField env rec i md r with
    | error e => rw [hd] at h; simp at h
    | ok p =>
      obtain ⟨r', tb⟩ := p
      rw [hd] at h
      simp only at h ⊢
      cases hv : fieldValues env rec (rest ++ post) (i + 1) r' with
      | error e => rw [hv] at h; simp at h
      | ok tbs' =>
        obtain ⟨tpre, ht⟩ := ih post (i + 1) r' tbs' hv
        rw [ht]
        exact ⟨_, rfl⟩

/-- The frame of one field: a decode keeps the length of the read buffer and every byte of it
outside the range of the field. -/
theorem decodeField_frame (env : Env) (rec i : Nat) (md : METADATARECORD)
    (buf buf' tb : List Nat) (h : decodeField env rec i md buf = .ok (buf', tb)) :
    buf'.length = buf.length ∧
    ∀ k, k < md.pos ∨ md.pos + md.len ≤ k → buf'.getD k 0 = buf.getD k 0 := by
  rw [decodeField_readBuffer env rec i md buf buf' tb h]
  unfold fieldReadBuffer
  split_ifs
  · exact ⟨length_convertAt buf md.pos md.len, fun k hk => getD_convertAt buf md.pos md.len k hk⟩
  · exact ⟨rfl, fun _ _ => rfl⟩

/-- A Packed field of a schema with disjoint ranges, decoded on the read buffer that the
fields before it leave, is unpacked from the raw record bytes of its range. -/
theorem decodeField_packed_raw (env : Env) (rec : Nat) (mds : List METADATARECORD)
    (record : List Nat) (hdisj : RangesDisjoint mds) (i : Nat) (md : METADATARECORD)
    (hmd : mds[i]? = some md) (hP : md.cDatatype = 0x50) :
    decodeField env rec i md (readBufferAfter (mds.take i) record)
      = match unpack (fieldBytes record md.pos md.len) with
        | .ok v => .ok (readBufferAfter (mds.take i) record, formatField env md v)
        | .error e => .error e := by
  have e := fieldBytes_readBufferAfter md (mds.take i) record
    (mem_take_disjoint mds i md hdisj hmd)
  exact e ▸ decodeField_packed env rec i md _ hP

/-- A Zoned field of a schema with disjoint ranges, decoded on the read buffer that the
fields before it leave, is unzoned from the raw record bytes of its range. -/
theorem decodeField_zoned_raw (env : Env) (rec : Nat) (mds : List METADATARECORD)
    (record : List Nat) (hdisj : RangesDisjoint mds) (i : Nat) (md : METADATARECORD)
    (hmd : mds[i]? = some md) (hS : md.cDatatype = 0x53) :
    decodeField env rec i md (readBufferAfter (mds.take i) record)
      = match unzone (fieldBytes record md.pos md.len) with
        | .ok v => .ok (readBufferAfter (mds.take i) record, formatField env md v)
        | .error e => .error e := by
  have e := fieldBytes_readBufferAfter md (mds.take i) record
    (mem_take_disjoint mds i md hdisj hmd)
  exact e ▸ decodeField_zoned env rec i md _ hS

/-- The value of field `i` in the values of a record that decodes: the value that
`decodeField` returns on the read buffer that the fields before it leave. -/
theorem fieldValues_at (env : Env) (rec : Nat) (mds : List METADATARECORD) (record : List Nat)
    (tbs : List (List Nat)) (i : Nat) (md : METADATARECORD) (hmd : mds[i]? = some md)
    (h : fieldValues env rec mds 0 record = .ok tbs) :
    ∃ buf tb, decodeField env rec i md (readBufferAfter (mds.take i) record) = .ok (buf, tb) ∧
      tbs[i]? = some tb := by
  have hsplit := split_at_index mds i md hmd
  have hlen := length_take_of_index mds i md hmd
  rw [hsplit] at h
  obtain ⟨tpre, hpre⟩ := fieldValues_prefix env rec _ _ 0 record tbs h
  have hl := fieldValues_length env rec _ _ _ _ hpre
  rw [fieldValues_append env rec _ _ 0 record tpre hpre, hlen, Nat.zero_add, fieldValues] at h
  cases hd : decodeField env rec i md (readBufferAfter (mds.take i) record) with
  | error e => rw [hd] at h; simp [Except.map] at h
  | ok p =>
    obtain ⟨buf, tb⟩ := p
    rw [hd] at h
    simp only at h
    cases hv : fieldValues env rec (mds.drop (i + 1)) (i + 1) buf with
    | error e => rw [hv] at h; simp [Except.map] at h
    | ok rest =>
      rw [hv] at h
      simp only [Except.map, Except.ok.injEq] at h
      refine ⟨buf, tb, rfl, ?_⟩
      rw [← h, List.getElem?_append_right (by omega)]
      have : i - tpre.length = 0 := by omega
      rw [this]
      simp

/-- Claim C11: a decode of a field keeps the length of the read buffer and changes no byte of
it outside the range of that field; the decode of a Packed or Zoned field hands the bytes of
its range to `unpack` or `unzone` as the read buffer holds them, through no table, and returns
the read buffer as it is; and for every schema whose field ranges do not overlap and every
record, a Packed or Zoned field is decoded from the raw record bytes of its range: when the
record is written, the value of the field is the formatted result of `unpack` or `unzone` on
those bytes, and when the fields before it decode and `unpack` or `unzone` reports a fault on
those bytes, that fault ends the record. -/
theorem numeric_fields_read_raw_record (env : Env) (rec : Nat) (cv : CONVERTER)
    (record : List Nat) (hdisj : RangesDisjoint cv.Metadata) :
    (∀ (i : Nat) (md : METADATARECORD) (buf buf' tb : List Nat),
      decodeField env rec i md buf = .ok (buf', tb) →
        buf'.length = buf.length ∧
        ∀ k, k < md.pos ∨ md.pos + md.len ≤ k → buf'.getD k 0 = buf.getD k 0) ∧
    (∀ (i : Nat) (md : METADATARECORD) (buf : List Nat),
      (md.cDatatype = 0x50 →
        decodeField env rec i md buf
          = match unpack (fieldBytes buf md.pos md.len) with
            | .ok v => .ok (buf, formatField env md v)
            | .error e => .error e) ∧
      (md.cDatatype = 0x53 →
        decodeField env rec i md buf
          = match unzone (fieldBytes buf md.pos md.len) with
            | .ok v => .ok (buf, formatField env md v)
            | .error e => .error e)) ∧
    (∀ (i : Nat) (md : METADATARECORD) (line : List Nat),
      cv.Metadata[i]? = some md → decodeRecord env rec cv record = .ok line →
      ∃ tbs, fieldValues env rec cv.Metadata 0 record = .ok tbs ∧
        line = (joinFields tbs).map sanitizeByte ++ [0x0A] ∧
        (md.cDatatype = 0x50 → ∃ v, unpack (fieldBytes record md.pos md.len) = .ok v ∧
          tbs[i]? = some (formatField env md v)) ∧
        (md.cDatatype = 0x53 → ∃ v, unzone (fieldBytes record md.pos md.len) = .ok v ∧
          tbs[i]? = some (formatField env md v))) ∧
    (∀ (i : Nat) (md : METADATARECORD) (pre : List (List Nat)) (e : Fault),
      cv.Metadata[i]? = some md →
      fieldValues env rec (cv.Metadata.take i) 0 record = .ok pre →
      (md.cDatatype = 0x50 ∧ unpack (fieldBytes record md.pos md.len) = .error e) ∨
        (md.cDatatype = 0x53 ∧ unzone (fieldBytes record md.pos md.len) = .error e) →
      decodeRecord env rec cv record = .error e) := by
  refine ⟨fun i md buf buf' tb h => decodeField_frame env rec i md buf buf' tb h,
    fun i md buf => ⟨decodeField_packed env rec i md buf, decodeField_zoned env rec i md buf⟩,
    ?_, ?_⟩
  · intro i md line hmd hline
    have hne : cv.Metadata ≠ [] := by
      intro h0; rw [h0] at hmd; simp at hmd
    rw [decodeRecord_eq env rec cv record hne] at hline
    cases hv : fieldValues env rec cv.Metadata 0 record with
    | error e => rw [hv] at hline; simp [Except.map] at hline
    | ok tbs =>
      rw [hv] at hline
      simp only [Except.map, Except.ok.injEq] at hline
      obtain ⟨buf, tb, hd, htb⟩ := fieldValues_at env rec cv.Metadata record tbs i md hmd hv
      refine ⟨tbs, rfl, hline.symm, ?_, ?_⟩
      · intro hP
        rw [decodeField_packed_raw env rec cv.Metadata record hdisj i md hmd hP] at hd
        cases hu : unpack (fieldBytes record md.pos md.len) with
        | error e => rw [hu] at hd; simp at hd
        | ok v =>
          rw [hu] at hd
          simp only [Except.ok.injEq, Prod.mk.injEq] at hd
          exact ⟨v, rfl, by rw [htb, hd.2]⟩
      · intro hS
        rw [decodeField_zoned_raw env rec cv.Metadata record hdisj i md hmd hS] at hd
        cases hu : unzone (fieldBytes record md.pos md.len) with
        | error e => rw [hu] at hd; simp at hd
        | ok v =>
          rw [hu] at hd
          simp only [Except.ok.injEq, Prod.mk.injEq] at hd
          exact ⟨v, rfl, by rw [htb, hd.2]⟩
  · intro i md pre e hmd hpre hf
    apply decodeRecord_fault_at env rec cv record i md e pre hmd hpre
    rcases hf with ⟨hP, hu⟩ | ⟨hS, hu⟩
    · rw [decodeField_packed_raw env rec cv.Metadata record hdisj i md hmd hP, hu]
    · rw [decodeField_zoned_raw env rec cv.Metadata record hdisj i md hmd hS, hu]

/-- Witness of C11 on the end-to-end schema, whose Text field at columns 1-5 is translated
before the Packed field at columns 6-8 is decoded: in the record `ABCDE` with the packed value
12345 the value of the second field is that of the raw bytes `12 34 5C`. -/
theorem numeric_fields_read_raw_record_witness :
    ∃ tbs, fieldValues exactEnv 0 endToEndSchema.Metadata 0
        [0xC1, 0xC2, 0xC3, 0xC4, 0xC5, 0x12, 0x34, 0x5C] = .ok tbs ∧
      ascii "ABCDE|123.45\n" = (joinFields tbs).map sanitizeByte ++ [0x0A] ∧
      ∃ v, unpack [0x12, 0x34, 0x5C] = .ok v ∧
        tbs[1]? = some (formatField exactEnv (endToEndSchema.Metadata.getD 1 zeroRecord) v) := by
  obtain ⟨tbs, h1, h2, hP, -⟩ := (numeric_fields_read_raw_record exactEnv 0 endToEndSchema
    [0xC1, 0xC2, 0xC3, 0xC4, 0xC5, 0x12, 0x34, 0x5C] (by decide)).2.2.1 1
    (endToEndSchema.Metadata.getD 1 zeroRecord) (ascii "ABCDE|123.45\n") (by decide) (by decide)
  exact ⟨tbs, h1, h2, hP (by decide)⟩

/-! ## Tokens of `strtok` and of the schema loader -/

theorem takeWhile_append_stop (p : Nat → Bool) (tok : List Nat) (a : Nat) (rest : List Nat)
    (htok : ∀ x ∈ tok, p x = true) (ha : p a = false) :
    (tok ++ a :: rest).takeWhile p = tok := by
  induction tok with
  | nil => simp [List.takeWhile_cons, ha]
  | cons x xs ih =>
    rw [List.cons_append, List.takeWhile_cons, htok x (by simp)]
    simp only [if_true]
    rw [ih (fun y hy => htok y (by simp [hy]))]

theorem getD_append_length (pre : List Nat) (x : Nat) (rest : List Nat) :
    (pre ++ x :: rest).getD pre.length 0 = x := by
  have h : (pre ++ x :: rest)[pre.length]? = some x := by
    rw [List.getElem?_append_right (le_refl _)]; simp
  rw [List.getD_eq_getElem?_getD, h]; rfl

/-- A call of `strtok` at the start of a token that a delimiter ends. -/
theorem strtok_token (pre tok rest : List Nat) (delim : Nat) (hd : delim ≠ 0)
    (hne : tok ≠ []) (htok : ∀ x ∈ tok, x ≠ delim ∧ x ≠ 0) :
    strtok (pre ++ tok ++ delim :: rest) delim pre.length
      = (some pre.length, pre ++ tok ++ 0 :: rest, pre.length + tok.length + 1) := by
  obtain ⟨t0, ts, rfl⟩ : ∃ t0 ts, tok = t0 :: ts := by
    cases tok with
    | nil => exact absurd rfl hne
    | cons t0 ts => exact ⟨t0, ts, rfl⟩
  have ht0 := htok t0 (by simp)
  have hdrop : (pre ++ (t0 :: ts) ++ delim :: rest).drop pre.length
      = (t0 :: ts) ++ delim :: rest := by
    rw [List.append_assoc]; exact List.drop_left _ _
  have hskip : ((t0 :: ts) ++ delim :: rest).takeWhile (fun c => c == delim) = [] := by
    simp [List.takeWhile_cons, ht0.1]
  have hscan : ((t0 :: ts) ++ delim :: rest).takeWhile (fun c => c != delim && c != 0)
      = t0 :: ts :=
    takeWhile_append_stop _ _ _ _ (fun x hx => by simp [(htok x hx).1, (htok x hx).2])
      (by simp)
  have hstart : (pre ++ (t0 :: ts) ++ delim :: rest).getD pre.length 0 = t0 := by
    rw [List.append_assoc, List.cons_append]; exact getD_append_length _ _ _
  have hstop : (pre ++ (t0 :: ts) ++ delim :: rest).getD (pre.length + (t0 :: ts).length) 0
      = delim := by
    have := getD_append_length (pre ++ (t0 :: ts)) delim rest
    simpa using this
  have hset : (pre ++ (t0 :: ts) ++ delim :: rest).set (pre.length + (t0 :: ts).length) 0
      = pre ++ (t0 :: ts) ++ 0 :: rest := by
    have hl : pre.length + (t0 :: ts).length = (pre ++ (t0 :: ts)).length := by simp
    rw [hl, List.set_append_right _ _ (le_refl _)]
    simp
  simp only [strtok, hdrop, hskip, List.length_nil, Nat.add_zero, hstart, if_neg ht0.2, hscan,
    hstop, if_neg hd, hset]

/-- A call of `strtok` at a byte that is neither the delimiter nor NUL returns a token that
starts with that byte. -/
theorem strtok_start (pre : List Nat) (c : Nat) (rest : List Nat) (delim : Nat)
    (hc : c ≠ delim) (hc0 : c ≠ 0) :
    ∃ mem saved, strtok (pre ++ c :: rest) delim pre.length = (some pre.length, mem, saved) ∧
      (cstr (mem.drop pre.length)).headD 0 = c := by
  have hdrop : (pre ++ c :: rest).drop pre.length = c :: rest := List.drop_left _ _
  have hskip : (c :: rest).takeWhile (fun x => x == delim) = [] := by
    simp [List.takeWhile_cons, hc]
  have hstart : (pre ++ c :: rest).getD pre.length 0 = c := getD_append_length _ _ _
  have hscan : (c :: rest).takeWhile (fun x => x != delim && x != 0)
      = c :: rest.takeWhile (fun x => x != delim && x != 0) := by
    simp [List.takeWhile_cons, hc, hc0]
  have hhead : (cstr (c :: rest)).headD 0 = c := by
    simp [cstr, List.takeWhile_cons, hc0]
  simp only [strtok, hdrop, hskip, List.length_nil, Nat.add_zero, hstart, if_neg hc0, hscan,
    List.length_cons]
  split_ifs with h
  · exact ⟨_, _, rfl, by rw [hdrop]; exact hhead⟩
  · refine ⟨_, _, rfl, ?_⟩
    rw [List.set_append_right _ _ (by omega), List.drop_left]
    have : pre.length + ((rest.takeWhile (fun x => x != delim && x != 0)).length + 1)
        - pre.length = (rest.takeWhile (fun x => x != delim && x != 0)).length + 1 := by omega
    rw [this, List.set_cons_succ]
    simp [cstr, List.takeWhile_cons, hc0]

theorem storeToken_metadata (cv : CONVERTER) (j : Nat) (pToken : List Nat)
    (md : METADATARECORD) : (storeToken cv j pToken md).1.Metadata = cv.Metadata := by
  unfold storeToken
  split <;> rfl

theorem storeToken_cDatatype (cv : CONVERTER) (j : Nat) (pToken : List Nat)
    (md : METADATARECORD) (hj : 4 ≤ j) :
    (storeToken cv j pToken md).2.cDatatype = md.cDatatype := by
  unfold storeToken
  split <;> first | rfl | omega

theorem tokenLoop_metadata : ∀ (n : Nat) (mem : List Nat) (saved : Nat) (tok : Option Nat)
    (j : Nat) (cv : CONVERTER) (md : METADATARECORD),
    (tokenLoop n mem saved tok j cv md).1.Metadata = cv.Metadata := by
  intro n
  induction n with
  | zero => intro mem saved tok j cv md; rfl
  | succ n ih =>
    intro mem saved tok j cv md
    cases tok with
    | none => rfl
    | some t =>
      rw [tokenLoop]
      simp only
      rw [ih, storeToken_metadata]

theorem tokenLoop_cDatatype : ∀ (n : Nat) (mem : List Nat) (saved : Nat) (tok : Option Nat)
    (j : Nat) (cv : CONVERTER) (md : METADATARECORD), 4 ≤ j →
    (tokenLoop n mem saved tok j cv md).2.cDatatype = md.cDatatype := by
  intro n
  induction n with
  | zero => intro mem saved tok j cv md _; rfl
  | succ n ih =>
    intro mem saved tok j cv md hj
    cases tok with
    | none => rfl
    | some t =>
      rw [tokenLoop]
      simp only
      rw [ih _ _ _ _ _ _ (by omega), storeToken_cDatatype cv j _ md hj]

/-! ## The type code stored by `LoadMetadata` -/

/-- A line whose third column starts with `c`, after two columns that are not empty, is
loaded as a record of type code `c`, appended to the records loaded before. -/
theorem loadLine_cDatatype (cv : CONVERTER) (fresh : METADATARECORD)
    (name size : List Nat) (c : Nat) (rest : List Nat)
    (hname : name ≠ []) (hsize : size ≠ [])
    (hn : ∀ x ∈ name, x ≠ 0x09 ∧ x ≠ 0) (hs : ∀ x ∈ size, x ≠ 0x09 ∧ x ≠ 0)
    (hc : c ≠ 0x09) (hc0 : c ≠ 0) :
    ∃ md, (loadLine cv fresh (name ++ 0x09 :: (size ++ 0x09 :: c :: rest))).Metadata
        = cv.Metadata ++ [md] ∧ md.cDatatype = c := by
  have h1 := strtok_token [] name (size ++ 0x09 :: c :: rest ++ [0]) 0x09 (by decide) hname hn
  have h2 := strtok_token (name ++ [0]) size (c :: rest ++ [0]) 0x09 (by decide) hsize hs
  obtain ⟨mem3, saved3, h3, hhead⟩ :=
    strtok_start (name ++ [0] ++ size ++ [0]) c (rest ++ [0]) 0x09 hc hc0
  have e1 : (name ++ 0x09 :: (size ++ 0x09 :: c :: rest)) ++ [0]
      = [] ++ name ++ 0x09 :: (size ++ 0x09 :: c :: rest ++ [0]) := by simp
  have e2 : [] ++ name ++ 0 :: (size ++ 0x09 :: c :: rest ++ [0])
      = name ++ [0] ++ size ++ 0x09 :: (c :: rest ++ [0]) := by simp
  have e3 : name ++ [0] ++ size ++ 0 :: (c :: rest ++ [0])
      = name ++ [0] ++ size ++ [0] ++ c :: (rest ++ [0]) := by simp
  have l2 : ([] : List Nat).length + name.length + 1 = (name ++ [0]).length := by simp
  have l3 : (name ++ [0]).length + size.length + 1 = (name ++ [0] ++ size ++ [0]).length := by
    simp; omega
  obtain ⟨k, hk⟩ : ∃ k, (name ++ 0x09 :: (size ++ 0x09 :: c :: rest)).length + 1 = k + 3 :=
    ⟨name.length + size.length + rest.length + 1, by simp; omega⟩
  rw [e2] at h1
  rw [l2] at h1
  simp only [List.length_nil] at h1
  rw [e3, l3] at h2
  simp only [loadLine]
  rw [tokenLoop_metadata]
  refine ⟨_, rfl, ?_⟩
  rw [e1]
  simp only [h1, hk, tokenLoop, h2, h3]
  rw [tokenLoop_cDatatype _ _ _ _ _ _ _ (by omega)]
  simp only [storeToken]
  exact hhead

theorem loadLines_append (fresh : Nat → METADATARECORD) :
    ∀ (pre post : List (List Nat)) (i : Nat) (cv : CONVERTER),
      loadLines fresh (pre ++ post) i cv
        = loadLines fresh post (i + pre.length) (loadLines fresh pre i cv) := by
  intro pre
  induction pre with
  | nil => intro post i cv; rfl
  | cons l rest ih =>
    intro post i cv
    rw [List.cons_append, loadLines, loadLines, ih]
    simp only [List.length_cons]
    have : i + 1 + rest.length = i + (rest.length + 1) := by omega
    rw [this]

theorem loadLine_metadata (cv : CONVERTER) (fresh : METADATARECORD) (sBuffer : List Nat) :
    ∃ md, (loadLine cv fresh sBuffer).Metadata = cv.Metadata ++ [md] := by
  simp only [loadLine]
  rw [tokenLoop_metadata]
  exact ⟨_, rfl⟩

/-- Loading lines appends one record for each line to the records loaded before. -/
theorem loadLines_metadata (fresh : Nat → METADATARECORD) :
    ∀ (lines : List (List Nat)) (i : Nat) (cv : CONVERTER),
      ∃ mds, mds.length = lines.length ∧
        (loadLines fresh lines i cv).Metadata = cv.Metadata ++ mds := by
  intro lines
  induction lines with
  | nil => intro i cv; exact ⟨[], rfl, by simp [loadLines]⟩
  | cons l rest ih =>
    intro i cv
    obtain ⟨md, hmd⟩ := loadLine_metadata cv (fresh i) l
    obtain ⟨mds, hlen, hm⟩ := ih (i + 1) (loadLine cv (fresh i) l)
    refine ⟨md :: mds, by simp [hlen], ?_⟩
    rw [loadLines, hm, hmd]
    simp

/-- The type code of the record loaded from a line whose third column starts with `c`. -/
theorem LoadMetadata_cDatatype (fresh : Nat → METADATARECORD) (pre post : List (List Nat))
    (name size : List Nat) (c : Nat) (rest : List Nat)
    (hname : name ≠ []) (hsize : size ≠ [])
    (hn : ∀ x ∈ name, x ≠ 0x09 ∧ x ≠ 0) (hs : ∀ x ∈ size, x ≠ 0x09 ∧ x ≠ 0)
    (hc : c ≠ 0x09) (hc0 : c ≠ 0) :
    ((LoadMetadata fresh (pre ++ (name ++ 0x09 :: (size ++ 0x09 :: c :: rest)) :: post)).Metadata[
        pre.length]?).map METADATARECORD.cDatatype = some c := by
  rw [LoadMetadata, loadLines_append, loadLines]
  obtain ⟨mds0, hlen0, hm0⟩ := loadLines_metadata fresh pre 0
    { iInputRecordLength := 0, iOutputRecordLength := 0, Metadata := [] }
  obtain ⟨md, hmd, hty⟩ := loadLine_cDatatype
    (loadLines fresh pre 0 { iInputRecordLength := 0, iOutputRecordLength := 0, Metadata := [] })
    (fresh (0 + pre.length)) name size c rest hname hsize hn hs hc hc0
  obtain ⟨mds1, _, hm1⟩ := loadLines_metadata fresh post (0 + pre.length + 1)
    (loadLine
      (loadLines fresh pre 0 { iInputRecordLength := 0, iOutputRecordLength := 0, Metadata := [] })
      (fresh (0 + pre.length)) (name ++ 0x09 :: (size ++ 0x09 :: c :: rest)))
  rw [hm1, hmd, hm0]
  simp only [List.nil_append]
  rw [List.append_assoc, List.getElem?_append_right (by omega)]
  simp [hlen0, hty]

/-! ## Unmanaged type codes and sign faults -/

theorem decodeField_unmanaged (env : Env) (rec i : Nat) (md : METADATARECORD) (r : List Nat)
    (h : md.cDatatype ∉ [0x41, 0x54, 0x4C, 0x50, 0x53]) :
    decodeField env rec i md r = .error Fault.unmanagedDatatype := by
  simp only [List.mem_cons, List.mem_singleton, not_or, List.not_mem_nil, or_false] at h
  rw [decodeField, if_neg h.2.2.1, if_neg (by tauto), if_neg h.2.2.2.2, if_neg h.2.2.2.1]

/-- Claim C16: a line of the schema file whose third column starts with a byte `c` is
loaded, whatever `c` is, as a record of type code `c`; and for every schema that holds a
field of a type code other than `A`, `T`, `L`, `P`, `S` and every source with a full first
record whose earlier fields decode, the run ends on the first record with the
unmanaged-datatype fault, nothing written. -/
theorem unmanaged_type_code :
    (∀ (fresh : Nat → METADATARECORD) (pre post : List (List Nat)) (name size : List Nat)
        (c : Nat) (rest : List Nat),
      name ≠ [] → size ≠ [] → (∀ x ∈ name, x ≠ 0x09 ∧ x ≠ 0) →
      (∀ x ∈ size, x ≠ 0x09 ∧ x ≠ 0) → c ≠ 0x09 → c ≠ 0 →
      ((LoadMetadata fresh
          (pre ++ (name ++ 0x09 :: (size ++ 0x09 :: c :: rest)) :: post)).Metadata[
            pre.length]?).map METADATARECORD.cDatatype = some c) ∧
    (∀ (env : Env) (cv : CONVERTER) (fpInFile : List Nat) (fuel i : Nat)
        (md : METADATARECORD) (tbs : List (List Nat)),
      cv.Metadata[i]? = some md → md.cDatatype ∉ [0x41, 0x54, 0x4C, 0x50, 0x53] →
      1 ≤ cv.iInputRecordLength → cv.iInputRecordLength.toNat ≤ fpInFile.length →
      fieldValues env 0 (cv.Metadata.take i) 0 (fpInFile.take cv.iInputRecordLength.toNat)
        = .ok tbs →
      1 ≤ fuel →
      ExecuteCSVConversion env cv fuel fpInFile
        = some { output := [], fault := some Fault.unmanagedDatatype }) := by
  constructor
  · intro fresh pre post name size c rest hname hsize hn hs hc hc0
    exact LoadMetadata_cDatatype fresh pre post name size c rest hname hsize hn hs hc hc0
  · intro env cv fpInFile fuel i md tbs hmd hty hL hlen hpre hfuel
    have hrec : recordAt fpInFile cv.iInputRecordLength.toNat 0
        = fpInFile.take cv.iInputRecordLength.toNat := by simp [recordAt]
    have hfault := decodeRecord_fault_at env 0 cv (fpInFile.take cv.iInputRecordLength.toNat)
      i md Fault.unmanagedDatatype tbs hmd hpre (decodeField_unmanaged env 0 i md _ hty)
    have := run_fault_at env cv fpInFile (fun _ => []) 0 fuel Fault.unmanagedDatatype hL
      (by simpa using hlen) (fun k hk => absurd hk (by omega)) (by rw [hrec]; exact hfault)
      (by omega)
    simpa [linesUpTo] using this

/-- Witness of C16: the schema line of a field of type `X` is loaded with that type code,
and a run on three bytes ends with the unmanaged-datatype fault. -/
theorem unmanaged_type_code_witness :
    (unmanagedSchema.Metadata[0]?).map METADATARECORD.cDatatype = some 0x58 ∧
    ExecuteCSVConversion exactEnv unmanagedSchema 1 [0xC1, 0xC2, 0xC3]
      = some { output := [], fault := some Fault.unmanagedDatatype } :=
  ⟨unmanaged_type_code.1 (fun _ => zeroRecord) [] [] (ascii "CODE") (ascii "3") 0x58
      (ascii "\t1\t3\tcode\tcode\n") (by decide) (by decide) (by decide) (by decide)
      (by decide) (by decide),
    unmanaged_type_code.2 exactEnv unmanagedSchema [0xC1, 0xC2, 0xC3] 1 0
      (unmanagedSchema.Metadata.getD 0 zeroRecord) [] (by decide) (by decide) (by decide)
      (by decide) (by decide) (by decide)⟩

theorem readBytes_eq_take (mem : List Nat) (n : Nat) (h : n ≤ mem.length) :
    readBytes mem n = mem.take n := by
  apply List.ext_getElem
  · simp [readBytes]; omega
  · intro k h1 h2
    have hk : k < n := by simpa [readBytes] using h1
    simp [readBytes, List.getD_eq_getElem?_getD, List.getElem?_eq_getElem (by omega : k < mem.length)]

theorem length_recordAt (fpInFile : List Nat) (L j : Nat) (h : (j + 1) * L ≤ fpInFile.length) :
    (recordAt fpInFile L j).length = L := by
  have : (j + 1) * L = j * L + L := by ring
  simp only [recordAt, List.length_take, List.length_drop]
  omega

/-- Claim C14 as stated fails: under a schema whose Text and Packed fields both cover
column 1, the record byte 0x04, whose low nibble 4 is no sign, is first translated to 0x9C;
the Packed field then decodes to 9 and the line is written, no fault. -/
theorem bad_sign_counterexample :
    (overlapSchema.Metadata.map
        (fun md => (md.cDatatype, md.iInputPosition, md.iInputFieldLength)))
      = [(0x41, 0, 1), (0x50, 0, 1)] ∧
    loNibble 0x04 ∉ [0xC, 0xD, 0xF] ∧
    ExecuteCSVConversion exactEnv overlapSchema 3 [0x04, 0x40]
      = some { output := [0x9C, 0x7C, 0x39, 0x0A], fault := none } := by
  decide

/-- A Packed or Zoned field whose bytes end in a byte with an out-of-table sign nibble makes
`decodeField` end in the sign fault of its type. -/
theorem decodeField_bad_sign (env : Env) (rec i : Nat) (md : METADATARECORD)
    (r : List Nat) (last : Nat) (hlast : (fieldBytes r md.pos md.len).getLast? = some last)
    (hsign : (md.cDatatype = 0x50 ∧ loNibble last ∉ [0xC, 0xD, 0xF]) ∨
      (md.cDatatype = 0x53 ∧ hiNibble (last % 256) ∉ [0xF, 0xD, 0xB])) :
    decodeField env rec i md r
      = .error (if md.cDatatype = 0x50 then Fault.invalidPackedSign
          else Fault.invalidZonedSign) := by
  rcases hsign with ⟨hP, hs⟩ | ⟨hS, hs⟩
  · simp only [List.mem_cons, List.mem_singleton, not_or, List.not_mem_nil, or_false] at hs
    obtain ⟨e, he⟩ := (unpackList_error_iff (fieldBytes r md.pos md.len) 0).2
      ⟨last, hlast, hs.1, hs.2.1, hs.2.2⟩
    have hk := unpackList_error_kind _ _ _ he
    subst hk
    rw [decodeField_packed env rec i md r hP, unpack_eq_unpackList, he, if_pos hP]
  · simp only [List.mem_cons, List.mem_singleton, not_or, List.not_mem_nil, or_false] at hs
    obtain ⟨e, he⟩ := (unzoneList_error_iff (fieldBytes r md.pos md.len) 0).2
      ⟨last, hlast, hs.1, hs.2.1, hs.2.2⟩
    have hk := unzoneList_error_kind _ _ _ he
    subst hk
    rw [decodeField_zoned env rec i md r hS, unzone_eq_unzoneList, he,
      if_neg (by rw [hS]; decide)]

/-- Claim C14, amended: in a schema whose field ranges do not overlap, when the records
before record `j` decode without fault and record `j` holds, inside the record, a Packed or
Zoned field whose last byte has an out-of-table sign nibble, the run ends with a fault and
the output is exactly the lines of the records before `j`: nothing of record `j` is written.
When the fields before that field decode, the fault is the sign fault of the field. -/
theorem bad_sign_ends_run (env : Env) (cv : CONVERTER) (fpInFile : List Nat)
    (lines : Nat → List Nat) (j fuel i : Nat) (md : METADATARECORD) (last : Nat)
    (hL : 1 ≤ cv.iInputRecordLength)
    (hfull : (j + 1) * cv.iInputRecordLength.toNat ≤ fpInFile.length)
    (hprev : ∀ k, k < j →
      decodeRecord env k cv (recordAt fpInFile cv.iInputRecordLength.toNat k) = .ok (lines k))
    (hdisj : RangesDisjoint cv.Metadata)
    (hmd : cv.Metadata[i]? = some md)
    (hin : md.pos + md.len ≤ cv.iInputRecordLength.toNat)
    (hlast : (((recordAt fpInFile cv.iInputRecordLength.toNat j).drop md.pos).take
      md.len).getLast? = some last)
    (hsign : (md.cDatatype = 0x50 ∧ loNibble last ∉ [0xC, 0xD, 0xF]) ∨
      (md.cDatatype = 0x53 ∧ hiNibble (last % 256) ∉ [0xF, 0xD, 0xB]))
    (hfuel : j < fuel) :
    ∃ e, ExecuteCSVConversion env cv fuel fpInFile
        = some { output := linesUpTo lines j, fault := some e } ∧
      ((∃ tbs, fieldValues env j (cv.Metadata.take i) 0
          (recordAt fpInFile cv.iInputRecordLength.toNat j) = .ok tbs) →
        e = if md.cDatatype = 0x50 then Fault.invalidPackedSign
          else Fault.invalidZonedSign) := by
  have hnum : md.cDatatype = 0x50 ∨ md.cDatatype = 0x53 := by
    rcases hsign with h | h
    · exact Or.inl h.1
    · exact Or.inr h.1
  have hrl := length_recordAt fpInFile cv.iInputRecordLength.toNat j hfull
  have hraw : fieldBytes (recordAt fpInFile cv.iInputRecordLength.toNat j) md.pos md.len
      = ((recordAt fpInFile cv.iInputRecordLength.toNat j).drop md.pos).take md.len := by
    unfold fieldBytes
    exact readBytes_eq_take _ _ (by simp only [List.length_drop]; omega)
  have hbytes := fieldBytes_readBufferAfter md (cv.Metadata.take i)
    (recordAt fpInFile cv.iInputRecordLength.toNat j)
    (mem_take_disjoint cv.Metadata i md hdisj hmd)
  have hf := decodeField_bad_sign env j i md
    (readBufferAfter (cv.Metadata.take i) (recordAt fpInFile cv.iInputRecordLength.toNat j))
    last (by rw [hbytes, hraw]; exact hlast) hsign
  obtain ⟨e2, he2, hkind⟩ := decodeRecord_fault_of_field env j cv _ i md _ hmd hf
  exact ⟨e2, run_fault_at env cv fpInFile lines j fuel e2 hL hfull hprev he2 hfuel, hkind⟩

/-- Witness of C14 amended on the end-to-end schema: the second record has the sign nibble
0xA, so the run ends with the packed sign fault after the line of the first record. -/
theorem bad_sign_ends_run_witness :
    ∃ e, ExecuteCSVConversion exactEnv endToEndSchema 2
        ([0xC1, 0x25, 0xC2, 0x40, 0x40, 0x12, 0x34, 0x5C]
          ++ [0xC1, 0xC2, 0xC3, 0xC4, 0xC5, 0x12, 0x34, 0x5A])
        = some { output := linesUpTo (fun _ => ascii "A~B|123.45\n") 1, fault := some e } ∧
      ((∃ tbs, fieldValues exactEnv 1 (endToEndSchema.Metadata.take 1) 0
          (recordAt ([0xC1, 0x25, 0xC2, 0x40, 0x40, 0x12, 0x34, 0x5C]
            ++ [0xC1, 0xC2, 0xC3, 0xC4, 0xC5, 0x12, 0x34, 0x5A])
              endToEndSchema.iInputRecordLength.toNat 1) = .ok tbs) →
        e = if (endToEndSchema.Metadata.getD 1 zeroRecord).cDatatype = 0x50
          then Fault.invalidPackedSign else Fault.invalidZonedSign) :=
  bad_sign_ends_run exactEnv endToEndSchema
    ([0xC1, 0x25, 0xC2, 0x40, 0x40, 0x12, 0x34, 0x5C]
      ++ [0xC1, 0xC2, 0xC3, 0xC4, 0xC5, 0x12, 0x34, 0x5A])
    (fun _ => ascii "A~B|123.45\n") 1 2 1 (endToEndSchema.Metadata.getD 1 zeroRecord) 0x5A
    (by decide) (by decide)
    (fun k hk => by
      have : k = 0 := by omega
      subst this
      decide)
    (by decide) (by decide) (by decide) (by decide) (by decide) (by decide)

/-! ## A run over two records -/

/-- Witness of C19: the 19 bytes of `twoRecords` give the two lines of its two records. -/
theorem conversion_writes_every_record_witness :
    ExecuteCSVConversion exactEnv endToEndSchema 3 twoRecords
      = some { output := linesUpTo twoLines
                 (twoRecords.length / endToEndSchema.iInputRecordLength.toNat),
               fault := none } :=
  conversion_writes_every_record exactEnv endToEndSchema twoRecords twoLines 3 (by decide)
    (by decide) (by decide)

/-! ## Encoders -/

theorem nibbles_of_pair (d1 d2 : Nat) (h2 : d2 < 16) :
    hiNibble (d1 * 16 + d2) = d1 ∧ loNibble (d1 * 16 + d2) = d2 := by
  unfold hiNibble loNibble
  constructor <;> omega

theorem packNibbles_packedDigits (last : Nat) :
    ∀ bs : List Nat, packNibbles (packedDigits bs last) (loNibble last) = bs ++ [last] := by
  intro bs
  induction bs with
  | nil =>
    simp only [packedDigits, List.flatMap_nil, List.nil_append, packNibbles, hiNibble, loNibble]
    congr 1
    omega
  | cons b bs ih =>
    have hd : packedDigits (b :: bs) last = hiNibble b :: loNibble b :: packedDigits bs last := by
      simp [packedDigits]
    rw [hd, packNibbles, ih]
    simp only [hiNibble, loNibble, List.cons_append]
    congr 1
    omega

theorem decimalValue_concat (ds : List Nat) (d : Nat) :
    decimalValue (ds ++ [d]) = decimalValue ds * 10 + d := by
  simp only [decimalValue, List.reverse_append, List.reverse_cons, List.reverse_nil,
    List.nil_append, List.singleton_append, Nat.ofDigits_cons]
  ring

theorem digitsOfWidth_decimalValue :
    ∀ ds : List Nat, (∀ d ∈ ds, d ≤ 9) → digitsOfWidth ds.length (decimalValue ds) = ds := by
  intro ds
  induction ds using List.reverseRecOn with
  | nil => intro _; rfl
  | append_singleton ds d ih =>
    intro h
    have hd : d ≤ 9 := h d (by simp)
    rw [decimalValue_concat, List.length_append, List.length_singleton, digitsOfWidth]
    have h1 : (decimalValue ds * 10 + d) / 10 = decimalValue ds := by omega
    have h2 : (decimalValue ds * 10 + d) % 10 = d := by omega
    rw [h1, h2, ih (fun x hx => h x (by simp [hx]))]

/-! ## Packed round trip -/

/-- Claim C12 as stated fails on a negative zero and on a value beyond 64 bits: the byte `0D`
decodes to 0, whose re-encoding carries a plus sign, and ten bytes that hold nineteen digits
9 decode, by 64-bit wrap-around, to a negative number with a different magnitude. -/
theorem packed_roundtrip_counterexample :
    unpack [0x0D] = .ok 0 ∧
    encodePacked 1 0x0C 0 = [0x0C] ∧ encodePacked 1 0x0F 0 = [0x0F] ∧
    unpack [0x99, 0x99, 0x99, 0x99, 0x99, 0x99, 0x99, 0x99, 0x99, 0x9C]
      = .ok (-8446744073709551617) ∧
    encodePacked 10 0x0C (-8446744073709551617)
      ≠ [0x99, 0x99, 0x99, 0x99, 0x99, 0x99, 0x99, 0x99, 0x99, 0x9C] := by
  decide

/-- Claim C12, amended: for every valid packed sequence of `n` bytes (decimal digit nibbles,
sign nibble 0xC, 0xD or 0xF) whose decimal value is below `2^63` and that is not a negative
zero, `unpack` returns an integer with the magnitude of the digits, negative exactly when the
sign nibble is 0xD, and re-encoding that integer in `n` bytes, with the plus nibble of the
original for a value that is not negative, gives back the original bytes. -/
theorem packed_roundtrip (bs : List Nat) (last plus : Nat)
    (hdigits : ∀ d ∈ packedDigits bs last, d ≤ 9)
    (hbytes : ∀ b ∈ bs ++ [last], b < 256)
    (hsign : loNibble last = 0x0D ∨
      (loNibble last = plus ∧ (plus = 0x0C ∨ plus = 0x0F)))
    (hov : decimalValue (packedDigits bs last) < 2 ^ 63)
    (hzero : ¬ (loNibble last = 0x0D ∧ decimalValue (packedDigits bs last) = 0)) :
    ∃ v : Int, unpack (bs ++ [last]) = .ok v ∧
      v.natAbs = decimalValue (packedDigits bs last) ∧
      (v < 0 ↔ loNibble last = 0x0D) ∧
      encodePacked (bs ++ [last]).length plus v = bs ++ [last] := by
  have hlast : last < 256 := hbytes last (by simp)
  have hbs : ∀ b ∈ bs, b < 256 := fun b hb => hbytes b (by simp [hb])
  have hval : horner (packedDigits bs last) 0 = decimalValue (packedDigits bs last) := by
    rw [horner_eq_ofDigits]; simp [decimalValue]
  have hov2 : decimalValue (packedDigits bs last) < 9223372036854775808 := by
    have h263 : (2 : Nat) ^ 63 = 9223372036854775808 := by norm_num
    rw [← h263]; exact hov
  have hmain := unpackList_exact last hlast bs 0 hbs (by rw [hval]; exact hov2)
  rw [hval] at hmain
  simp only [Nat.cast_zero] at hmain
  have hlen : 2 * (bs ++ [last]).length - 1 = (packedDigits bs last).length :=
    (packedDigits_length bs last).symm
  have hds := digitsOfWidth_decimalValue (packedDigits bs last) hdigits
  rcases hsign with hD | ⟨hP, hpl⟩
  · have hne : decimalValue (packedDigits bs last) ≠ 0 := fun h0 => hzero ⟨hD, h0⟩
    refine ⟨-(decimalValue (packedDigits bs last) : Int), ?_, ?_, ?_, ?_⟩
    · rw [unpack_eq_unpackList, hmain]; simp [packedFinish, hD]
    · simp
    · constructor
      · intro _; exact hD
      · intro _; omega
    · have hneg : (-(decimalValue (packedDigits bs last) : Int)) < 0 := by omega
      rw [encodePacked, if_pos hneg, hlen]
      simp only [Int.natAbs_neg, Int.natAbs_ofNat, hds]
      rw [← hD]; exact packNibbles_packedDigits last bs
  · have hnD : loNibble last ≠ 0x0D := by
      rcases hpl with h | h <;> rw [hP, h] <;> decide
    refine ⟨(decimalValue (packedDigits bs last) : Int), ?_, ?_, ?_, ?_⟩
    · rw [unpack_eq_unpackList, hmain]
      rcases hpl with h | h <;> simp [packedFinish, hP, h]
    · simp
    · constructor
      · intro h; omega
      · intro h; exact absurd h hnD
    · have hnn : ¬ ((decimalValue (packedDigits bs last) : Int) < 0) := by omega
      rw [encodePacked, if_neg hnn, hlen]
      simp only [Int.natAbs_ofNat, hds]
      rw [← hP]; exact packNibbles_packedDigits last bs

/-- Witness of C12 amended on the packed bytes `12 34 5D`. -/
theorem packed_roundtrip_witness :
    ∃ v : Int, unpack ([0x12, 0x34] ++ [0x5D]) = .ok v ∧
      v.natAbs = decimalValue (packedDigits [0x12, 0x34] 0x5D) ∧
      (v < 0 ↔ loNibble 0x5D = 0x0D) ∧
      encodePacked ([0x12, 0x34] ++ [0x5D]).length 0x0C v = [0x12, 0x34] ++ [0x5D] :=
  packed_roundtrip [0x12, 0x34] 0x5D 0x0C (by decide) (by decide) (by decide) (by decide)
    (by decide)

/-! ## Zoned and packed decoding agree -/

theorem wrapHorner_cons (d : Nat) (ds : List Nat) (val : Int) :
    wrapHorner (d :: ds) val = wrapHorner ds (wrap64 (wrap64 (val * 10) + (d : Int))) := rfl

theorem wrapHorner_zero_cons (ds : List Nat) : wrapHorner (0 :: ds) 0 = wrapHorner ds 0 := by
  rw [wrapHorner_cons]
  have : wrap64 (wrap64 (0 * 10) + ((0 : Nat) : Int)) = 0 := by decide
  rw [this]

/-- `unpack` on packed digits is the 64-bit accumulation of the digits, then the sign. -/
theorem unpackList_packNibbles (sign : Nat) (hs : sign < 16) :
    ∀ (n : Nat) (ds : List Nat) (val : Int), ds.length = 2 * n + 1 → (∀ d ∈ ds, d < 16) →
      unpackList (packNibbles ds sign) val = packedFinishW sign (wrapHorner ds val) := by
  intro n
  induction n with
  | zero =>
    intro ds val hlen hd
    obtain ⟨d, rfl⟩ : ∃ d, ds = [d] := by
      cases ds with
      | nil => simp at hlen
      | cons d rest =>
        cases rest with
        | nil => exact ⟨d, rfl⟩
        | cons _ _ => simp at hlen
    have hn := nibbles_of_pair d sign hs
    have hb : d * 16 + sign < 256 := by have := hd d (by simp); omega
    simp only [packNibbles, unpackList, mask_shift, mask_low, Nat.mod_eq_of_lt hb, hn.1, hn.2,
      wrapHorner, List.foldl_cons, List.foldl_nil, packedFinishW]
  | succ n ih =>
    intro ds val hlen hd
    obtain ⟨d1, d2, rest, rfl⟩ : ∃ d1 d2 rest, ds = d1 :: d2 :: rest := by
      cases ds with
      | nil => simp at hlen
      | cons d1 r1 =>
        cases r1 with
        | nil => simp at hlen
        | cons d2 rest => exact ⟨d1, d2, rest, rfl⟩
    have hrl : rest.length = 2 * n + 1 := by simp at hlen; omega
    have hn := nibbles_of_pair d1 d2 (hd d2 (by simp))
    have hb : d1 * 16 + d2 < 256 := by
      have := hd d1 (by simp); have := hd d2 (by simp); omega
    obtain ⟨c, tl, hc⟩ : ∃ c tl, packNibbles rest sign = c :: tl := by
      cases rest with
      | nil => simp at hrl
      | cons r0 rs =>
        cases rs with
        | nil => exact ⟨_, _, rfl⟩
        | cons r1 rs2 => exact ⟨_, _, rfl⟩
    rw [packNibbles, hc, unpackList]
    simp only [mask_shift, mask_low, Nat.mod_eq_of_lt hb, hn.1, hn.2]
    rw [← hc, ih rest _ hrl (fun x hx => hd x (by simp [hx]))]
    rfl

/-- `unzone` on zoned digits is the 64-bit accumulation of the digits, then the sign. -/
theorem unzoneList_zonedEncode (sign : Nat) (hs : sign < 16) :
    ∀ (ds zones : List Nat) (val : Int), ds ≠ [] → (∀ d ∈ ds, d < 16) →
      unzoneList (zonedEncode zones ds sign) val = zonedFinishW sign (wrapHorner ds val) := by
  intro ds
  induction ds with
  | nil => intro zones val h _; exact absurd rfl h
  | cons d rest ih =>
    intro zones val _ hd
    cases rest with
    | nil =>
      have hd16 : d < 16 := hd d (by simp)
      have hb : sign * 16 + d < 256 := by omega
      have hn := nibbles_of_pair sign d hd16
      simp only [zonedEncode, unzoneList, mask_shift, mask_low, Nat.mod_eq_of_lt hb, hn.1,
        hn.2, wrapHorner, List.foldl_cons, List.foldl_nil, zonedFinishW]
    | cons d2 rest2 =>
      have hd16 : d < 16 := hd d (by simp)
      have hn := nibbles_of_pair (zones.headD 0x0F) d hd16
      obtain ⟨c, tl, hc⟩ : ∃ c tl, zonedEncode zones.tail (d2 :: rest2) sign = c :: tl := by
        cases rest2 with
        | nil => exact ⟨_, _, rfl⟩
        | cons r1 rs2 => exact ⟨_, _, rfl⟩
      rw [zonedEncode, hc, unzoneList]
      simp only [mask_low, hn.2]
      rw [← hc, ih zones.tail _ (by simp) (fun x hx => hd x (by simp [hx]))]
      rfl

theorem wrapHorner_exact : ∀ (ds : List Nat) (v : Nat),
    horner ds v < 9223372036854775808 → wrapHorner ds (v : Int) = (horner ds v : Int) := by
  intro ds
  induction ds with
  | nil => intro v _; rfl
  | cons d ds ih =>
    intro v h
    have hle := le_horner ds (v * 10 + d)
    simp only [horner, List.foldl_cons] at h hle ⊢
    rw [wrapHorner_cons, wrapStep_exact v d (by omega)]
    exact ih (v * 10 + d) h

/-- Claim C13: for every sequence of decimal digits, not empty, and every sign, `unzone` on
the zoned encoding (one digit per low nibble, any zone nibbles before the last byte, last
high nibble 0xF for plus, 0xD or 0xB for minus) returns the same result as `unpack` on the
packed encoding of the same digits (a zero digit in front when their number is even, sign
nibble 0xC or 0xF for plus, 0xD for minus); when the decimal value is below `2^63` that
result is the value with its sign. -/
theorem unzone_eq_unpack (ds zones : List Nat) (zsign psign : Nat) (hne : ds ≠ [])
    (hdigits : ∀ d ∈ ds, d ≤ 9)
    (hsign : (zsign = 0x0F ∧ (psign = 0x0C ∨ psign = 0x0F)) ∨
      ((zsign = 0x0D ∨ zsign = 0x0B) ∧ psign = 0x0D)) :
    unzone (zonedEncode zones ds zsign) = unpack (packedEncode ds psign) ∧
    (decimalValue ds < 2 ^ 63 →
      unzone (zonedEncode zones ds zsign)
        = .ok (if psign = 0x0D then -(decimalValue ds : Int) else (decimalValue ds : Int))) := by
  have hz16 : zsign < 16 := by rcases hsign with ⟨h, _⟩ | ⟨h | h, _⟩ <;> omega
  have hp16 : psign < 16 := by rcases hsign with ⟨_, h | h⟩ | ⟨_, h⟩ <;> omega
  have hd16 : ∀ d ∈ ds, d < 16 := fun d hd => by have := hdigits d hd; omega
  have hfin : ∀ v : Int, zonedFinishW zsign v = packedFinishW psign v := by
    intro v
    rcases hsign with ⟨h, h2 | h2⟩ | ⟨h | h, h2⟩ <;> subst h <;> subst h2 <;> rfl
  have hzoned := unzoneList_zonedEncode zsign hz16 ds zones 0 hne hd16
  have hpacked : unpackList (packedEncode ds psign) 0 = packedFinishW psign (wrapHorner ds 0) := by
    unfold packedEncode
    split_ifs with hev
    · have hlen : (0 :: ds).length = 2 * (ds.length / 2) + 1 := by
        simp only [List.length_cons]; omega
      rw [unpackList_packNibbles psign hp16 (ds.length / 2) (0 :: ds) 0 hlen
        (fun x hx => by
          rcases List.mem_cons.1 hx with h | h
          · omega
          · exact hd16 x h), wrapHorner_zero_cons]
    · have hlen : ds.length = 2 * (ds.length / 2) + 1 := by omega
      rw [unpackList_packNibbles psign hp16 (ds.length / 2) ds 0 hlen hd16]
  refine ⟨?_, ?_⟩
  · rw [unzone_eq_unzoneList, unpack_eq_unpackList, hzoned, hpacked, hfin]
  · intro hov
    have hval : horner ds 0 = decimalValue ds := by
      rw [horner_eq_ofDigits]; simp [decimalValue]
    have hov2 : horner ds 0 < 9223372036854775808 := by
      have h263 : (2 : Nat) ^ 63 = 9223372036854775808 := by norm_num
      rw [hval, ← h263]; exact hov
    have hw := wrapHorner_exact ds 0 hov2
    rw [hval] at hw
    simp only [Nat.cast_zero] at hw
    rw [unzone_eq_unzoneList, hzoned, hfin, hw, packedFinishW]
    rcases hsign with ⟨_, h2 | h2⟩ | ⟨_, h2⟩
    · subst h2; simp
    · subst h2; simp
    · subst h2
      simp only [if_true]
      rw [wrap64_of_range _ (by omega) (by omega)]

/-- Witness of C13 on the digits 1, 2, 3, 4 with a minus sign: zoned `F1 32 F3 B4` and
packed `01 23 4D` both decode to -1234. -/
theorem unzone_eq_unpack_witness :
    unzone [0xF1, 0x32, 0xF3, 0xB4] = unpack [0x01, 0x23, 0x4D] ∧
      unzone [0xF1, 0x32, 0xF3, 0xB4] = .ok (-1234) := by
  have h := unzone_eq_unpack [1, 2, 3, 4] [0x0F, 0x03] 0x0B 0x0D (by decide) (by decide)
    (by decide)
  have h2 := h.2 (by decide)
  have e1 : zonedEncode [0x0F, 0x03] [1, 2, 3, 4] 0x0B = [0xF1, 0x32, 0xF3, 0xB4] := by decide
  have e2 : packedEncode [1, 2, 3, 4] 0x0D = [0x01, 0x23, 0x4D] := by decide
  have e3 : decimalValue [1, 2, 3, 4] = 1234 := by simp [decimalValue, Nat.ofDigits]
  rw [e1] at h h2
  rw [e2] at h
  rw [e3] at h2
  exact ⟨h.1, by simpa using h2⟩

/-! ## Date decode without validation -/

theorem readBytes_append_add (pre mem : List Nat) (k : Nat) :
    readBytes (pre ++ mem) (pre.length + k) = pre ++ readBytes mem k := by
  apply List.ext_getElem
  · simp [readBytes]
  · intro i h1 h2
    by_cases hi : i < pre.length
    · simp [readBytes, List.getD_eq_getElem?_getD, List.getElem?_append_left hi,
        List.getElem_append_left hi, List.getElem?_eq_getElem hi]
    · have hi2 : pre.length ≤ i := by omega
      simp [readBytes, List.getD_eq_getElem?_getD, List.getElem?_append_right hi2,
        List.getElem_append_right hi2]

/-- The three calls of `strtok` in `ConvertDateToEuro` on a buffer that starts with two
non-empty tokens, each ended by a dot, and a byte of a third token. -/
theorem strtok_three (t1 t2 : List Nat) (c : Nat) (tail : List Nat)
    (h1 : t1 ≠ []) (h2 : t2 ≠ [])
    (ht1 : ∀ x ∈ t1, x ≠ 0x2E ∧ x ≠ 0) (ht2 : ∀ x ∈ t2, x ≠ 0x2E ∧ x ≠ 0)
    (hc : c ≠ 0x2E) (hc0 : c ≠ 0) :
    ∃ mem saved,
      strtok (t1 ++ 0x2E :: (t2 ++ 0x2E :: c :: tail)) 0x2E 0
        = (some 0, t1 ++ 0 :: (t2 ++ 0x2E :: c :: tail), t1.length + 1) ∧
      strtok (t1 ++ 0 :: (t2 ++ 0x2E :: c :: tail)) 0x2E (t1.length + 1)
        = (some (t1.length + 1), t1 ++ 0 :: (t2 ++ 0 :: c :: tail),
            t1.length + 1 + t2.length + 1) ∧
      strtok (t1 ++ 0 :: (t2 ++ 0 :: c :: tail)) 0x2E (t1.length + 1 + t2.length + 1)
        = (some (t1.length + 1 + t2.length + 1), mem, saved) := by
  have s1 := strtok_token [] t1 (t2 ++ 0x2E :: c :: tail) 0x2E (by decide) h1 ht1
  have s2 := strtok_token (t1 ++ [0]) t2 (c :: tail) 0x2E (by decide) h2 ht2
  obtain ⟨mem, saved, s3, -⟩ := strtok_start (t1 ++ [0] ++ t2 ++ [0]) c tail 0x2E hc hc0
  simp only [List.nil_append, List.length_nil, Nat.zero_add, List.append_assoc,
    List.singleton_append, List.length_append, List.length_singleton, List.length_cons]
    at s1 s2 s3
  refine ⟨mem, saved, s1, s2, ?_⟩
  have e : t1.length + 1 + t2.length + 1 = t1.length + (t2.length + 1 + 1) := by omega
  rw [e]
  exact s3

/-- Claim C15 fails on the code: the trimmed value `1.2.3.4567` has four parts and the trimmed
value `1.02.20200` has a year token of five characters; for neither does `ConvertDateToEuro`
report a fault. The first is emitted as `3-2-1`, a NUL byte and `4567`, the second as
`2020-02-1` and a NUL byte. -/
theorem date_decode_counterexample :
    ConvertDateToEuro ⟨[], 0, [], []⟩
        [0x31, 0x2E, 0x32, 0x2E, 0x33, 0x2E, 0x34, 0x35, 0x36, 0x37]
      = .ok [0x33, 0x2D, 0x32, 0x2D, 0x31, 0x00, 0x34, 0x35, 0x36, 0x37] ∧
    ConvertDateToEuro ⟨[], 0, [], []⟩
        [0x31, 0x2E, 0x30, 0x32, 0x2E, 0x32, 0x30, 0x32, 0x30, 0x30]
      = .ok [0x32, 0x30, 0x32, 0x30, 0x2D, 0x30, 0x32, 0x2D, 0x31, 0x00] := by
  decide

/-! ## The end-to-end schema -/

/-- The two fields that `LoadMetadata` builds for the end-to-end schema. -/
theorem endToEndSchema_fields :
    ∃ md1 md2, endToEndSchema.Metadata = [md1, md2] ∧
      md1.cDatatype = 0x41 ∧ md1.pos = 0 ∧ md1.len = 5 ∧
      md2.cDatatype = 0x50 ∧ md2.pos = 5 ∧ md2.len = 3 ∧
      md2.iOutputFieldLength = 10 ∧ md2.iPrecision = 2 ∧
      endToEndSchema.iInputRecordLength = 8 :=
  ⟨endToEndSchema.Metadata.getD 0 zeroRecord, endToEndSchema.Metadata.getD 1 zeroRecord,
    by decide⟩

theorem decodeField_text (env : Env) (rec i : Nat) (md : METADATARECORD) (r : List Nat)
    (hA : md.cDatatype = 0x41 ∨ md.cDatatype = 0x54) :
    decodeField env rec i md r
      = .ok (convertAt r md.pos md.len, trim (fieldBytes (convertAt r md.pos md.len) md.pos md.len))
    := by
  have h1 : md.cDatatype ≠ 0x4C := by
    rcases hA with h | h <;> rw [h] <;> decide
  rw [decodeField, if_neg h1, if_pos hA]

theorem list_of_length_eight (l : List Nat) (h : l.length = 8) :
    ∃ b0 b1 b2 b3 b4 b5 b6 b7, l = [b0, b1, b2, b3, b4, b5, b6, b7] := by
  match l, h with
  | [b0, b1, b2, b3, b4, b5, b6, b7], _ => exact ⟨b0, b1, b2, b3, b4, b5, b6, b7, rfl⟩

theorem sanitizeByte_clean (l : List Nat) (h : 0x7C ∉ l) :
    ∀ c ∈ l.map sanitizeByte, c ≠ 0x7C ∧ c ≠ 0x0A ∧ c ≠ 0x0D := by
  intro c hc
  obtain ⟨x, hx, rfl⟩ := List.mem_map.1 hc
  refine ⟨fun h0 => h ((sanitizeByte_eq_pipe x).1 h0 ▸ hx), ?_⟩
  unfold sanitizeByte
  split_ifs with hx2
  · decide
  · exact ⟨fun h0 => hx2 (Or.inl h0), fun h0 => hx2 (Or.inr h0)⟩

/-- Claim C20 as stated fails: under the end-to-end schema, the record whose Text field holds
the EBCDIC byte 0x01 between `A` and `B` is written with the control character 0x01 in the
line. -/
theorem end_to_end_counterexample :
    decodeRecord exactEnv 0 endToEndSchema [0xC1, 0x01, 0xC2, 0x40, 0x40, 0x12, 0x34, 0x5C]
      = .ok [0x41, 0x01, 0x42, 0x7C, 0x31, 0x32, 0x33, 0x2E, 0x34, 0x35, 0x0A] ∧
    loNibble 0x5C = 0x0C := by
  decide

/-- Claim C20, amended: under the schema with one Text field at columns 1-5 and one Packed
field at columns 6-8 of width 10 and precision 2, every record of 8 bytes whose packed sign
nibble is 0xC, 0xD or 0xF is decoded, whatever the formatter writes, and the line handed to
`fwrite` is the first field, one pipe, the second field and one line feed, where the first
field is the trimmed translation of bytes 1-5 and the second the trimmed first 10 bytes of the
formatted value of bytes 6-8, CR and LF replaced by a tilde in both; neither field holds a
pipe, a line feed or a carriage return. -/
theorem end_to_end_line (env : Env) (rec : Nat) (record : List Nat)
    (hlen : record.length = 8)
    (hsign : loNibble (record.getD 7 0) = 0x0C ∨ loNibble (record.getD 7 0) = 0x0D ∨
      loNibble (record.getD 7 0) = 0x0F) :
    ∃ (v : Int) (f1 f2 : List Nat),
      unpack (record.drop 5) = .ok v ∧
      f1 = (trim ((record.take 5).map (fun b => ebc2asc.getD b 0))).map sanitizeByte ∧
      f2 = (trim (readBytes (env.sprintf 10 2 v) 10)).map sanitizeByte ∧
      decodeRecord env rec endToEndSchema record = .ok (f1 ++ [0x7C] ++ f2 ++ [0x0A]) ∧
      (∀ c ∈ f1 ++ f2, c ≠ 0x7C ∧ c ≠ 0x0A ∧ c ≠ 0x0D) := by
  obtain ⟨b0, b1, b2, b3, b4, b5, b6, b7, rfl⟩ := list_of_length_eight record hlen
  obtain ⟨md1, md2, hm, t1, p1, l1, t2, p2, l2, w2, q2, -⟩ := endToEndSchema_fields
  have hb7 : [b0, b1, b2, b3, b4, b5, b6, b7].getD 7 0 = b7 := rfl
  rw [hb7] at hsign
  have hdrop : [b0, b1, b2, b3, b4, b5, b6, b7].drop 5 = [b5, b6, b7] := rfl
  have htake : [b0, b1, b2, b3, b4, b5, b6, b7].take 5 = [b0, b1, b2, b3, b4] := rfl
  -- the packed field decodes
  have hv : ∃ v, unpack [b5, b6, b7] = .ok v := by
    rw [unpack_eq_unpackList]
    cases hu : unpackList [b5, b6, b7] 0 with
    | ok v => exact ⟨v, rfl⟩
    | error e =>
      exfalso
      obtain ⟨last, hl, n1, n2, n3⟩ := (unpackList_error_iff [b5, b6, b7] 0).1 ⟨e, hu⟩
      have : last = b7 := by
        simp at hl
        exact hl.symm
      subst this
      rcases hsign with h | h | h
      · exact n1 h
      · exact n2 h
      · exact n3 h
  obtain ⟨v, hv⟩ := hv
  have hconv : convertAt [b0, b1, b2, b3, b4, b5, b6, b7] 0 5
      = [b0, b1, b2, b3, b4].map (fun b => ebc2asc.getD b 0) ++ [b5, b6, b7] := by
    simp only [convertAt, List.take_zero, List.drop_zero, List.nil_append]
    rw [convert_eq]
    rfl
  have hf1 : fieldBytes (convertAt [b0, b1, b2, b3, b4, b5, b6, b7] 0 5) 0 5
      = [b0, b1, b2, b3, b4].map (fun b => ebc2asc.getD b 0) := by
    rw [hconv]; rfl
  have hf2 : fieldBytes (convertAt [b0, b1, b2, b3, b4, b5, b6, b7] 0 5) 5 3 = [b5, b6, b7] := by
    rw [hconv]; rfl
  have hd1 := decodeField_text env rec 0 md1 [b0, b1, b2, b3, b4, b5, b6, b7] (Or.inl t1)
  rw [p1, l1, hf1] at hd1
  have hd2 := decodeField_packed env rec 1 md2
    (convertAt [b0, b1, b2, b3, b4, b5, b6, b7] 0 5) t2
  rw [p2, l2, hf2, hv] at hd2
  simp only at hd2
  have hfv : fieldValues env rec endToEndSchema.Metadata 0 [b0, b1, b2, b3, b4, b5, b6, b7]
      = .ok [trim ([b0, b1, b2, b3, b4].map (fun b => ebc2asc.getD b 0)),
          formatField env md2 v] := by
    rw [hm, fieldValues, hd1]
    simp only
    rw [fieldValues, hd2]
    simp only [fieldValues]
  have hfmt : formatField env md2 v = trim (readBytes (env.sprintf 10 2 v) 10) := by
    simp only [formatField, w2, q2]
    rfl
  refine ⟨v, _, _, by rw [hdrop]; exact hv, by rw [htake], rfl, ?_, ?_⟩
  · rw [decodeRecord_eq env rec endToEndSchema _ (by rw [hm]; simp), hfv, hfmt]
    simp [Except.map, joinFields]
    decide
  · intro c hc
    rcases List.mem_append.1 hc with h | h
    · exact sanitizeByte_clean _ (pipe_not_mem_trim _) c h
    · exact sanitizeByte_clean _ (pipe_not_mem_trim _) c h

/-- Witness of C20 amended: the record `A`, CR, `B`, two blanks and the packed value -12345
is written as `A~B|-123.45`. -/
theorem end_to_end_line_witness :
    ∃ (v : Int) (f1 f2 : List Nat),
      unpack ([0xC1, 0x0D, 0xC2, 0x40, 0x40, 0x12, 0x34, 0x5D].drop 5) = .ok v ∧
      f1 = (trim (([0xC1, 0x0D, 0xC2, 0x40, 0x40, 0x12, 0x34, 0x5D].take 5).map
        (fun b => ebc2asc.getD b 0))).map sanitizeByte ∧
      f2 = (trim (readBytes (exactEnv.sprintf 10 2 v) 10)).map sanitizeByte ∧
      decodeRecord exactEnv 0 endToEndSchema [0xC1, 0x0D, 0xC2, 0x40, 0x40, 0x12, 0x34, 0x5D]
        = .ok (f1 ++ [0x7C] ++ f2 ++ [0x0A]) ∧
      (∀ c ∈ f1 ++ f2, c ≠ 0x7C ∧ c ≠ 0x0A ∧ c ≠ 0x0D) :=
  end_to_end_line exactEnv 0 [0xC1, 0x0D, 0xC2, 0x40, 0x40, 0x12, 0x34, 0x5D] (by decide)
    (by decide)

/-! ## Exact arithmetic of `unpack` and `unzone` -/

/-- When no value of the exact computation leaves the 64-bit range, `unpack` computes it. -/
theorem unpackList_eq_unpackExact : ∀ (l : List Nat) (val : Int),
    (∀ x ∈ unpackValues l val, -9223372036854775808 ≤ x ∧ x < 9223372036854775808) →
    unpackList l val = unpackExact l val := by
  intro l
  induction l with
  | nil => intro val _; rfl
  | cons b l ih =>
    intro val h
    cases l with
    | nil =>
      simp only [unpackValues, List.mem_cons, forall_eq_or_imp] at h
      obtain ⟨h1, h2, h3⟩ := h
      simp only [unpackList, unpackExact]
      rw [wrap64_of_range _ h1.1 h1.2, wrap64_of_range _ h2.1 h2.2]
      split_ifs with hs
      · rw [if_pos hs] at h3
        have h4 := h3 _ (List.mem_singleton.2 rfl)
        rw [wrap64_of_range _ h4.1 h4.2]
      · rfl
      · rfl
    | cons c rest =>
      simp only [unpackValues, List.mem_cons, forall_eq_or_imp] at h
      obtain ⟨h1, h2, h3, h4, h5⟩ := h
      rw [unpackList, unpackExact]
      rw [wrap64_of_range _ h1.1 h1.2, wrap64_of_range _ h2.1 h2.2,
        wrap64_of_range _ h3.1 h3.2, wrap64_of_range _ h4.1 h4.2]
      exact ih _ h5

/-- When no value of the exact computation leaves the 64-bit range, `unzone` computes it. -/
theorem unzoneList_eq_unzoneExact : ∀ (l : List Nat) (val : Int),
    (∀ x ∈ unzoneValues l val, -9223372036854775808 ≤ x ∧ x < 9223372036854775808) →
    unzoneList l val = unzoneExact l val := by
  intro l
  induction l with
  | nil => intro val _; rfl
  | cons b l ih =>
    intro val h
    cases l with
    | nil =>
      simp only [unzoneValues, List.mem_cons, forall_eq_or_imp] at h
      obtain ⟨h1, h2, h3⟩ := h
      simp only [unzoneList, unzoneExact]
      rw [wrap64_of_range _ h1.1 h1.2, wrap64_of_range _ h2.1 h2.2]
      split_ifs with hs
      · rw [if_pos hs] at h3
        have h4 := h3 _ (List.mem_singleton.2 rfl)
        rw [wrap64_of_range _ h4.1 h4.2]
      · rfl
      · rfl
    | cons c rest =>
      simp only [unzoneValues, List.mem_cons, forall_eq_or_imp] at h
      obtain ⟨h1, h2, h5⟩ := h
      rw [unzoneList, unzoneExact]
      rw [wrap64_of_range _ h1.1 h1.2, wrap64_of_range _ h2.1 h2.2]
      exact ih _ h5

/-- The result of the exact computation on a non-empty input is one of its values. -/
theorem unpackExact_mem : ∀ (l : List Nat) (val r : Int), l ≠ [] →
    unpackExact l val = .ok r → r ∈ unpackValues l val := by
  intro l
  induction l with
  | nil => intro val r h _; exact absurd rfl h
  | cons b l ih =>
    intro val r _ h
    cases l with
    | nil =>
      simp only [unpackExact] at h
      simp only [unpackValues]
      split_ifs at h with h1 h2
      · simp only [Except.ok.injEq] at h
        subst h; simp [h1]
      · simp only [Except.ok.injEq] at h
        subst h; simp
    | cons c rest =>
      rw [unpackExact] at h
      simp only [unpackValues, List.mem_cons]
      right; right; right; right
      exact ih _ r (by simp) h

theorem unzoneExact_mem : ∀ (l : List Nat) (val r : Int), l ≠ [] →
    unzoneExact l val = .ok r → r ∈ unzoneValues l val := by
  intro l
  induction l with
  | nil => intro val r h _; exact absurd rfl h
  | cons b l ih =>
    intro val r _ h
    cases l with
    | nil =>
      simp only [unzoneExact] at h
      simp only [unzoneValues]
      split_ifs at h with h1 h2
      · simp only [Except.ok.injEq] at h
        subst h; simp [h1]
      · simp only [Except.ok.injEq] at h
        subst h; simp
    | cons c rest =>
      rw [unzoneExact] at h
      simp only [unzoneValues, List.mem_cons]
      right; right
      exact ih _ r (by simp) h

/-! ## Bounds on the exact values -/

theorem le_mul_pow_of_le (n A k : Nat) (h : n ≤ A) : n ≤ A * 10 ^ k :=
  le_trans h (Nat.le_mul_of_pos_right A (Nat.pow_pos (by norm_num)))

/-- With every digit nibble at most `m`, every value of the exact computation of `unpack`
from `v` on `n` bytes is at most `((9v + m) 10^(2n-1) - m) / 9` in absolute value. -/
theorem unpackValues_bound (m : Nat) : ∀ (l : List Nat) (v : Nat),
    (∀ b ∈ l, b < 256) → (∀ b ∈ l, hiNibble b ≤ m) → (∀ b ∈ l.dropLast, loNibble b ≤ m) →
    ∀ x ∈ unpackValues l (v : Int),
      x.natAbs * 9 + m ≤ (v * 9 + m) * 10 ^ (2 * l.length - 1) := by
  intro l
  induction l with
  | nil => intro v _ _ _ x hx; simp [unpackValues] at hx
  | cons b l ih =>
    intro v hb hh hl x hx
    have hb256 : b < 256 := hb b (by simp)
    have hhi : hiNibble b ≤ m := hh b (by simp)
    cases l with
    | nil =>
      simp only [unpackValues, mask_shift, mask_low, Nat.mod_eq_of_lt hb256, List.mem_cons] at hx
      have e1 : (v : Int) * 10 = ((v * 10 : Nat) : Int) := by push_cast; rfl
      have e2 : (v : Int) * 10 + (hiNibble b : Int) = ((v * 10 + hiNibble b : Nat) : Int) := by
        push_cast; rfl
      simp only [List.length_singleton, Nat.mul_one, Nat.add_one_sub_one, pow_one]
      rcases hx with hx | hx | hx
      · rw [hx, e1, Int.natAbs_ofNat]; omega
      · rw [hx, e2, Int.natAbs_ofNat]; omega
      · split_ifs at hx
        · rw [List.mem_singleton] at hx
          rw [hx, e2, Int.natAbs_neg, Int.natAbs_ofNat]; omega
        · simp at hx
    | cons c rest =>
      have hlo : loNibble b ≤ m := hl b (by simp)
      simp only [unpackValues, mask_shift, mask_low, Nat.mod_eq_of_lt hb256, List.mem_cons] at hx
      have e1 : (v : Int) * 10 = ((v * 10 : Nat) : Int) := by push_cast; rfl
      have e2 : (v : Int) * 10 + (hiNibble b : Int) = ((v * 10 + hiNibble b : Nat) : Int) := by
        push_cast; rfl
      have e3 : ((v : Int) * 10 + (hiNibble b : Int)) * 10
          = (((v * 10 + hiNibble b) * 10 : Nat) : Int) := by push_cast; rfl
      have e4 : ((v : Int) * 10 + (hiNibble b : Int)) * 10 + (loNibble b : Int)
          = (((v * 10 + hiNibble b) * 10 + loNibble b : Nat) : Int) := by push_cast; rfl
      have hk : 2 * (b :: c :: rest).length - 1 = 2 * (c :: rest).length - 1 + 2 := by
        simp only [List.length_cons]; omega
      rw [hk, pow_add]
      have hstep : ∀ n, n * 9 + m ≤ (v * 9 + m) * 100 →
          n * 9 + m ≤ (v * 9 + m) * (10 ^ (2 * (c :: rest).length - 1) * 10 ^ 2) := by
        intro n hn
        have := le_mul_pow_of_le _ _ (2 * (c :: rest).length - 1) hn
        calc n * 9 + m ≤ (v * 9 + m) * 100 * 10 ^ (2 * (c :: rest).length - 1) := this
          _ = (v * 9 + m) * (10 ^ (2 * (c :: rest).length - 1) * 10 ^ 2) := by ring
      rcases hx with hx | hx | hx | hx | hx
      · rw [hx, e1, Int.natAbs_ofNat]; exact hstep _ (by omega)
      · rw [hx, e2, Int.natAbs_ofNat]; exact hstep _ (by omega)
      · rw [hx, e3, Int.natAbs_ofNat]; exact hstep _ (by omega)
      · rw [hx, e4, Int.natAbs_ofNat]; exact hstep _ (by omega)
      · rw [e4] at hx
        have := ih ((v * 10 + hiNibble b) * 10 + loNibble b)
          (fun y hy => hb y (by simp [hy])) (fun y hy => hh y (by simp [hy]))
          (fun y hy => hl y (by simp [List.dropLast, hy])) x hx
        calc x.natAbs * 9 + m
            ≤ (((v * 10 + hiNibble b) * 10 + loNibble b) * 9 + m)
                * 10 ^ (2 * (c :: rest).length - 1) := this
          _ ≤ ((v * 9 + m) * 100) * 10 ^ (2 * (c :: rest).length - 1) :=
              Nat.mul_le_mul_right _ (by omega)
          _ = (v * 9 + m) * (10 ^ (2 * (c :: rest).length - 1) * 10 ^ 2) := by ring

/-- With every digit nibble at most `m`, every value of the exact computation of `unzone`
from `v` on `n` bytes is at most `((9v + m) 10^n - m) / 9` in absolute value. -/
theorem unzoneValues_bound (m : Nat) : ∀ (l : List Nat) (v : Nat),
    (∀ b ∈ l, loNibble b ≤ m) →
    ∀ x ∈ unzoneValues l (v : Int), x.natAbs * 9 + m ≤ (v * 9 + m) * 10 ^ l.length := by
  intro l
  induction l with
  | nil => intro v _ x hx; simp [unzoneValues] at hx
  | cons b l ih =>
    intro v hl x hx
    have hlo : loNibble b ≤ m := hl b (by simp)
    have e1 : (v : Int) * 10 = ((v * 10 : Nat) : Int) := by push_cast; rfl
    have e2 : (v : Int) * 10 + (loNibble b : Int) = ((v * 10 + loNibble b : Nat) : Int) := by
      push_cast; rfl
    cases l with
    | nil =>
      simp only [unzoneValues, mask_low, List.mem_cons] at hx
      simp only [List.length_singleton, pow_one]
      rcases hx with hx | hx | hx
      · rw [hx, e1, Int.natAbs_ofNat]; omega
      · rw [hx, e2, Int.natAbs_ofNat]; omega
      · split_ifs at hx
        · rw [List.mem_singleton] at hx
          rw [hx, e2, Int.natAbs_neg, Int.natAbs_ofNat]; omega
        · simp at hx
    | cons c rest =>
      simp only [unzoneValues, mask_low, List.mem_cons] at hx
      have hk : (b :: c :: rest).length = (c :: rest).length + 1 := rfl
      rw [hk, pow_succ]
      have hstep : ∀ n, n * 9 + m ≤ (v * 9 + m) * 10 →
          n * 9 + m ≤ (v * 9 + m) * (10 ^ (c :: rest).length * 10) := by
        intro n hn
        have := le_mul_pow_of_le _ _ (c :: rest).length hn
        calc n * 9 + m ≤ (v * 9 + m) * 10 * 10 ^ (c :: rest).length := this
          _ = (v * 9 + m) * (10 ^ (c :: rest).length * 10) := by ring
      rcases hx with hx | hx | hx
      · rw [hx, e1, Int.natAbs_ofNat]; exact hstep _ (by omega)
      · rw [hx, e2, Int.natAbs_ofNat]; exact hstep _ (by omega)
      · rw [e2] at hx
        have := ih (v * 10 + loNibble b) (fun y hy => hl y (by simp [hy])) x hx
        calc x.natAbs * 9 + m
            ≤ ((v * 10 + loNibble b) * 9 + m) * 10 ^ (c :: rest).length := this
          _ ≤ ((v * 9 + m) * 10) * 10 ^ (c :: rest).length :=
              Nat.mul_le_mul_right _ (by omega)
          _ = (v * 9 + m) * (10 ^ (c :: rest).length * 10) := by ring

theorem nibbles_le_15 (b : Nat) (h : b < 256) : hiNibble b ≤ 15 ∧ loNibble b ≤ 15 := by
  unfold hiNibble loNibble; omega

/-! ## No accumulator overflow -/

theorem abs_lt_of_natAbs_bound (x : Int) (m k K : Nat) (hkK : k ≤ K)
    (h : x.natAbs * 9 + m ≤ m * 10 ^ k) (hK : m * 10 ^ K < 9 * 9223372036854775808) :
    |x| < 2 ^ 63 := by
  have h1 : m * 10 ^ k ≤ m * 10 ^ K :=
    Nat.mul_le_mul_left _ (Nat.pow_le_pow_right (by norm_num) hkK)
  have h2 : x.natAbs < 9223372036854775808 := by omega
  rw [abs_lt]
  norm_num
  constructor <;> omega

theorem abs_le_of_natAbs_bound (x : Int) (k : Nat) (h : x.natAbs * 9 + 9 ≤ 9 * 10 ^ k) :
    |x| ≤ 10 ^ k - 1 := by
  have h2 : x.natAbs + 1 ≤ 10 ^ k := by omega
  have hc : (10 : Int) ^ k = ((10 ^ k : Nat) : Int) := by push_cast; rfl
  rw [abs_le, hc]
  generalize 10 ^ k = N at *
  constructor <;> omega

theorem range_of_abs_lt (x : Int) (h : |x| < 2 ^ 63) :
    -9223372036854775808 ≤ x ∧ x < 9223372036854775808 := by
  have := abs_lt.1 h
  norm_num at this
  exact ⟨le_of_lt this.1, this.2⟩

/-- Claim C26: on a sequence of at most 9 bytes for `unpack`, at most 18 bytes for `unzone`,
whatever its nibbles, every value of the computation over the unbounded integers (each product,
each sum, the final negation) and the result are below `2^63` in absolute value, so the 64-bit
computation of the code is that exact computation; and when the digit nibbles are decimal
digits the result of `unpack` on `n` bytes is at most `10^(2n-1) - 1` in absolute value, that
of `unzone` at most `10^n - 1`. -/
theorem no_accumulator_overflow (pdIn : List Nat) (hbytes : ∀ b ∈ pdIn, b < 256) :
    (pdIn.length ≤ 9 →
      (∀ x ∈ unpackValues pdIn 0, |x| < 2 ^ 63) ∧
      unpack pdIn = unpackExact pdIn 0 ∧
      (∀ v, unpack pdIn = .ok v → |v| < 2 ^ 63) ∧
      ((∀ b ∈ pdIn, hiNibble b ≤ 9) → (∀ b ∈ pdIn.dropLast, loNibble b ≤ 9) →
        ∀ v, unpack pdIn = .ok v → |v| ≤ 10 ^ (2 * pdIn.length - 1) - 1)) ∧
    (pdIn.length ≤ 18 →
      (∀ x ∈ unzoneValues pdIn 0, |x| < 2 ^ 63) ∧
      unzone pdIn = unzoneExact pdIn 0 ∧
      (∀ v, unzone pdIn = .ok v → |v| < 2 ^ 63) ∧
      ((∀ b ∈ pdIn, loNibble b ≤ 9) →
        ∀ v, unzone pdIn = .ok v → |v| ≤ 10 ^ pdIn.length - 1)) := by
  constructor
  · intro hlen
    have hb : ∀ x ∈ unpackValues pdIn 0, |x| < 2 ^ 63 := by
      intro x hx
      have := unpackValues_bound 15 pdIn 0 hbytes (fun b hb => (nibbles_le_15 b (hbytes b hb)).1)
        (fun b hb => (nibbles_le_15 b (hbytes b (List.mem_of_mem_dropLast hb))).2) x hx
      exact abs_lt_of_natAbs_bound x 15 (2 * pdIn.length - 1) 17 (by omega)
        (by simpa using this) (by norm_num)
    have heq : unpack pdIn = unpackExact pdIn 0 := by
      rw [unpack_eq_unpackList]
      exact unpackList_eq_unpackExact pdIn 0 (fun x hx => range_of_abs_lt x (hb x hx))
    refine ⟨hb, heq, ?_, ?_⟩
    · intro v hv
      by_cases hne : pdIn = []
      · subst hne
        rw [heq] at hv
        simp only [unpackExact, Except.ok.injEq] at hv
        subst hv; norm_num
      · rw [heq] at hv
        exact hb v (unpackExact_mem pdIn 0 v hne hv)
    · intro hhi hlo v hv
      by_cases hne : pdIn = []
      · subst hne
        rw [heq] at hv
        simp only [unpackExact, Except.ok.injEq] at hv
        subst hv; norm_num
      · rw [heq] at hv
        have := unpackValues_bound 9 pdIn 0 hbytes hhi hlo v (unpackExact_mem pdIn 0 v hne hv)
        exact abs_le_of_natAbs_bound v _ (by simpa [Nat.mul_comm] using this)
  · intro hlen
    have hb : ∀ x ∈ unzoneValues pdIn 0, |x| < 2 ^ 63 := by
      intro x hx
      have := unzoneValues_bound 15 pdIn 0
        (fun b _ => by unfold loNibble; omega) x hx
      exact abs_lt_of_natAbs_bound x 15 pdIn.length 18 hlen
        (by simpa using this) (by norm_num)
    have heq : unzone pdIn = unzoneExact pdIn 0 := by
      rw [unzone_eq_unzoneList]
      exact unzoneList_eq_unzoneExact pdIn 0 (fun x hx => range_of_abs_lt x (hb x hx))
    refine ⟨hb, heq, ?_, ?_⟩
    · intro v hv
      by_cases hne : pdIn = []
      · subst hne
        rw [heq] at hv
        simp only [unzoneExact, Except.ok.injEq] at hv
        subst hv; norm_num
      · rw [heq] at hv
        exact hb v (unzoneExact_mem pdIn 0 v hne hv)
    · intro hlo v hv
      by_cases hne : pdIn = []
      · subst hne
        rw [heq] at hv
        simp only [unzoneExact, Except.ok.injEq] at hv
        subst hv; norm_num
      · rw [heq] at hv
        have := unzoneValues_bound 9 pdIn 0 hlo v (unzoneExact_mem pdIn 0 v hne hv)
        exact abs_le_of_natAbs_bound v _ (by simpa [Nat.mul_comm] using this)

/-- Witness of C26 on nine bytes of `FF` nibbles ended by a minus sign: the exact result is
-166666666666666665, the value of `unpack`. -/
theorem no_accumulator_overflow_witness :
    unpack [0xFF, 0xFF, 0xFF, 0xFF, 0xFF, 0xFF, 0xFF, 0xFF, 0xFD]
      = unpackExact [0xFF, 0xFF, 0xFF, 0xFF, 0xFF, 0xFF, 0xFF, 0xFF, 0xFD] 0 ∧
    unpackExact [0xFF, 0xFF, 0xFF, 0xFF, 0xFF, 0xFF, 0xFF, 0xFF, 0xFD] 0
      = .ok (-166666666666666665) :=
  ⟨((no_accumulator_overflow [0xFF, 0xFF, 0xFF, 0xFF, 0xFF, 0xFF, 0xFF, 0xFF, 0xFD]
      (by decide)).1 (by decide)).2.1, by decide⟩

/-! ## A field of whitespace -/

/-- On a buffer of whitespace the first loop of `trim` runs up to `iEnd`. -/
theorem trimBegin_blank (str : List Nat) (hws : ∀ c ∈ str, isspace c = true) (e : Nat)
    (he : e < str.length) :
    ∀ (fuel i : Nat), i ≤ e → e - i ≤ fuel → trimBegin str (e : Int) fuel (i : Int) = e := by
  intro fuel
  induction fuel with
  | zero =>
    intro i hi hf
    have : i = e := by omega
    simp [trimBegin, this]
  | succ n ih =>
    intro i hi hf
    rw [trimBegin]
    by_cases hlt : i < e
    · have hmem : str.getD i 0 ∈ str := by
        rw [List.getD_eq_getElem _ _ (by omega)]
        exact List.getElem_mem _
      have hsp := hws _ hmem
      have hd : decide ((i : Int) < (e : Int)) = true := by
        simp only [decide_eq_true_eq]; omega
      rw [charAt_natCast, hsp, hd]
      simp only [Bool.and_self, if_true]
      have := ih (i + 1) (by omega) (by omega)
      simpa using this
    · have hie : i = e := by omega
      have hd : decide ((i : Int) < (e : Int)) = false := by
        simp only [decide_eq_false_iff_not]; omega
      rw [hd]
      simp [hie]

/-- A buffer of whitespace is trimmed to its last byte. -/
theorem trim_blank (ws : List Nat) (c : Nat) (hws : ∀ w ∈ ws ++ [c], isspace w = true) :
    trim (ws ++ [c]) = [c] := by
  have hc : isspace c = true := hws c (by simp)
  have hlen : ((ws ++ [c]).length : Int) - 1 = (ws.length : Int) := by simp
  have hB := trimBegin_blank (ws ++ [c]) hws ws.length (by simp) (ws ++ [c]).length 0
    (by omega) (by simp)
  have hE : trimEnd (ws ++ [c]) (ws.length : Int) (ws ++ [c]).length (ws.length : Int)
      = ws.length := by
    have hl : (ws ++ [c]).length = ws.length + 1 := by simp
    rw [hl, trimEnd]
    simp
  have hC := trimCopy_mid [] [c] ws (ws ++ [c]).length (ws.length : Int) (ws.length : Int) []
    (by simp) rfl (by simp)
  have hk : keepByte c = true := by
    have h1 : c ≠ 0x22 := by intro h; rw [h] at hc; revert hc; decide
    have h2 : c ≠ 0x7C := by intro h; rw [h] at hc; revert hc; decide
    simp [keepByte, h1, h2]
  simp only [trim, hlen]
  simp only [Nat.cast_zero] at hB
  rw [hB, hE]
  simp only [List.append_nil] at hC
  rw [hC]
  simp [hk]

/-- The bytes of a field that lies inside the read buffer, once it is translated. -/
theorem fieldBytes_convertAt (r : List Nat) (pos len : Nat) (h : pos + len ≤ r.length) :
    fieldBytes (convertAt r pos len) pos len
      = ((r.drop pos).take len).map (fun b => ebc2asc.getD b 0) := by
  have h1 : (convertAt r pos len).drop pos = convert (r.drop pos) len := by
    unfold convertAt
    have hl : (r.take pos).length = pos := by simp; omega
    have hd := List.drop_left (r.take pos) (convert (r.drop pos) len)
    rw [hl] at hd
    exact hd
  have h2 : (((r.drop pos).take len).map (fun b => ebc2asc.getD b 0)).length = len := by
    simp; omega
  unfold fieldBytes
  rw [h1, convert_eq]
  have := readBytes_append_left (((r.drop pos).take len).map (fun b => ebc2asc.getD b 0))
    ((r.drop pos).drop len)
  rw [h2] at this
  exact this

/-- Claim C27: for every field of at least one byte that holds whitespace bytes only, `trim`
returns exactly one byte, the last byte of the field, not the empty string; so a Text field
whose translated bytes are all whitespace is decoded to that single whitespace byte. -/
theorem trim_blank_field (str : List Nat) (hlen : 1 ≤ str.length)
    (hws : ∀ c ∈ str, isspace c = true) :
    ∃ c, str.getLast? = some c ∧ isspace c = true ∧ trim str = [c] ∧ (trim str).length = 1 ∧
      ∀ (env : Env) (rec i : Nat) (md : METADATARECORD) (r : List Nat),
        md.cDatatype = 0x41 ∨ md.cDatatype = 0x54 → md.pos + md.len ≤ r.length →
        ((r.drop md.pos).take md.len).map (fun b => ebc2asc.getD b 0) = str →
        decodeField env rec i md r = .ok (convertAt r md.pos md.len, [c]) := by
  obtain ⟨ws, c, rfl⟩ : ∃ ws c, str = ws ++ [c] := by
    have hne : str ≠ [] := by
      intro h; rw [h] at hlen; simp at hlen
    exact ⟨str.dropLast, str.getLast hne, (List.dropLast_append_getLast hne).symm⟩
  have ht := trim_blank ws c hws
  refine ⟨c, by simp, hws c (by simp), ht, by rw [ht]; rfl, ?_⟩
  intro env rec i md r hA hin hstr
  rw [decodeField_text env rec i md r hA, fieldBytes_convertAt r md.pos md.len hin, hstr, ht]

/-- Witness of C27: three blanks are trimmed to one blank, and the record of three EBCDIC
blanks is written by the one-field schema as one blank and the line feed. -/
theorem trim_blank_field_witness :
    (∃ c, [0x20, 0x20, 0x20].getLast? = some c ∧ isspace c = true ∧
      trim [0x20, 0x20, 0x20] = [c] ∧ (trim [0x20, 0x20, 0x20]).length = 1 ∧
      ∀ (env : Env) (rec i : Nat) (md : METADATARECORD) (r : List Nat),
        md.cDatatype = 0x41 ∨ md.cDatatype = 0x54 → md.pos + md.len ≤ r.length →
        ((r.drop md.pos).take md.len).map (fun b => ebc2asc.getD b 0) = [0x20, 0x20, 0x20] →
        decodeField env rec i md r = .ok (convertAt r md.pos md.len, [c])) ∧
    decodeRecord exactEnv 0 oneTextSchema [0x40, 0x40, 0x40] = .ok [0x20, 0x0A] :=
  ⟨trim_blank_field [0x20, 0x20, 0x20] (by decide) (by decide), by decide⟩

/-! ## The token loop of `LoadMetadata` on a well-formed line -/

theorem tabbed_append (ts : List (List Nat)) (tail more : List Nat) :
    tabbed ts tail ++ more = tabbed ts (tail ++ more) := by
  induction ts with
  | nil => rfl
  | cons t ts ih => simp [tabbed, ih]

theorem cstr_token (tok rest : List Nat) (h : ∀ x ∈ tok, x ≠ 0) :
    cstr (tok ++ 0 :: rest) = tok := by
  unfold cstr
  exact takeWhile_append_stop _ tok 0 rest (fun x hx => by simp [h x hx]) (by simp)

theorem tokenLoop_some (n : Nat) (mem : List Nat) (saved tok j : Nat) (cv : CONVERTER)
    (md : METADATARECORD) :
    tokenLoop (n + 1) mem saved (some tok) j cv md
      = scanTokens n mem saved (j + 1) (storeToken cv j (cstr (mem.drop tok)) md).1
          (storeToken cv j (cstr (mem.drop tok)) md).2 := by
  rw [tokenLoop, scanTokens]

/-- The token loop over the tokens of `tabbed ts tail`: each is stored in turn. -/
theorem scanTokens_tabbed : ∀ (ts : List (List Nat)) (pre tail : List Nat) (fuel j : Nat)
    (cv : CONVERTER) (md : METADATARECORD), (∀ t ∈ ts, IsToken t) →
    scanTokens (ts.length + fuel) (pre ++ tabbed ts tail) pre.length j cv md
      = scanTokens fuel (pre ++ zeroed ts tail) (pre ++ zeroed ts []).length (j + ts.length)
          (storeTokens ts j (cv, md)).1 (storeTokens ts j (cv, md)).2 := by
  intro ts
  induction ts with
  | nil =>
    intro pre tail fuel j cv md _
    simp [tabbed, zeroed, storeTokens]
  | cons t ts ih =>
    intro pre tail fuel j cv md h
    have ht := h t (by simp)
    have hs := strtok_token pre t (tabbed ts tail) 0x09 (by decide) ht.1 ht.2
    have hc : cstr ((pre ++ t ++ 0 :: tabbed ts tail).drop pre.length) = t := by
      rw [List.append_assoc, List.drop_left]
      exact cstr_token t _ (fun x hx => (ht.2 x hx).2)
    have hfuel : (t :: ts).length + fuel = (ts.length + fuel) + 1 := by
      simp only [List.length_cons]; omega
    have e1 : pre ++ tabbed (t :: ts) tail = pre ++ t ++ 0x09 :: tabbed ts tail := by
      simp [tabbed]
    rw [e1, hfuel, scanTokens, hs]
    simp only
    rw [tokenLoop_some, hc]
    have e2 : pre ++ t ++ 0 :: tabbed ts tail = (pre ++ t ++ [0]) ++ tabbed ts tail := by simp
    have e3 : pre.length + t.length + 1 = (pre ++ t ++ [0]).length := by simp; omega
    rw [e2, e3, ih (pre ++ t ++ [0]) tail fuel (j + 1) _ _ (fun x hx => h x (by simp [hx]))]
    simp only [zeroed, storeTokens, List.length_cons, List.append_assoc, List.singleton_append,
      List.cons_append, List.nil_append]
    have e4 : j + 1 + ts.length = j + (ts.length + 1) := by omega
    rw [e4]

theorem storeToken_tail (cv : CONVERTER) (j : Nat) (p : List Nat) (md : METADATARECORD)
    (hj : 6 ≤ j) :
    ∃ d t, storeToken cv j p md = (cv, { md with sDescription := d, sTranslation := t }) := by
  unfold storeToken
  split <;> first | omega | exact ⟨_, _, rfl⟩

/-- From the sixth token on, the token loop changes the description and the translation of
the record only. -/
theorem tokenLoop_tail : ∀ (n : Nat) (mem : List Nat) (saved : Nat) (tok : Option Nat)
    (j : Nat) (cv : CONVERTER) (md : METADATARECORD), 6 ≤ j →
    ∃ d t, tokenLoop n mem saved tok j cv md
      = (cv, { md with sDescription := d, sTranslation := t }) := by
  intro n
  induction n with
  | zero => intro mem saved tok j cv md _; exact ⟨_, _, rfl⟩
  | succ n ih =>
    intro mem saved tok j cv md hj
    cases tok with
    | none => exact ⟨_, _, rfl⟩
    | some t =>
      obtain ⟨d1, t1, h1⟩ := storeToken_tail cv j (cstr (mem.drop t)) md hj
      rw [tokenLoop]
      simp only [h1]
      obtain ⟨d2, t2, h2⟩ := ih (strtok mem 0x09 saved).2.1 (strtok mem 0x09 saved).2.2
        (strtok mem 0x09 saved).1 (j + 1) cv
        { md with sDescription := d1, sTranslation := t1 } (by omega)
      exact ⟨d2, t2, h2⟩

theorem scanTokens_tail (fuel : Nat) (mem : List Nat) (saved j : Nat) (cv : CONVERTER)
    (md : METADATARECORD) (hj : 6 ≤ j) :
    ∃ d t, scanTokens fuel mem saved j cv md
      = (cv, { md with sDescription := d, sTranslation := t }) := by
  unfold scanTokens
  exact tokenLoop_tail fuel _ _ _ j cv md hj

/-! ## The range of `int` -/

theorem wrap32_of_range (x : Int) (h : InInt x) : wrap32 x = x := by
  unfold InInt at h
  unfold wrap32
  omega

theorem wrap32_range (x : Int) : InInt (wrap32 x) := by
  unfold InInt wrap32
  omega

theorem wrap32_wrap32_add (a b : Int) : wrap32 (wrap32 a + b) = wrap32 (a + b) := by
  unfold wrap32
  omega

theorem atoi_range (s : List Nat) : InInt (atoi s) := wrap32_range _

/-! ## The record loaded from a well-formed line -/

theorem loadLine_eq_scanTokens (cv : CONVERTER) (fresh : METADATARECORD) (s : List Nat) :
    loadLine cv fresh s
      = { iInputRecordLength :=
            wrap32 ((scanTokens (s.length + 1) (s ++ [0]) 0 1 cv fresh).1.iInputRecordLength
              + wrap32 (wrap32 ((scanTokens (s.length + 1) (s ++ [0]) 0 1 cv fresh).2.iTo
                - (scanTokens (s.length + 1) (s ++ [0]) 0 1 cv fresh).2.iFrom) + 1)),
          iOutputRecordLength :=
            (scanTokens (s.length + 1) (s ++ [0]) 0 1 cv fresh).1.iOutputRecordLength,
          Metadata := (scanTokens (s.length + 1) (s ++ [0]) 0 1 cv fresh).1.Metadata ++
            [{ (scanTokens (s.length + 1) (s ++ [0]) 0 1 cv fresh).2 with
                iInputPosition :=
                  wrap32 ((scanTokens (s.length + 1) (s ++ [0]) 0 1 cv fresh).2.iFrom - 1),
                iInputFieldLength :=
                  wrap32 (wrap32 ((scanTokens (s.length + 1) (s ++ [0]) 0 1 cv fresh).2.iTo
                    - (scanTokens (s.length + 1) (s ++ [0]) 0 1 cv fresh).2.iFrom) + 1) }] } := by
  rfl

theorem length_tabbed (ts : List (List Nat)) (tail : List Nat) :
    (tabbed ts tail).length = (ts.map List.length).sum + ts.length + tail.length := by
  induction ts with
  | nil => simp [tabbed]
  | cons t ts ih => simp [tabbed, ih]; omega

/-- The record that `LoadMetadata` appends for a well-formed line. -/
theorem loadLine_wellFormed (cv : CONVERTER) (fresh : METADATARECORD) (l : SchemaLine)
    (hwf : l.WellFormed) :
    ∃ md, loadLine cv fresh l.bytes
        = { iInputRecordLength := wrap32 (cv.iInputRecordLength + md.iInputFieldLength),
            iOutputRecordLength := wrap32 (cv.iOutputRecordLength + md.iOutputFieldLength),
            Metadata := cv.Metadata ++ [md] } ∧
      md.sFieldname = l.name ∧ md.cDatatype = l.typ.headD 0 ∧
      md.iFrom = atoi l.colFrom ∧ md.iTo = atoi l.colTo ∧
      md.iInputPosition = wrap32 (md.iFrom - 1) ∧
      md.iInputFieldLength = wrap32 (wrap32 (md.iTo - md.iFrom) + 1) ∧
      md.iOutputPosition = nextOutputPosition cv.Metadata.getLast? ∧
      md.iOutputFieldLength = (storeToken cv 2 l.size fresh).2.iOutputFieldLength ∧
      md.iPrecision = (storeToken cv 2 l.size fresh).2.iPrecision := by
  obtain ⟨h1, h2, h3, h4, h5, -⟩ := hwf
  have htok : ∀ t ∈ [l.name, l.size, l.typ, l.colFrom, l.colTo], IsToken t := by
    intro t ht
    simp only [List.mem_cons, List.mem_singleton, List.not_mem_nil, or_false] at ht
    rcases ht with rfl | rfl | rfl | rfl | rfl <;> assumption
  have hmem : l.bytes ++ [0]
      = [] ++ tabbed [l.name, l.size, l.typ, l.colFrom, l.colTo] (l.tail ++ [0]) := by
    rw [SchemaLine.bytes, tabbed_append]; rfl
  obtain ⟨fuel, hfuel⟩ : ∃ fuel, l.bytes.length + 1
      = [l.name, l.size, l.typ, l.colFrom, l.colTo].length + fuel := by
    refine ⟨l.bytes.length + 1 - 5, ?_⟩
    rw [SchemaLine.bytes, length_tabbed]
    simp; omega
  have hscan := scanTokens_tabbed [l.name, l.size, l.typ, l.colFrom, l.colTo] []
    (l.tail ++ [0]) fuel 1 cv fresh htok
  obtain ⟨d, t, htail⟩ := scanTokens_tail fuel
    ([] ++ zeroed [l.name, l.size, l.typ, l.colFrom, l.colTo] (l.tail ++ [0]))
    ([] ++ zeroed [l.name, l.size, l.typ, l.colFrom, l.colTo] []).length
    (1 + [l.name, l.size, l.typ, l.colFrom, l.colTo].length)
    (storeTokens [l.name, l.size, l.typ, l.colFrom, l.colTo] 1 (cv, fresh)).1
    (storeTokens [l.name, l.size, l.typ, l.colFrom, l.colTo] 1 (cv, fresh)).2 (by simp)
  rw [htail] at hscan
  rw [loadLine_eq_scanTokens, hmem, hfuel]
  simp only [List.length_nil] at hscan
  rw [hscan]
  have hst : storeTokens [l.name, l.size, l.typ, l.colFrom, l.colTo] 1 (cv, fresh)
      = ({ cv with iOutputRecordLength := wrap32 (cv.iOutputRecordLength
              + (storeToken cv 2 l.size fresh).2.iOutputFieldLength) },
          { fresh with
              sFieldname := l.name,
              sSize := (storeToken cv 2 l.size fresh).2.sSize,
              iPrecision := (storeToken cv 2 l.size fresh).2.iPrecision,
              iOutputFieldLength := (storeToken cv 2 l.size fresh).2.iOutputFieldLength,
              iOutputPosition := nextOutputPosition cv.Metadata.getLast?,
              cDatatype := l.typ.headD 0,
              iFrom := atoi l.colFrom,
              iTo := atoi l.colTo }) := rfl
  rw [hst]
  exact ⟨{ fresh with
      sFieldname := l.name,
      sSize := (storeToken cv 2 l.size fresh).2.sSize,
      iPrecision := (storeToken cv 2 l.size fresh).2.iPrecision,
      iOutputFieldLength := (storeToken cv 2 l.size fresh).2.iOutputFieldLength,
      iOutputPosition := nextOutputPosition cv.Metadata.getLast?,
      cDatatype := l.typ.headD 0,
      iFrom := atoi l.colFrom,
      iTo := atoi l.colTo,
      sDescription := d,
      sTranslation := t,
      iInputPosition := wrap32 (atoi l.colFrom - 1),
      iInputFieldLength := wrap32 (wrap32 (atoi l.colTo - atoi l.colFrom) + 1) },
    rfl, rfl, rfl, rfl, rfl, rfl, rfl, rfl, rfl, rfl⟩

/-! ## Offsets and totals of a loaded schema -/

theorem inInt_nextOutputPosition (prev : Option METADATARECORD) :
    InInt (nextOutputPosition prev) := by
  cases prev with
  | none => exact ⟨by decide, by decide⟩
  | some p => exact wrap32_range _

theorem outputChain_closed : ∀ (mds : List METADATARECORD) (prev : Option METADATARECORD),
    OutputChain prev mds → ∀ (i : Nat) (md : METADATARECORD), mds[i]? = some md →
    md.iOutputPosition
      = wrap32 (nextOutputPosition prev
          + ((mds.take i).map (fun m => m.iOutputFieldLength)).sum) := by
  intro mds
  induction mds with
  | nil => intro prev _ i md h; simp at h
  | cons m rest ih =>
    intro prev hc i md h
    obtain ⟨h0, hrest⟩ := hc
    cases i with
    | zero =>
      simp only [List.getElem?_cons_zero, Option.some.injEq] at h
      subst h
      simp only [List.take_zero, List.map_nil, List.sum_nil, add_zero]
      rw [wrap32_of_range _ (inInt_nextOutputPosition prev)]
      exact h0
    | succ i =>
      simp only [List.getElem?_cons_succ] at h
      have := ih (some m) hrest i md h
      rw [this]
      simp only [List.take_succ_cons, List.map_cons, List.sum_cons]
      have e : nextOutputPosition (some m)
          = wrap32 (m.iOutputPosition + m.iOutputFieldLength) := rfl
      rw [e, wrap32_wrap32_add, h0, add_assoc]

theorem outputChain_step : ∀ (mds : List METADATARECORD) (prev : Option METADATARECORD),
    OutputChain prev mds → ∀ (i : Nat) (p md : METADATARECORD), mds[i]? = some p →
    mds[i + 1]? = some md →
    md.iOutputPosition = wrap32 (p.iOutputPosition + p.iOutputFieldLength) := by
  intro mds
  induction mds with
  | nil => intro prev _ i p md h; simp at h
  | cons m rest ih =>
    intro prev hc i p md hp hmd
    obtain ⟨_, hrest⟩ := hc
    cases i with
    | zero =>
      simp only [List.getElem?_cons_zero, Option.some.injEq] at hp
      subst hp
      cases rest with
      | nil => simp at hmd
      | cons m2 rest2 =>
        simp only [Nat.zero_add, List.getElem?_cons_succ, List.getElem?_cons_zero,
          Option.some.injEq] at hmd
        subst hmd
        exact hrest.1
    | succ i =>
      simp only [List.getElem?_cons_succ] at hp hmd
      exact ih (some m) hrest i p md hp hmd

theorem forall₂_getElem? {α β : Type} (R : α → β → Prop) :
    ∀ (l1 : List α) (l2 : List β), List.Forall₂ R l1 l2 →
    ∀ (i : Nat) (a : α) (b : β), l1[i]? = some a → l2[i]? = some b → R a b := by
  intro l1 l2 h
  induction h with
  | nil => intro i a b h1; simp at h1
  | cons hab _ ih =>
    intro i a b h1 h2
    cases i with
    | zero =>
      simp only [List.getElem?_cons_zero, Option.some.injEq] at h1 h2
      subst h1; subst h2; exact hab
    | succ i =>
      simp only [List.getElem?_cons_succ] at h1 h2
      exact ih i a b h1 h2

/-- Loading well-formed lines appends one record for each line, in order, each described by
its line, chains the output positions and adds the lengths to the totals, in `int`. -/
theorem loadLines_wellFormed (fresh : Nat → METADATARECORD) :
    ∀ (ls : List SchemaLine) (i : Nat) (cv : CONVERTER), (∀ l ∈ ls, l.WellFormed) →
    InInt cv.iInputRecordLength → InInt cv.iOutputRecordLength →
    ∃ mds, loadLines fresh (ls.map SchemaLine.bytes) i cv
        = { iInputRecordLength := wrap32 (cv.iInputRecordLength
              + (mds.map (fun m => m.iInputFieldLength)).sum),
            iOutputRecordLength := wrap32 (cv.iOutputRecordLength
              + (mds.map (fun m => m.iOutputFieldLength)).sum),
            Metadata := cv.Metadata ++ mds } ∧
      List.Forall₂ Describes ls mds ∧ OutputChain cv.Metadata.getLast? mds := by
  intro ls
  induction ls with
  | nil =>
    intro i cv _ hi ho
    refine ⟨[], ?_, List.Forall₂.nil, trivial⟩
    simp only [List.map_nil, loadLines, List.sum_nil, add_zero, List.append_nil]
    rw [wrap32_of_range _ hi, wrap32_of_range _ ho]
  | cons l rest ih =>
    intro i cv h hi ho
    obtain ⟨md, hl, d1, d2, d3, d4, d5, d6, d7, d8, d9⟩ :=
      loadLine_wellFormed cv (fresh i) l (h l (by simp))
    obtain ⟨mds, hr, hd, hc⟩ := ih (i + 1)
      { iInputRecordLength := wrap32 (cv.iInputRecordLength + md.iInputFieldLength),
        iOutputRecordLength := wrap32 (cv.iOutputRecordLength + md.iOutputFieldLength),
        Metadata := cv.Metadata ++ [md] } (fun x hx => h x (by simp [hx]))
      (wrap32_range _) (wrap32_range _)
    refine ⟨md :: mds, ?_, List.Forall₂.cons ⟨d1, d2, d3, d4, d5, d6⟩ hd, ?_, ?_⟩
    · rw [List.map_cons, loadLines, hl, hr]
      simp only [List.map_cons, List.sum_cons, List.append_assoc, List.singleton_append,
        wrap32_wrap32_add, add_assoc]
    · exact d7
    · simpa using hc

theorem forall₂_length_eq {α β : Type} (R : α → β → Prop) (l1 : List α) (l2 : List β)
    (h : List.Forall₂ R l1 l2) : l2.length = l1.length := by
  induction h with
  | nil => rfl
  | cons _ _ ih => simp [ih]

theorem sum_take_succ (mds : List METADATARECORD) (f : METADATARECORD → Int) :
    ∀ (i : Nat) (p : METADATARECORD), mds[i]? = some p →
    ((mds.take (i + 1)).map f).sum = ((mds.take i).map f).sum + f p := by
  induction mds with
  | nil => intro i p h; simp at h
  | cons m rest ih =>
    intro i p h
    cases i with
    | zero =>
      simp only [List.getElem?_cons_zero, Option.some.injEq] at h
      subst h
      simp
    | succ i =>
      simp only [List.getElem?_cons_succ] at h
      rw [List.take_succ_cons, List.take_succ_cons, List.map_cons, List.map_cons,
        List.sum_cons, List.sum_cons, ih i p h, add_assoc]

/-! ## The libc `atoi` -/

theorem atoiDigits_digits : ∀ (ds : List Nat) (acc : Nat), (∀ d ∈ ds, d ≤ 9) →
    atoiDigits (ds.map (fun d => 0x30 + d)) (acc : Int) = (horner ds acc : Int) := by
  intro ds
  induction ds with
  | nil => intro acc _; rfl
  | cons d ds ih =>
    intro acc h
    have hd : d ≤ 9 := h d (by simp)
    have hdig : 0x30 ≤ 0x30 + d ∧ 0x30 + d ≤ 0x39 := by omega
    rw [List.map_cons, atoiDigits, if_pos hdig]
    have e : (acc : Int) * 10 + ((0x30 + d - 0x30 : Nat) : Int) = ((acc * 10 + d : Nat) : Int) := by
      have : 0x30 + d - 0x30 = d := by omega
      rw [this]; push_cast; rfl
    rw [e, ih (acc * 10 + d) (fun x hx => h x (by simp [hx]))]
    simp [horner]

/-- The number that `strtol` reads in a string of decimal digits is the number they write. -/
theorem strtolValue_digits (ds : List Nat) (h : ∀ d ∈ ds, d ≤ 9) :
    strtolValue (digitBytes ds) = (decimalValue ds : Int) := by
  have hval : horner ds 0 = decimalValue ds := by
    rw [horner_eq_ofDigits]; simp [decimalValue]
  have hmain := atoiDigits_digits ds 0 h
  rw [hval] at hmain
  unfold digitBytes
  cases ds with
  | nil => simpa [strtolValue] using hmain
  | cons d rest =>
    have hd : d ≤ 9 := h d (by simp)
    have hsp : isspace (0x30 + d) = false := by
      simp only [isspace, Bool.or_eq_false_iff, beq_eq_false_iff_ne, Bool.and_eq_false_iff,
        decide_eq_false_iff_not]
      omega
    have hdw : ((d :: rest).map (fun d => 0x30 + d)).dropWhile isspace
        = (d :: rest).map (fun d => 0x30 + d) := by
      rw [List.map_cons, List.dropWhile_cons, hsp]
      rfl
    unfold strtolValue
    rw [hdw]
    split
    · rename_i heq
      simp only [List.map_cons, List.cons.injEq] at heq
      omega
    · rename_i heq
      simp only [List.map_cons, List.cons.injEq] at heq
      omega
    · exact hmain

/-- The libc `atoi` on a string of decimal digits that write a number in the range of `int` is
that number. -/
theorem atoi_digits (ds : List Nat) (h : ∀ d ∈ ds, d ≤ 9)
    (hb : decimalValue ds ≤ 2147483647) :
    atoi (digitBytes ds) = (decimalValue ds : Int) := by
  have hv := strtolValue_digits ds h
  have h0 : (0 : Int) ≤ (decimalValue ds : Int) := Int.natCast_nonneg _
  have h1 : ((decimalValue ds : Nat) : Int) ≤ 2147483647 := by
    have : ((decimalValue ds : Nat) : Int) ≤ ((2147483647 : Nat) : Int) := Int.ofNat_le.2 hb
    simpa using this
  unfold atoi strtol
  rw [hv, if_neg (by omega), if_neg (by omega)]
  exact wrap32_of_range _ ⟨by omega, h1⟩

/-- A string of at most nine decimal digits writes a number in the range of `int`. -/
theorem decimalValue_le_int (ds : List Nat) (h : ∀ d ∈ ds, d ≤ 9) (hl : ds.length ≤ 9) :
    decimalValue ds ≤ 2147483647 := by
  have h1 := decimalValue_lt ds h
  have h2 : 10 ^ ds.length ≤ 10 ^ 9 := Nat.pow_le_pow_right (by decide) hl
  omega

theorem atoiDigits_bound : ∀ (s : List Nat) (acc : Int), 0 ≤ acc →
    0 ≤ atoiDigits s acc ∧ atoiDigits s acc < (acc + 1) * 10 ^ s.length := by
  intro s
  induction s with
  | nil =>
    intro acc h
    simp only [atoiDigits, List.length_nil, pow_zero, mul_one]
    omega
  | cons c rest ih =>
    intro acc h
    have hpow : (0 : Int) < 10 ^ rest.length := by positivity
    rw [atoiDigits]
    split_ifs with hc
    · have hd : ((c - 0x30 : Nat) : Int) ≤ 9 := by omega
      have hd0 : (0 : Int) ≤ ((c - 0x30 : Nat) : Int) := Int.natCast_nonneg _
      obtain ⟨i1, i2⟩ := ih (acc * 10 + ((c - 0x30 : Nat) : Int)) (by omega)
      refine ⟨i1, lt_of_lt_of_le i2 ?_⟩
      have e : (acc + 1) * 10 ^ (rest.length + 1) = ((acc + 1) * 10) * 10 ^ rest.length := by
        rw [pow_succ]; ring
      rw [List.length_cons, e]
      exact mul_le_mul_of_nonneg_right (by omega) (le_of_lt hpow)
    · refine ⟨h, ?_⟩
      rw [List.length_cons, pow_succ]
      nlinarith

/-- The number that `strtol` reads in a string of `n` bytes is below `10 ^ n` in absolute
value. -/
theorem strtolValue_bound (s : List Nat) :
    -(10 : Int) ^ s.length < strtolValue s ∧ strtolValue s < 10 ^ s.length := by
  have hle : (s.dropWhile isspace).length ≤ s.length := (List.dropWhile_sublist isspace).length_le
  have hmono : ∀ k, k ≤ s.length → (10 : Int) ^ k ≤ 10 ^ s.length :=
    fun k hk => pow_le_pow_right₀ (by norm_num) hk
  unfold strtolValue
  split
  · rename_i rest heq
    obtain ⟨b1, b2⟩ := atoiDigits_bound rest 0 (le_refl _)
    have := hmono rest.length (by rw [heq] at hle; simp at hle; omega)
    constructor <;> linarith
  · rename_i rest heq
    obtain ⟨b1, b2⟩ := atoiDigits_bound rest 0 (le_refl _)
    have := hmono rest.length (by rw [heq] at hle; simp at hle; omega)
    have hp : (0 : Int) < 10 ^ s.length := by positivity
    constructor <;> linarith
  · obtain ⟨b1, b2⟩ := atoiDigits_bound (s.dropWhile isspace) 0 (le_refl _)
    have := hmono _ hle
    have hp : (0 : Int) < 10 ^ s.length := by positivity
    constructor <;> linarith

/-- On a string of at most nine bytes the libc `atoi` is the number that `strtol` reads:
neither the range of `long` nor the range of `int` cuts it. -/
theorem atoi_eq_strtolValue (s : List Nat) (h : s.length ≤ 9) : atoi s = strtolValue s := by
  obtain ⟨b1, b2⟩ := strtolValue_bound s
  have hp : (10 : Int) ^ s.length ≤ 10 ^ 9 := pow_le_pow_right₀ (by norm_num) h
  have h9 : (10 : Int) ^ 9 = 1000000000 := by norm_num
  unfold atoi strtol
  rw [if_neg (by omega), if_neg (by omega)]
  exact wrap32_of_range _ ⟨by omega, by omega⟩

theorem atoiDigits_no_digit (s : List Nat) (h : ¬ (0x30 ≤ s.headD 0 ∧ s.headD 0 ≤ 0x39)) :
    atoiDigits s 0 = 0 := by
  cases s with
  | nil => rfl
  | cons c rest =>
    simp only [List.headD_cons] at h
    rw [atoiDigits, if_neg h]

theorem atoi_of_strtolValue_zero (s : List Nat) (h : strtolValue s = 0) : atoi s = 0 := by
  unfold atoi strtol
  rw [h]
  decide

/-- The libc `atoi` on a string without any digit is 0. -/
theorem atoi_no_digit (s : List Nat) (h : ∀ c ∈ s, ¬ (0x30 ≤ c ∧ c ≤ 0x39)) : atoi s = 0 := by
  apply atoi_of_strtolValue_zero
  have hsub : ∀ c ∈ s.dropWhile isspace, ¬ (0x30 ≤ c ∧ c ≤ 0x39) :=
    fun c hc => h c ((List.dropWhile_sublist _).subset hc)
  have hz : ∀ t : List Nat, (∀ c ∈ t, ¬ (0x30 ≤ c ∧ c ≤ 0x39)) → atoiDigits t 0 = 0 := by
    intro t ht
    apply atoiDigits_no_digit
    cases t with
    | nil => simp
    | cons c rest => exact ht c (by simp)
  unfold strtolValue
  split
  · rename_i rest heq
    rw [heq] at hsub
    rw [hz rest (fun c hc => hsub c (by simp [hc]))]; rfl
  · rename_i rest heq
    rw [heq] at hsub
    exact hz rest (fun c hc => hsub c (by simp [hc]))
  · exact hz _ hsub

/-- The libc `atoi` on a string that starts with a byte that is no digit, sign or whitespace
is 0. -/
theorem atoi_not_number (s : List Nat)
    (h : ¬ (0x30 ≤ s.headD 0 ∧ s.headD 0 ≤ 0x39) ∧ s.headD 0 ≠ 0x2D ∧ s.headD 0 ≠ 0x2B ∧
      isspace (s.headD 0) = false) : atoi s = 0 := by
  apply atoi_of_strtolValue_zero
  obtain ⟨h1, h2, h3, h4⟩ := h
  cases s with
  | nil => rfl
  | cons c rest =>
    simp only [List.headD_cons] at h1 h2 h3 h4
    unfold strtolValue
    rw [List.dropWhile_cons, h4]
    simp only [Bool.false_eq_true, if_false]
    split
    · rename_i heq
      simp only [List.cons.injEq] at heq
      exact absurd heq.1 h2
    · rename_i heq
      simp only [List.cons.injEq] at heq
      exact absurd heq.1 h3
    · rw [atoiDigits, if_neg h1]

theorem takeWhile_not_comma (s : List Nat) (h : 0x2C ∉ s) :
    s.takeWhile (fun c => c != 0x2C) = s := by
  rw [List.takeWhile_eq_self_iff]
  intro x hx
  simp only [bne_iff_ne, ne_eq]
  intro hxe
  exact h (hxe ▸ hx)

/-! ## Offsets and totals in `int` arithmetic -/

/-- Claim C21 as stated fails on the code, which computes in `int`. The three well-formed
lines of `wideLines`, each with the columns 1 to 1000000000, load three records of input length
1000000000 each; their sum is 3000000000, and the total the loader holds is -1294967296. The
well-formed line of `farLines` has 4294967297 as from-column and as to-column; the loader
stores 1 for both, so the input position is 0 and not 4294967296. -/
theorem schema_offsets_counterexample :
    (∀ l ∈ wideLines, l.WellFormed) ∧
    (LoadMetadata (fun _ => zeroRecord) (wideLines.map SchemaLine.bytes)).Metadata.map
        (fun m => m.iInputFieldLength) = [1000000000, 1000000000, 1000000000] ∧
    (LoadMetadata (fun _ => zeroRecord) (wideLines.map SchemaLine.bytes)).iInputRecordLength
      = -1294967296 ∧
    (∀ l ∈ farLines, l.WellFormed) ∧
    (LoadMetadata (fun _ => zeroRecord) (farLines.map SchemaLine.bytes)).Metadata.map
        (fun m => (m.iFrom, m.iTo, m.iInputPosition)) = [(1, 1, 0)] ∧
    strtolValue (ascii "4294967297") = 4294967297 := by
  decide

/-- Claim C21, amended: for every schema file of `n` well-formed lines on which no `int`
computation of the loader leaves the range of `int` (for every record `iFrom - 1`,
`iTo - iFrom` and `iTo - iFrom + 1`, and every sum of the output lengths and of the input
lengths of the first `k` records), the loaded table has `n` records in file order; record `i`
has the name of line `i`, `iFrom` and `iTo` are what `atoi` returns for its fourth and fifth
column, which is the number written when the column is a string of decimal digits that write
a number up to 2147483647, `iInputPosition = iFrom - 1`, `iInputFieldLength = iTo - iFrom + 1`
and `iOutputPosition` is the sum of the output lengths of the records before it: 0 for the
first record, the output position plus the output length of the record before for every
other; the totals are the sums of the output lengths and of the input lengths. -/
theorem schema_offsets (fresh : Nat → METADATARECORD) (ls : List SchemaLine)
    (hwf : ∀ l ∈ ls, l.WellFormed)
    (hcol : ∀ md ∈ (LoadMetadata fresh (ls.map SchemaLine.bytes)).Metadata,
      InInt (md.iFrom - 1) ∧ InInt (md.iTo - md.iFrom) ∧ InInt (md.iTo - md.iFrom + 1))
    (hsum : ∀ k, k ≤ ls.length →
      InInt ((((LoadMetadata fresh (ls.map SchemaLine.bytes)).Metadata.take k).map
        (fun m => m.iOutputFieldLength)).sum) ∧
      InInt ((((LoadMetadata fresh (ls.map SchemaLine.bytes)).Metadata.take k).map
        (fun m => m.iInputFieldLength)).sum)) :
    ∃ cv, cv = LoadMetadata fresh (ls.map SchemaLine.bytes) ∧
      cv.Metadata.length = ls.length ∧
      (∀ (i : Nat) (l : SchemaLine) (md : METADATARECORD),
        ls[i]? = some l → cv.Metadata[i]? = some md →
        md.sFieldname = l.name ∧ md.iFrom = atoi l.colFrom ∧ md.iTo = atoi l.colTo ∧
        (∀ ds : List Nat, (∀ d ∈ ds, d ≤ 9) → decimalValue ds ≤ 2147483647 →
          (l.colFrom = digitBytes ds → md.iFrom = (decimalValue ds : Int)) ∧
          (l.colTo = digitBytes ds → md.iTo = (decimalValue ds : Int))) ∧
        md.iInputPosition = md.iFrom - 1 ∧ md.iInputFieldLength = md.iTo - md.iFrom + 1 ∧
        md.iOutputPosition
          = ((cv.Metadata.take i).map (fun m => m.iOutputFieldLength)).sum) ∧
      (∀ md, cv.Metadata[0]? = some md → md.iOutputPosition = 0) ∧
      (∀ (i : Nat) (p md : METADATARECORD), cv.Metadata[i]? = some p →
        cv.Metadata[i + 1]? = some md →
        md.iOutputPosition = p.iOutputPosition + p.iOutputFieldLength) ∧
      cv.iOutputRecordLength = (cv.Metadata.map (fun m => m.iOutputFieldLength)).sum ∧
      cv.iInputRecordLength = (cv.Metadata.map (fun m => m.iInputFieldLength)).sum := by
  obtain ⟨mds, hload, hd, hc⟩ := loadLines_wellFormed fresh ls 0 ⟨0, 0, []⟩ hwf
    ⟨by decide, by decide⟩ ⟨by decide, by decide⟩
  simp only [List.nil_append, zero_add, List.getLast?_nil] at hload hc
  rw [LoadMetadata, hload] at hcol hsum
  simp only at hcol hsum
  refine ⟨_, rfl, ?_⟩
  rw [LoadMetadata, hload]
  have hlen : mds.length = ls.length := forall₂_length_eq _ _ _ hd
  have hpos : ∀ (i : Nat) (md : METADATARECORD), mds[i]? = some md →
      md.iOutputPosition = ((mds.take i).map (fun m => m.iOutputFieldLength)).sum := by
    intro i md hmd
    have hi : i ≤ ls.length := by
      by_contra hcon
      rw [List.getElem?_eq_none (by omega)] at hmd
      exact absurd hmd (by simp)
    rw [outputChain_closed mds none hc i md hmd]
    simp only [nextOutputPosition, zero_add]
    exact wrap32_of_range _ (hsum i hi).1
  have hall := hsum ls.length (le_refl _)
  rw [← hlen, List.take_length] at hall
  refine ⟨hlen, ?_, ?_, ?_, wrap32_of_range _ hall.1, wrap32_of_range _ hall.2⟩
  · intro i l md hl hmd
    obtain ⟨d1, _, d3, d4, d5, d6⟩ := forall₂_getElem? _ _ _ hd i l md hl hmd
    obtain ⟨c1, c2, c3⟩ := hcol md (List.getElem?_mem hmd)
    refine ⟨d1, d3, d4, ?_, ?_, ?_, hpos i md hmd⟩
    · intro ds hds hb
      exact ⟨fun e => by rw [d3, e, atoi_digits ds hds hb],
        fun e => by rw [d4, e, atoi_digits ds hds hb]⟩
    · rw [d5, wrap32_of_range _ c1]
    · rw [d6, wrap32_of_range _ c2, wrap32_of_range _ c3]
  · intro md hmd
    rw [hpos 0 md hmd]
    simp
  · intro i p md hp hmd
    rw [hpos (i + 1) md hmd, hpos i p hp, sum_take_succ mds _ i p hp]

/-- Witness of C21 amended on the end-to-end schema: two records, totals 8 and 15, the second
record at input position 5 and output position 5. -/
theorem schema_offsets_witness :
    endToEndSchema.Metadata.length = 2 ∧
    endToEndSchema.iInputRecordLength
      = (endToEndSchema.Metadata.map (fun m => m.iInputFieldLength)).sum ∧
    endToEndSchema.iOutputRecordLength
      = (endToEndSchema.Metadata.map (fun m => m.iOutputFieldLength)).sum ∧
    endToEndSchema.iInputRecordLength = 8 ∧ endToEndSchema.iOutputRecordLength = 15 ∧
    (endToEndSchema.Metadata.map (fun m => (m.iInputPosition, m.iOutputPosition)))
      = [(0, 0), (5, 5)] := by
  obtain ⟨cv, hcv, h1, _, _, _, h5, h6⟩ :=
    schema_offsets (fun _ => zeroRecord) endToEndLines (by decide) (by decide) (by decide)
  have he : cv = endToEndSchema := by rw [hcv]; rfl
  rw [he] at h1 h5 h6
  exact ⟨h1, h6, h5, by decide, by decide, by decide⟩

/-! ## The size column -/

/-- Claim C22: when token number 2 of a schema line, a size `s` that fits `sSize[5]`, is
stored, a size without a comma gives its integer value as output length and precision 0; a
size `a,b`, `a` without a comma, gives the integer value of `a` as output length and the
integer value of `b` as precision, which is 0 when `b` holds no digit or starts with a byte
that is no digit, sign or whitespace. The integer value is that of `atoi`, which on such a
size is the number that `strtol` reads, cut neither to the range of `long` nor to that of
`int`; when the size is a string of decimal digits, or two of them around a comma, the values
are the numbers written.
The record that `LoadMetadata` appends for a well-formed line holds these two values. The
sizes `10,2` and `8` give (10, 2) and (8, 0). -/
theorem size_spec_parsing (cv : CONVERTER) (md : METADATARECORD) (s : List Nat)
    (hfit : s.length ≤ 4) :
    (0x2C ∉ s →
      (storeToken cv 2 s md).2.iOutputFieldLength = atoi s ∧ atoi s = strtolValue s ∧
      (storeToken cv 2 s md).2.iPrecision = 0) ∧
    (∀ a b : List Nat, s = a ++ 0x2C :: b → 0x2C ∉ a →
      (storeToken cv 2 s md).2.iOutputFieldLength = atoi a ∧ atoi a = strtolValue a ∧
      (storeToken cv 2 s md).2.iPrecision = atoi b ∧ atoi b = strtolValue b ∧
      ((∀ c ∈ b, ¬ (0x30 ≤ c ∧ c ≤ 0x39)) → (storeToken cv 2 s md).2.iPrecision = 0) ∧
      (¬ (0x30 ≤ b.headD 0 ∧ b.headD 0 ≤ 0x39) ∧ b.headD 0 ≠ 0x2D ∧ b.headD 0 ≠ 0x2B ∧
        isspace (b.headD 0) = false → (storeToken cv 2 s md).2.iPrecision = 0)) ∧
    (∀ ds : List Nat, (∀ d ∈ ds, d ≤ 9) → s = digitBytes ds →
      (storeToken cv 2 s md).2.iOutputFieldLength = (decimalValue ds : Int) ∧
      (storeToken cv 2 s md).2.iPrecision = 0) ∧
    (∀ da db : List Nat, (∀ d ∈ da, d ≤ 9) → (∀ d ∈ db, d ≤ 9) →
      s = digitBytes da ++ 0x2C :: digitBytes db →
      (storeToken cv 2 s md).2.iOutputFieldLength = (decimalValue da : Int) ∧
      (storeToken cv 2 s md).2.iPrecision = (decimalValue db : Int)) ∧
    (∀ (fresh : METADATARECORD) (l : SchemaLine), l.WellFormed → l.size = s →
      ∃ r, (loadLine cv fresh l.bytes).Metadata = cv.Metadata ++ [r] ∧
        r.iOutputFieldLength = (storeToken cv 2 s md).2.iOutputFieldLength ∧
        r.iPrecision = (storeToken cv 2 s md).2.iPrecision) ∧
    ((storeToken cv 2 (ascii "10,2") md).2.iOutputFieldLength = 10 ∧
      (storeToken cv 2 (ascii "10,2") md).2.iPrecision = 2 ∧
      (storeToken cv 2 (ascii "8") md).2.iOutputFieldLength = 8 ∧
      (storeToken cv 2 (ascii "8") md).2.iPrecision = 0) := by
  have hlen : (storeToken cv 2 s md).2.iOutputFieldLength
      = atoi (s.takeWhile (fun c => c != 0x2C)) := rfl
  have hprec : (storeToken cv 2 s md).2.iPrecision
      = if 0x2C ∈ s then atoi (s.drop ((s.takeWhile (fun c => c != 0x2C)).length + 1))
        else 0 := rfl
  have hnocomma : 0x2C ∉ s →
      (storeToken cv 2 s md).2.iOutputFieldLength = atoi s ∧
      (storeToken cv 2 s md).2.iPrecision = 0 := by
    intro h
    rw [hlen, hprec, takeWhile_not_comma s h, if_neg h]
    exact ⟨rfl, rfl⟩
  have hcomma : ∀ a b : List Nat, s = a ++ 0x2C :: b → 0x2C ∉ a →
      (storeToken cv 2 s md).2.iOutputFieldLength = atoi a ∧
      (storeToken cv 2 s md).2.iPrecision = atoi b := by
    intro a b hs ha
    have htw : s.takeWhile (fun c => c != 0x2C) = a := by
      rw [hs]
      exact takeWhile_append_stop _ a 0x2C b
        (fun x hx => by
          simp only [bne_iff_ne, ne_eq]
          intro hxe
          exact ha (hxe ▸ hx))
        (by simp)
    have hmem : 0x2C ∈ s := by rw [hs]; simp
    have hdrop : s.drop (a.length + 1) = b := by
      rw [hs]
      have : a ++ 0x2C :: b = (a ++ [0x2C]) ++ b := by simp
      rw [this]
      have hl : a.length + 1 = (a ++ [0x2C]).length := by simp
      rw [hl, List.drop_left]
    exact ⟨by rw [hlen, htw], by rw [hprec, if_pos hmem, htw, hdrop]⟩
  have hdig : ∀ ds : List Nat, (∀ d ∈ ds, d ≤ 9) → 0x2C ∉ digitBytes ds := by
    intro ds hds hmem
    obtain ⟨d, hd, he⟩ := List.mem_map.1 hmem
    have := hds d hd
    omega
  refine ⟨fun h => ⟨(hnocomma h).1, atoi_eq_strtolValue s (by omega), (hnocomma h).2⟩,
    ?_, ?_, ?_, ?_, ?_⟩
  · intro a b hs ha
    obtain ⟨h1, hp⟩ := hcomma a b hs ha
    have hab : a.length ≤ 9 ∧ b.length ≤ 9 := by
      have : s.length = a.length + (b.length + 1) := by rw [hs]; simp
      omega
    refine ⟨h1, atoi_eq_strtolValue a hab.1, hp, atoi_eq_strtolValue b hab.2, ?_, ?_⟩
    · intro hb
      rw [hp, atoi_no_digit b hb]
    · intro hb
      rw [hp, atoi_not_number b hb]
  · intro ds hds hs
    have hl : ds.length ≤ 9 := by
      have : s.length = ds.length := by rw [hs]; simp [digitBytes]
      omega
    obtain ⟨h1, h2⟩ := hnocomma (by rw [hs]; exact hdig ds hds)
    refine ⟨?_, h2⟩
    rw [h1, hs, atoi_digits ds hds (decimalValue_le_int ds hds hl)]
  · intro da db hda hdb hs
    have hl : da.length ≤ 9 ∧ db.length ≤ 9 := by
      have : s.length = da.length + (db.length + 1) := by rw [hs]; simp [digitBytes]
      omega
    obtain ⟨h1, h2⟩ := hcomma (digitBytes da) (digitBytes db) hs (hdig da hda)
    rw [h1, h2, atoi_digits da hda (decimalValue_le_int da hda hl.1),
      atoi_digits db hdb (decimalValue_le_int db hdb hl.2)]
    exact ⟨rfl, rfl⟩
  · intro fresh l hwf hsz
    obtain ⟨r, hl, -, -, -, -, -, -, -, d8, d9⟩ := loadLine_wellFormed cv fresh l hwf
    refine ⟨r, by rw [hl], ?_, ?_⟩
    · rw [d8, hsz]; rfl
    · rw [d9, hsz]; rfl
  · exact ⟨rfl, rfl, rfl, rfl⟩

/-- Witness of C22 on the size `12,x`: output length 12, and the precision part `x` gives
precision 0. -/
theorem size_spec_parsing_witness :
    (storeToken ⟨0, 0, []⟩ 2 (ascii "12,x") zeroRecord).2.iOutputFieldLength
      = atoi (ascii "12") ∧
    (storeToken ⟨0, 0, []⟩ 2 (ascii "12,x") zeroRecord).2.iPrecision = 0 ∧
    atoi (ascii "12") = 12 :=
  ⟨((size_spec_parsing ⟨0, 0, []⟩ zeroRecord (ascii "12,x") (by decide)).2.1 (ascii "12")
      (ascii "x") (by decide) (by decide)).1,
    ((size_spec_parsing ⟨0, 0, []⟩ zeroRecord (ascii "12,x") (by decide)).2.1 (ascii "12")
      (ascii "x") (by decide) (by decide)).2.2.2.2.1 (by decide),
    by decide⟩

/-! ## Ranges that tile the record -/

theorem tiles_slicesFrom : ∀ (mds : List METADATARECORD) (start : Int), 1 ≤ start →
    (∀ md ∈ mds, md.iInputPosition = md.iFrom - 1 ∧
      md.iInputFieldLength = md.iTo - md.iFrom + 1) →
    Tiles start mds → SlicesFrom (start - 1).toNat mds := by
  intro mds
  induction mds with
  | nil => intro start _ _ _; trivial
  | cons md rest ih =>
    intro start hs hrel ht
    obtain ⟨h1, h2, h3⟩ := ht
    obtain ⟨r1, r2⟩ := hrel md (by simp)
    have hpos : md.pos = (start - 1).toNat := by
      unfold METADATARECORD.pos; rw [r1, h1]
    have hlen : md.len = (md.iTo - md.iFrom + 1).toNat := by
      unfold METADATARECORD.len; rw [r2]
    refine ⟨hpos, by rw [hlen]; omega, ?_⟩
    have := ih (md.iTo + 1) (by omega) (fun x hx => hrel x (by simp [hx])) h3
    have e : (md.iTo + 1 - 1).toNat = (start - 1).toNat + md.len := by
      rw [hlen]; omega
    rw [e] at this
    exact this

theorem tiles_int : ∀ (mds : List METADATARECORD) (start : Int),
    (∀ md ∈ mds, md.iInputPosition = md.iFrom - 1 ∧
      md.iInputFieldLength = md.iTo - md.iFrom + 1) →
    Tiles start mds → ∀ (i : Nat) (md : METADATARECORD), mds[i]? = some md →
    md.iInputPosition
      = start - 1 + ((mds.take i).map (fun m => m.iInputFieldLength)).sum ∧
    start - 1 ≤ md.iInputPosition ∧ 1 ≤ md.iInputFieldLength ∧
    md.iInputPosition + md.iInputFieldLength
      ≤ start - 1 + (mds.map (fun m => m.iInputFieldLength)).sum := by
  intro mds
  induction mds with
  | nil => intro start _ _ i md h; simp at h
  | cons m rest ih =>
    intro start hrel ht i md h
    obtain ⟨h1, h2, h3⟩ := ht
    obtain ⟨r1, r2⟩ := hrel m (by simp)
    have hnn : ∀ (l : List METADATARECORD) (s : Int),
        (∀ x ∈ l, x.iInputPosition = x.iFrom - 1 ∧ x.iInputFieldLength = x.iTo - x.iFrom + 1) →
        Tiles s l → 0 ≤ (l.map (fun m => m.iInputFieldLength)).sum := by
      intro l
      induction l with
      | nil => intro s _ _; simp
      | cons x xs ihx =>
        intro s hx ht
        have := ihx (x.iTo + 1) (fun y hy => hx y (by simp [hy])) ht.2.2
        have := (hx x (by simp)).2
        have := ht.2.1
        simp only [List.map_cons, List.sum_cons]
        omega
    have hrest := hnn rest (m.iTo + 1) (fun x hx => hrel x (by simp [hx])) h3
    cases i with
    | zero =>
      simp only [List.getElem?_cons_zero, Option.some.injEq] at h
      subst h
      simp only [List.take_zero, List.map_nil, List.sum_nil, add_zero, List.map_cons,
        List.sum_cons]
      omega
    | succ i =>
      simp only [List.getElem?_cons_succ] at h
      obtain ⟨a, a2, b, c⟩ := ih (m.iTo + 1) (fun x hx => hrel x (by simp [hx])) h3 i md h
      simp only [List.take_succ_cons, List.map_cons, List.sum_cons]
      omega

theorem slicesFrom_bounds : ∀ (mds : List METADATARECORD) (s : Nat), SlicesFrom s mds →
    ∀ md ∈ mds, s ≤ md.pos ∧ md.pos + md.len ≤ s + totalLen mds := by
  intro mds
  induction mds with
  | nil => intro s _ md h; simp at h
  | cons m rest ih =>
    intro s hs md hmd
    obtain ⟨h1, h2, h3⟩ := hs
    simp only [totalLen, List.map_cons, List.sum_cons]
    rcases List.mem_cons.1 hmd with rfl | hmem
    · omega
    · have := ih (s + m.len) h3 md hmem
      simp only [totalLen] at this
      omega

theorem slicesFrom_disjoint : ∀ (mds : List METADATARECORD) (s : Nat), SlicesFrom s mds →
    RangesDisjoint mds := by
  intro mds
  induction mds with
  | nil => intro s _; exact List.Pairwise.nil
  | cons m rest ih =>
    intro s hs
    obtain ⟨h1, h2, h3⟩ := hs
    refine List.Pairwise.cons ?_ (ih _ h3)
    intro x hx
    have := (slicesFrom_bounds rest (s + m.len) h3 x hx).1
    left; omega

/-- The slices of records that follow one another from byte `s` on are, one after the other,
the `totalLen` bytes of the buffer from byte `s` on. -/
theorem slicesFrom_partition (r : List Nat) : ∀ (mds : List METADATARECORD) (s : Nat),
    SlicesFrom s mds →
    (mds.map (fun md => (r.drop md.pos).take md.len)).flatten
      = (r.drop s).take (totalLen mds) := by
  intro mds
  induction mds with
  | nil => intro s _; simp [totalLen]
  | cons m rest ih =>
    intro s hs
    obtain ⟨h1, h2, h3⟩ := hs
    simp only [List.map_cons, List.flatten_cons, totalLen, List.sum_cons]
    have := ih (s + m.len) h3
    simp only [totalLen] at this
    rw [this, h1, List.take_add, List.drop_drop]

theorem forall₂_mem_right {α β : Type} (R : α → β → Prop) (l1 : List α) (l2 : List β)
    (h : List.Forall₂ R l1 l2) : ∀ b ∈ l2, ∃ a ∈ l1, R a b := by
  induction h with
  | nil => intro b hb; simp at hb
  | cons hab _ ih =>
    intro b hb
    rcases List.mem_cons.1 hb with rfl | hmem
    · exact ⟨_, by simp, hab⟩
    · obtain ⟨a, ha, hr⟩ := ih b hmem
      exact ⟨a, by simp [ha], hr⟩

theorem toNat_sum_len : ∀ (mds : List METADATARECORD),
    (∀ md ∈ mds, 0 ≤ md.iInputFieldLength) →
    Int.toNat ((mds.map (fun m : METADATARECORD => m.iInputFieldLength)).sum) = totalLen mds ∧
    0 ≤ (mds.map (fun m : METADATARECORD => m.iInputFieldLength)).sum := by
  intro mds
  induction mds with
  | nil => intro _; simp [totalLen]
  | cons m rest ih =>
    intro h
    obtain ⟨h1, h2⟩ := ih (fun x hx => h x (by simp [hx]))
    have h0 := h m (by simp)
    simp only [totalLen, List.map_cons, List.sum_cons, METADATARECORD.len] at h1 ⊢
    omega

/-- On records whose ranges tile the columns from a column `start` of 1 or more, with
to-values in the range of `int`, the position and the length that the loader computes in `int`
are `iFrom - 1` and `iTo - iFrom + 1`: nothing wraps. -/
theorem tiles_exact : ∀ (mds : List METADATARECORD) (start : Int), 1 ≤ start →
    (∀ md ∈ mds, InInt md.iTo ∧ md.iInputPosition = wrap32 (md.iFrom - 1) ∧
      md.iInputFieldLength = wrap32 (wrap32 (md.iTo - md.iFrom) + 1)) →
    Tiles start mds →
    ∀ md ∈ mds, md.iInputPosition = md.iFrom - 1 ∧
      md.iInputFieldLength = md.iTo - md.iFrom + 1 := by
  intro mds
  induction mds with
  | nil => intro start _ _ _ md h; simp at h
  | cons m rest ih =>
    intro start hs hw ht md hmd
    obtain ⟨h1, h2, h3⟩ := ht
    rcases List.mem_cons.1 hmd with rfl | hmem
    · obtain ⟨⟨_, w1⟩, w2, w3⟩ := hw md (by simp)
      rw [w2, w3]
      constructor
      · exact wrap32_of_range _ ⟨by omega, by omega⟩
      · rw [wrap32_of_range (md.iTo - md.iFrom) ⟨by omega, by omega⟩]
        exact wrap32_of_range _ ⟨by omega, by omega⟩
    · exact ih (m.iTo + 1) (by omega) (fun x hx => hw x (by simp [hx])) h3 md hmem

/-- The input lengths of records whose ranges tile the columns from `start` on, with
to-values in the range of `int`, add up to at most what is left of that range. -/
theorem tiles_sum_le : ∀ (mds : List METADATARECORD) (start : Int), start ≤ 2147483648 →
    (∀ md ∈ mds, md.iInputPosition = md.iFrom - 1 ∧
      md.iInputFieldLength = md.iTo - md.iFrom + 1) →
    (∀ md ∈ mds, md.iTo ≤ 2147483647) →
    Tiles start mds → (mds.map (fun m => m.iInputFieldLength)).sum ≤ 2147483648 - start := by
  intro mds
  induction mds with
  | nil => intro start hs _ _ _; simp; omega
  | cons m rest ih =>
    intro start hs hrel hto ht
    obtain ⟨h1, h2, h3⟩ := ht
    have hm := hto m (by simp)
    have := ih (m.iTo + 1) (by omega) (fun x hx => hrel x (by simp [hx]))
      (fun x hx => hto x (by simp [hx])) h3
    have r2 := (hrel m (by simp)).2
    simp only [List.map_cons, List.sum_cons]
    omega

/-- Claim C25: for every schema loaded from well-formed lines whose ranges tile the record
(the first starts at column 1, each next one right after the one before, none is empty), every
field has as input position the sum of the input lengths of the fields before it, which is not
negative, and ends inside the record length; the field ranges do not overlap, and on every
read buffer of the record length each slice that the pipeline takes lies inside the buffer and
the slices, one after the other, are the buffer. -/
theorem input_slices_tile (fresh : Nat → METADATARECORD) (ls : List SchemaLine)
    (hwf : ∀ l ∈ ls, l.WellFormed)
    (htile : Tiles 1 (LoadMetadata fresh (ls.map SchemaLine.bytes)).Metadata) :
    ∃ cv, cv = LoadMetadata fresh (ls.map SchemaLine.bytes) ∧
      (∀ (i : Nat) (md : METADATARECORD), cv.Metadata[i]? = some md →
        md.iInputPosition
          = ((cv.Metadata.take i).map (fun m => m.iInputFieldLength)).sum ∧
        0 ≤ md.iInputPosition ∧
        md.iInputPosition + md.iInputFieldLength ≤ cv.iInputRecordLength) ∧
      RangesDisjoint cv.Metadata ∧
      (∀ r : List Nat, r.length = cv.iInputRecordLength.toNat →
        (∀ md ∈ cv.Metadata, md.pos + md.len ≤ r.length ∧
          fieldBytes r md.pos md.len = (r.drop md.pos).take md.len) ∧
        (cv.Metadata.map (fun md => fieldBytes r md.pos md.len)).flatten = r) := by
  obtain ⟨mds, hload, hd, -⟩ := loadLines_wellFormed fresh ls 0 ⟨0, 0, []⟩ hwf
    ⟨by decide, by decide⟩ ⟨by decide, by decide⟩
  simp only [List.nil_append, zero_add] at hload
  rw [LoadMetadata, hload] at htile
  simp only at htile
  have hwrap : ∀ md ∈ mds, InInt md.iTo ∧ md.iInputPosition = wrap32 (md.iFrom - 1) ∧
      md.iInputFieldLength = wrap32 (wrap32 (md.iTo - md.iFrom) + 1) := by
    intro md hmd
    obtain ⟨l, _, hdesc⟩ := forall₂_mem_right _ _ _ hd md hmd
    exact ⟨by rw [hdesc.2.2.2.1]; exact atoi_range _, hdesc.2.2.2.2.1, hdesc.2.2.2.2.2⟩
  have hrel := tiles_exact mds 1 (le_refl _) hwrap htile
  have hint := tiles_int mds 1 hrel htile
  have hslices := tiles_slicesFrom mds 1 (le_refl _) hrel htile
  have hs0 : ((1 : Int) - 1).toNat = 0 := rfl
  rw [hs0] at hslices
  have hnn : ∀ md ∈ mds, 0 ≤ md.iInputFieldLength := by
    intro md hmd
    obtain ⟨i, hi⟩ := List.getElem?_of_mem hmd
    have := (hint i md hi).2.2.1
    omega
  obtain ⟨htot, hsum0⟩ := toNat_sum_len mds hnn
  have hsumle := tiles_sum_le mds 1 (by decide) hrel (fun md hmd => (hwrap md hmd).1.2) htile
  have hexact : wrap32 ((mds.map (fun m => m.iInputFieldLength)).sum)
      = (mds.map (fun m => m.iInputFieldLength)).sum :=
    wrap32_of_range _ ⟨by omega, by omega⟩
  rw [hexact] at hload
  refine ⟨_, rfl, ?_⟩
  rw [LoadMetadata, hload]
  refine ⟨?_, slicesFrom_disjoint mds 0 hslices, ?_⟩
  · intro i md hmd
    obtain ⟨a, b, c, d⟩ := hint i md hmd
    refine ⟨by rw [a]; simp, by omega, by simpa using d⟩
  · intro r hr
    have hlen : r.length = totalLen mds := by rw [hr]; exact htot
    have hb := slicesFrom_bounds mds 0 hslices
    have hin : ∀ md ∈ mds, md.pos + md.len ≤ r.length := by
      intro md hmd
      have := (hb md hmd).2
      omega
    have hfb : ∀ md ∈ mds, fieldBytes r md.pos md.len = (r.drop md.pos).take md.len := by
      intro md hmd
      unfold fieldBytes
      exact readBytes_eq_take _ _ (by rw [List.length_drop]; have := hin md hmd; omega)
    refine ⟨fun md hmd => ⟨hin md hmd, hfb md hmd⟩, ?_⟩
    have hmap : mds.map (fun md => fieldBytes r md.pos md.len)
        = mds.map (fun md => (r.drop md.pos).take md.len) :=
      List.map_congr_left hfb
    show (mds.map (fun md => fieldBytes r md.pos md.len)).flatten = r
    rw [hmap, slicesFrom_partition r mds 0 hslices, List.drop_zero, ← hlen, List.take_length]

/-- Witness of C25 on the end-to-end schema: its two ranges, columns 1-5 and 6-8, tile the
record of 8 bytes, and the two slices of a record are the record. -/
theorem input_slices_tile_witness :
    RangesDisjoint endToEndSchema.Metadata ∧
    (endToEndSchema.Metadata.map
        (fun md => fieldBytes [1, 2, 3, 4, 5, 6, 7, 8] md.pos md.len)).flatten
      = [1, 2, 3, 4, 5, 6, 7, 8] := by
  obtain ⟨cv, hcv, _, h2, h3⟩ :=
    input_slices_tile (fun _ => zeroRecord) endToEndLines (by decide) (by decide)
  have he : cv = endToEndSchema := by rw [hcv]; rfl
  rw [he] at h2 h3
  exact ⟨h2, (h3 [1, 2, 3, 4, 5, 6, 7, 8] (by decide)).2⟩

/-! ## The catalog -/

theorem ingestionRows_getElem? (sDatabase sTable : List Nat) :
    ∀ (mds : List METADATARECORD) (i0 : Nat) (im : INGESTIONMETADATA) (k : Nat)
      (md : METADATARECORD), mds[k]? = some md →
    ∃ prev, (ingestionRows sDatabase sTable mds i0 im)[k]?
      = some (ingestionRow sDatabase sTable (i0 + k) md prev) := by
  intro mds
  induction mds with
  | nil => intro i0 im k md h; simp at h
  | cons m rest ih =>
    intro i0 im k md h
    cases k with
    | zero =>
      simp only [List.getElem?_cons_zero, Option.some.injEq] at h
      subst h
      exact ⟨im, by simp [ingestionRows]⟩
    | succ k =>
      simp only [List.getElem?_cons_succ] at h
      obtain ⟨prev, hp⟩ := ih (i0 + 1) (ingestionRow sDatabase sTable i0 m im) k md h
      refine ⟨prev, ?_⟩
      simp only [ingestionRows, List.getElem?_cons_succ]
      rw [hp]
      have : i0 + 1 + k = i0 + (k + 1) := by omega
      rw [this]

theorem length_ingestionRows (sDatabase sTable : List Nat) :
    ∀ (mds : List METADATARECORD) (i0 : Nat) (im : INGESTIONMETADATA),
    (ingestionRows sDatabase sTable mds i0 im).length = mds.length := by
  intro mds
  induction mds with
  | nil => intro i0 im; rfl
  | cons m rest ih => intro i0 im; simp [ingestionRows, ih]

theorem ingestionRow_type (sDatabase sTable : List Nat) (i : Nat) (md : METADATARECORD)
    (im : INGESTIONMETADATA) (h : md.cDatatype ∈ [0x41, 0x54, 0x4C, 0x50, 0x53]) :
    (ingestionRow sDatabase sTable i md im).sDatatype = catalogType md := by
  simp only [List.mem_cons, List.mem_singleton, List.not_mem_nil, or_false] at h
  unfold ingestionRow catalogType
  have e1 : ascii "CHAR" = [0x43, 0x48, 0x41, 0x52] := by decide
  have e2 : ascii "DATE" = [0x44, 0x41, 0x54, 0x45] := by decide
  have e3 : ascii "INTEGER" = [0x49, 0x4E, 0x54, 0x45, 0x47, 0x45, 0x52] := by decide
  have e4 : ascii "BIGINT" = [0x42, 0x49, 0x47, 0x49, 0x4E, 0x54] := by decide
  have e5 : ascii "DECIMAL" = [0x44, 0x45, 0x43, 0x49, 0x4D, 0x41, 0x4C] := by decide
  rw [e1, e2, e3, e4, e5]
  rcases h with h | h | h | h | h <;> simp only [h] <;> norm_num <;> split_ifs <;> rfl

/-- Claim C23 as stated fails: the two schemas hold the same second record, of type code `X`,
but its row has the type CHAR after a Text field and DATE after a Date field: the type of the
row is the one left by the row before it. -/
theorem catalog_type_counterexample :
    textThenUnmanaged.Metadata[1]? = dateThenUnmanaged.Metadata[1]? ∧
    ((CreateIngestionMetadataFile (ascii "as400") (ascii "fivb") zeroIngestion
        textThenUnmanaged).map (fun row => row.sDatatype)) = [ascii "CHAR", ascii "CHAR"] ∧
    ((CreateIngestionMetadataFile (ascii "as400") (ascii "fivb") zeroIngestion
        dateThenUnmanaged).map (fun row => row.sDatatype)) = [ascii "DATE", ascii "DATE"] := by
  decide

/-- Claim C23, amended: the catalog has one row per field, and for every field whose type
code is one of `A`, `T`, `L`, `P`, `S` the type of its row is CHAR for `A` and `T`, DATE for
`L`, and for `P` and `S` INTEGER with precision 0 and a width below 10, BIGINT with
precision 0 and a width of 10 or more, DECIMAL with a precision above 0; the type of such a
row is a function of the field's own record, whatever the other fields, the names and the
content of `im` before the loop are. -/
theorem catalog_type (sDatabase sTable : List Nat) (im : INGESTIONMETADATA) (cv : CONVERTER)
    (i : Nat) (md : METADATARECORD) (hi : cv.Metadata[i]? = some md)
    (ht : md.cDatatype ∈ [0x41, 0x54, 0x4C, 0x50, 0x53]) :
    (CreateIngestionMetadataFile sDatabase sTable im cv).length = cv.Metadata.length ∧
    ∃ row, (CreateIngestionMetadataFile sDatabase sTable im cv)[i]? = some row ∧
      row.sFieldname = md.sFieldname ∧ row.iFieldposition = (i : Int) + 1 ∧
      row.iLength = md.iOutputFieldLength ∧ row.iPrecision = md.iPrecision ∧
      row.sDatatype = catalogType md ∧
      (md.cDatatype = 0x41 ∨ md.cDatatype = 0x54 → row.sDatatype = ascii "CHAR") ∧
      (md.cDatatype = 0x4C → row.sDatatype = ascii "DATE") ∧
      (md.cDatatype = 0x50 ∨ md.cDatatype = 0x53 →
        (md.iPrecision = 0 → md.iOutputFieldLength < 10 → row.sDatatype = ascii "INTEGER") ∧
        (md.iPrecision = 0 → 10 ≤ md.iOutputFieldLength → row.sDatatype = ascii "BIGINT") ∧
        (0 < md.iPrecision → row.sDatatype = ascii "DECIMAL")) := by
  refine ⟨length_ingestionRows _ _ _ _ _, ?_⟩
  obtain ⟨prev, hrow⟩ := ingestionRows_getElem? sDatabase sTable cv.Metadata 0 im i md hi
  rw [Nat.zero_add] at hrow
  have htype := ingestionRow_type sDatabase sTable i md prev ht
  refine ⟨_, hrow, ?_, ?_, ?_, ?_, htype, ?_, ?_, ?_⟩
  · unfold ingestionRow; simp only; split_ifs <;> rfl
  · unfold ingestionRow; simp only; split_ifs <;> rfl
  · rfl
  · rfl
  · intro h
    rw [htype, catalogType, if_pos h]
  · intro h
    have h1 : ¬ (md.cDatatype = 0x41 ∨ md.cDatatype = 0x54) := by rw [h]; decide
    rw [htype, catalogType, if_neg h1, if_pos h]
  · intro h
    have h1 : ¬ (md.cDatatype = 0x41 ∨ md.cDatatype = 0x54) := by
      rcases h with h | h <;> rw [h] <;> decide
    have h2 : md.cDatatype ≠ 0x4C := by
      rcases h with h | h <;> rw [h] <;> decide
    rw [htype, catalogType, if_neg h1, if_neg h2]
    refine ⟨fun hp hw => by rw [if_pos hp, if_pos hw],
      fun hp hw => by rw [if_pos hp, if_neg (by omega)],
      fun hp => by rw [if_neg (by omega)]⟩

/-- Witness of C23 amended: the second field of the end-to-end schema, Packed of width 10 and
precision 2, has a row of type DECIMAL; a Packed field of precision 0 has INTEGER at width 8
and BIGINT at width 12. -/
theorem catalog_type_witness :
    (∃ row, (CreateIngestionMetadataFile (ascii "as400") (ascii "fivb") zeroIngestion
        endToEndSchema)[1]? = some row ∧ row.sDatatype = ascii "DECIMAL") ∧
    catalogType { zeroRecord with cDatatype := 0x50, iOutputFieldLength := 8 }
      = ascii "INTEGER" ∧
    catalogType { zeroRecord with cDatatype := 0x50, iOutputFieldLength := 12 }
      = ascii "BIGINT" ∧
    catalogType { zeroRecord with cDatatype := 0x50, iOutputFieldLength := 12, iPrecision := 2 }
      = ascii "DECIMAL" := by
  obtain ⟨_, row, hrow, _, _, _, _, _, _, _, h⟩ :=
    catalog_type (ascii "as400") (ascii "fivb") zeroIngestion endToEndSchema 1
      (endToEndSchema.Metadata.getD 1 zeroRecord) (by decide) (by decide)
  exact ⟨⟨row, hrow, (h (by decide)).2.2 (by decide)⟩, by decide, by decide, by decide⟩

/-! ## The write buffer -/

theorem length_trim_le (str : List Nat) : (trim str).length ≤ str.length := by
  have := trimCopy_length str
    (trimEnd str (trimBegin str ((str.length : Int) - 1) str.length 0) str.length
      ((str.length : Int) - 1))
    str.length (trimBegin str ((str.length : Int) - 1) str.length 0) []
  simpa [trim] using this

theorem length_ConvertDateToEuro (ind : Indeterminate) (parm field : List Nat)
    (h : ConvertDateToEuro ind parm = .ok field) : field.length = parm.length := by
  unfold ConvertDateToEuro at h
  simp only at h
  split at h
  · cases h
    exact readBytes_length _ _
  · cases h

theorem length_fieldBytes (r : List Nat) (pos len : Nat) : (fieldBytes r pos len).length = len :=
  readBytes_length _ _

/-- A decoded field is never longer than its bound. -/
theorem decodeField_length (env : Env) (rec i : Nat) (md : METADATARECORD)
    (r r' tb : List Nat) (h : decodeField env rec i md r = .ok (r', tb)) :
    tb.length ≤ fieldBound md ∧ md.cDatatype ∈ [0x41, 0x54, 0x4C, 0x50, 0x53] := by
  unfold fieldBound
  rw [decodeField] at h
  have hfmt : ∀ v, (formatField env md v).length ≤ md.iOutputFieldLength.toNat := by
    intro v
    have := length_trim_le
      (readBytes (env.sprintf md.iOutputFieldLength md.iPrecision v)
        md.iOutputFieldLength.toNat)
    rw [readBytes_length] at this
    exact this
  have htxt : (trim (fieldBytes (convertAt r md.pos md.len) md.pos md.len)).length ≤ md.len := by
    have := length_trim_le (fieldBytes (convertAt r md.pos md.len) md.pos md.len)
    rw [length_fieldBytes] at this
    exact this
  split_ifs at h with h1 h2 h3 h4
  · have hn : ¬ (md.cDatatype = 0x50 ∨ md.cDatatype = 0x53) := by rw [h1]; decide
    rw [if_neg hn]
    dsimp only at h
    cases hc : ConvertDateToEuro (env.ind rec i)
        (trim (fieldBytes (convertAt r md.pos md.len) md.pos md.len)) with
    | error e => rw [hc] at h; simp at h
    | ok f =>
      rw [hc] at h
      simp only [Except.ok.injEq, Prod.mk.injEq] at h
      rw [← h.2, length_ConvertDateToEuro _ _ _ hc]
      exact ⟨htxt, by rw [h1]; decide⟩
  · have hn : ¬ (md.cDatatype = 0x50 ∨ md.cDatatype = 0x53) := by
      rcases h2 with h2 | h2 <;> rw [h2] <;> decide
    rw [if_neg hn]
    simp only [Except.ok.injEq, Prod.mk.injEq] at h
    rw [← h.2]
    exact ⟨htxt, by rcases h2 with h2 | h2 <;> rw [h2] <;> decide⟩
  · rw [if_pos (Or.inr h3)]
    dsimp only at h
    cases hu : unzone (fieldBytes r md.pos md.len) with
    | error e => rw [hu] at h; simp at h
    | ok v =>
      rw [hu] at h
      simp only [Except.ok.injEq, Prod.mk.injEq] at h
      rw [← h.2]; exact ⟨hfmt v, by rw [h3]; decide⟩
  · rw [if_pos (Or.inl h4)]
    dsimp only at h
    cases hu : unpack (fieldBytes r md.pos md.len) with
    | error e => rw [hu] at h; simp at h
    | ok v =>
      rw [hu] at h
      simp only [Except.ok.injEq, Prod.mk.injEq] at h
      rw [← h.2]; exact ⟨hfmt v, by rw [h4]; decide⟩

theorem fieldValues_forall₂ (env : Env) (rec : Nat) :
    ∀ (mds : List METADATARECORD) (i : Nat) (r : List Nat) (tbs : List (List Nat)),
      fieldValues env rec mds i r = .ok tbs →
      List.Forall₂ (fun md tb => List.length tb ≤ fieldBound md ∧
        md.cDatatype ∈ [0x41, 0x54, 0x4C, 0x50, 0x53]) mds tbs := by
  intro mds
  induction mds with
  | nil =>
    intro i r tbs h
    simp [fieldValues] at h
    subst h
    exact List.Forall₂.nil
  | cons md rest ih =>
    intro i r tbs h
    rw [fieldValues] at h
    cases hd : decodeField env rec i md r with
    | error e => rw [hd] at h; simp at h
    | ok p =>
      obtain ⟨r', tb⟩ := p
      rw [hd] at h
      simp only at h
      cases hv : fieldValues env rec rest (i + 1) r' with
      | error e => rw [hv] at h; simp at h
      | ok tbs' =>
        rw [hv] at h
        simp only [Except.ok.injEq] at h
        subst h
        exact List.Forall₂.cons (decodeField_length env rec i md r r' tb hd)
          (ih (i + 1) r' tbs' hv)

theorem length_joinFields : ∀ tbs : List (List Nat), tbs ≠ [] →
    (joinFields tbs).length = (tbs.map List.length).sum + (tbs.length - 1) := by
  intro tbs
  induction tbs with
  | nil => intro h; exact absurd rfl h
  | cons tb rest ih =>
    intro _
    cases rest with
    | nil => simp [joinFields]
    | cons g rest2 =>
      have := ih (by simp)
      have hj : joinFields (tb :: g :: rest2) = tb ++ [0x7C] ++ joinFields (g :: rest2) := rfl
      rw [hj]
      simp only [List.length_append, List.length_singleton, List.map_cons, List.sum_cons,
        List.length_cons, List.length_nil] at this ⊢
      omega

/-- The decoded fields of a schema whose Text and Date fields are no longer on input than on
output take together no more bytes than the sum of the output lengths. -/
theorem sum_length_le : ∀ (mds : List METADATARECORD) (tbs : List (List Nat)),
    List.Forall₂ (fun md tb => List.length tb ≤ fieldBound md ∧
      md.cDatatype ∈ [0x41, 0x54, 0x4C, 0x50, 0x53]) mds tbs →
    (∀ md ∈ mds, 1 ≤ md.iOutputFieldLength) →
    (∀ md ∈ mds, md.cDatatype ∈ [0x41, 0x54, 0x4C] →
      md.iInputFieldLength ≤ md.iOutputFieldLength) →
    (((tbs.map List.length).sum : Nat) : Int)
      ≤ (mds.map (fun m => m.iOutputFieldLength)).sum := by
  intro mds tbs h
  induction h with
  | nil => intro _ _; simp
  | @cons md tb mds tbs hb _ ih =>
    intro hout htext
    have := ih (fun x hx => hout x (by simp [hx])) (fun x hx => htext x (by simp [hx]))
    have h1 := hout md (by simp)
    obtain ⟨hb, hty⟩ := hb
    simp only [List.mem_cons, List.mem_singleton, List.not_mem_nil, or_false] at hty
    have hfb : ((fieldBound md : Nat) : Int) ≤ md.iOutputFieldLength := by
      unfold fieldBound
      split_ifs with hnum
      · omega
      · have ht := htext md (by simp) (by
          simp only [List.mem_cons, List.mem_singleton, List.not_mem_nil, or_false]
          tauto)
        unfold METADATARECORD.len
        omega
    simp only [List.map_cons, List.sum_cons, Nat.cast_add]
    omega

/-- Claim C24: for a schema of at least one field whose output record length is the sum of
the output lengths, whose output lengths are at least 1 and whose Text and Date fields are no
longer on input than on output, and for a record that decodes without fault, each decoded
Packed or Zoned field is at most its output length, each decoded Text or Date field at most
its input length, and the bytes written for the record, the decoded fields, `n - 1`
delimiters and the line feed, are no more than `iOutputRecordLength + iNumberOfAttributes`,
the size of the write buffer. -/
theorem written_line_fits (env : Env) (rec : Nat) (cv : CONVERTER) (pReadBuffer line : List Nat)
    (hn : cv.Metadata ≠ [])
    (htot : cv.iOutputRecordLength = (cv.Metadata.map (fun m => m.iOutputFieldLength)).sum)
    (hout : ∀ md ∈ cv.Metadata, 1 ≤ md.iOutputFieldLength)
    (htext : ∀ md ∈ cv.Metadata, md.cDatatype ∈ [0x41, 0x54, 0x4C] →
      md.iInputFieldLength ≤ md.iOutputFieldLength)
    (h : decodeRecord env rec cv pReadBuffer = .ok line) :
    ∃ tbs : List (List Nat),
      fieldValues env rec cv.Metadata 0 pReadBuffer = .ok tbs ∧
      List.Forall₂ (fun md tb =>
        (md.cDatatype = 0x50 ∨ md.cDatatype = 0x53 →
          List.length tb ≤ md.iOutputFieldLength.toNat) ∧
        (md.cDatatype ∈ [0x41, 0x54, 0x4C] → List.length tb ≤ md.len)) cv.Metadata tbs ∧
      line.length = (tbs.map List.length).sum + (cv.Metadata.length - 1) + 1 ∧
      (line.length : Int) ≤ cv.iOutputRecordLength + cv.iNumberOfAttributes := by
  rw [decodeRecord_eq env rec cv pReadBuffer hn] at h
  cases hv : fieldValues env rec cv.Metadata 0 pReadBuffer with
  | error e => rw [hv] at h; simp [Except.map] at h
  | ok tbs =>
    rw [hv] at h
    simp only [Except.map, Except.ok.injEq] at h
    have hlen := fieldValues_length env rec _ _ _ _ hv
    have hf := fieldValues_forall₂ env rec _ _ _ _ hv
    have hne : tbs ≠ [] := by
      intro h0; rw [h0] at hlen; exact hn (List.length_eq_zero.1 hlen.symm)
    have hline : line.length = (tbs.map List.length).sum + (cv.Metadata.length - 1) + 1 := by
      rw [← h, List.length_append, List.length_map, length_joinFields tbs hne, hlen]
      rfl
    have hsum := sum_length_le _ _ hf hout htext
    have hpos : 1 ≤ cv.Metadata.length := by
      cases hm : cv.Metadata with
      | nil => exact absurd hm hn
      | cons _ _ => simp
    refine ⟨tbs, rfl, ?_, hline, ?_⟩
    · refine List.Forall₂.imp ?_ hf
      intro md tb hb
      obtain ⟨hb, -⟩ := hb
      unfold fieldBound at hb
      constructor
      · intro hnum; rw [if_pos hnum] at hb; exact hb
      · intro htxt
        have hnn : ¬ (md.cDatatype = 0x50 ∨ md.cDatatype = 0x53) := by
          simp only [List.mem_cons, List.mem_singleton, List.not_mem_nil, or_false] at htxt
          rcases htxt with h1 | h1 | h1 <;> rw [h1] <;> decide
        rw [if_neg hnn] at hb; exact hb
    · rw [hline, htot]
      unfold CONVERTER.iNumberOfAttributes
      omega

/-- Witness of C24 on the end-to-end schema: the line `A~B|123.45` and its line feed take 11
of the 17 bytes of the write buffer. -/
theorem written_line_fits_witness :
    ((ascii "A~B|123.45\n").length : Int)
      ≤ endToEndSchema.iOutputRecordLength + endToEndSchema.iNumberOfAttributes := by
  obtain ⟨_, _, _, _, h⟩ := written_line_fits exactEnv 0 endToEndSchema
    [0xC1, 0x25, 0xC2, 0x40, 0x40, 0x12, 0x34, 0x5C] (ascii "A~B|123.45\n")
    (by decide) (by decide) (by decide) (by decide) (by decide)
  exact h

/-! ## The tokens of a date -/

/-- A call of `strtok` at the start of bytes `y` that hold neither the delimiter nor NUL:
the token starts there, and the memory up to the end of `y` stays as it is. -/
theorem strtok_prefix (pre y rest : List Nat) (delim : Nat) (hne : y ≠ [])
    (hy : ∀ x ∈ y, x ≠ delim ∧ x ≠ 0) :
    ∃ rest' saved, strtok (pre ++ y ++ rest) delim pre.length
      = (some pre.length, pre ++ y ++ rest', saved) := by
  obtain ⟨c, ys, rfl⟩ : ∃ c ys, y = c :: ys := by
    cases y with
    | nil => exact absurd rfl hne
    | cons c ys => exact ⟨c, ys, rfl⟩
  have hc := hy c (by simp)
  have hdrop : (pre ++ (c :: ys) ++ rest).drop pre.length = (c :: ys) ++ rest := by
    rw [List.append_assoc]; exact List.drop_left _ _
  have hskip : ((c :: ys) ++ rest).takeWhile (fun x => x == delim) = [] := by
    simp [List.takeWhile_cons, hc.1]
  have hstart : (pre ++ (c :: ys) ++ rest).getD pre.length 0 = c := by
    rw [List.append_assoc, List.cons_append]; exact getD_append_length _ _ _
  have hscan : ((c :: ys) ++ rest).takeWhile (fun x => x != delim && x != 0)
      = (c :: ys) ++ rest.takeWhile (fun x => x != delim && x != 0) := by
    rw [List.takeWhile_append_of_pos]
    intro x hx
    simp [(hy x hx).1, (hy x hx).2]
  simp only [strtok, hdrop, hskip, List.length_nil, Nat.add_zero, hstart, if_neg hc.2, hscan]
  split_ifs with h
  · exact ⟨rest, _, rfl⟩
  · refine ⟨rest.set (rest.takeWhile (fun x => x != delim && x != 0)).length 0,
      pre.length + ((c :: ys) ++ rest.takeWhile (fun x => x != delim && x != 0)).length + 1, ?_⟩
    have hl : pre.length + ((c :: ys) ++ rest.takeWhile (fun x => x != delim && x != 0)).length
        = (pre ++ (c :: ys)).length + (rest.takeWhile (fun x => x != delim && x != 0)).length := by
      simp only [List.length_append]; omega
    rw [hl, List.set_append_right _ _ (by omega)]
    simp

/-- A call of `strtok` at the start of the last token of the date buffer: the bytes `X`, then
the byte at index 10 and the NUL stored at index 11. The next call finds no token. -/
theorem strtok_last (pre X : List Nat) (t : Nat) (tail : List Nat) (hne : X ≠ [])
    (hX : ∀ x ∈ X, x ≠ 0x2E ∧ x ≠ 0) :
    ∃ mem' p, strtok (pre ++ X ++ t :: 0 :: tail) 0x2E pre.length = (some pre.length, mem', p) ∧
      (strtok mem' 0x2E p).1 = none := by
  obtain ⟨c, ys, rfl⟩ : ∃ c ys, X = c :: ys := by
    cases X with
    | nil => exact absurd rfl hne
    | cons c ys => exact ⟨c, ys, rfl⟩
  have hc := hX c (by simp)
  have hdrop : (pre ++ (c :: ys) ++ t :: 0 :: tail).drop pre.length
      = (c :: ys) ++ t :: 0 :: tail := by
    rw [List.append_assoc]; exact List.drop_left _ _
  have hskip : ((c :: ys) ++ t :: 0 :: tail).takeWhile (fun x => x == 0x2E) = [] := by
    simp [List.takeWhile_cons, hc.1]
  have hstart : (pre ++ (c :: ys) ++ t :: 0 :: tail).getD pre.length 0 = c := by
    rw [List.append_assoc, List.cons_append]; exact getD_append_length _ _ _
  have hclean : ∀ x ∈ c :: ys, (x != 0x2E && x != 0) = true := by
    intro x hx
    simp [(hX x hx).1, (hX x hx).2]
  have hnone : ∀ (mem : List Nat) (p : Nat), mem.getD p 0 = 0 → (strtok mem 0x2E p).1 = none := by
    intro mem p hp
    have hskip0 : (mem.drop p).takeWhile (fun x => x == 0x2E) = [] := by
      cases hd : mem.drop p with
      | nil => rfl
      | cons a as =>
        have ha : mem.getD p 0 = a := by
          have := congrArg (fun l => l.getD 0 0) hd
          simpa [List.getD_eq_getElem?_getD, List.getElem?_drop] using this
        rw [hp] at ha
        subst ha
        simp [List.takeWhile_cons]
    simp only [strtok, hskip0, List.length_nil, Nat.add_zero, hp, if_true]
  by_cases ht0 : t = 0
  · subst ht0
    have hscan : ((c :: ys) ++ 0 :: 0 :: tail).takeWhile (fun x => x != 0x2E && x != 0)
        = c :: ys := takeWhile_append_stop _ _ _ _ hclean (by simp)
    have hstop : (pre ++ (c :: ys) ++ 0 :: 0 :: tail).getD (pre.length + (c :: ys).length) 0
        = 0 := by
      have := getD_append_length (pre ++ (c :: ys)) 0 (0 :: tail)
      simpa using this
    refine ⟨pre ++ (c :: ys) ++ 0 :: 0 :: tail, pre.length + (c :: ys).length, ?_, ?_⟩
    · simp only [strtok, hdrop, hskip, List.length_nil, Nat.add_zero, hstart, if_neg hc.2, hscan,
        hstop, if_true]
    · exact hnone _ _ hstop
  · by_cases htd : t = 0x2E
    · subst htd
      have hscan : ((c :: ys) ++ 0x2E :: 0 :: tail).takeWhile (fun x => x != 0x2E && x != 0)
          = c :: ys := takeWhile_append_stop _ _ _ _ hclean (by simp)
      have hstop : (pre ++ (c :: ys) ++ 0x2E :: 0 :: tail).getD
          (pre.length + (c :: ys).length) 0 = 0x2E := by
        have := getD_append_length (pre ++ (c :: ys)) 0x2E (0 :: tail)
        simpa using this
      have hset : (pre ++ (c :: ys) ++ 0x2E :: 0 :: tail).set (pre.length + (c :: ys).length) 0
          = pre ++ (c :: ys) ++ 0 :: 0 :: tail := by
        have hl : pre.length + (c :: ys).length = (pre ++ (c :: ys)).length := by simp
        rw [hl, List.set_append_right _ _ (le_refl _)]
        simp
      refine ⟨pre ++ (c :: ys) ++ 0 :: 0 :: tail, pre.length + (c :: ys).length + 1, ?_, ?_⟩
      · simp only [strtok, hdrop, hskip, List.length_nil, Nat.add_zero, hstart, if_neg hc.2,
          hscan, hstop]
        rw [if_neg (by decide), hset]
      · apply hnone
        have := getD_append_length (pre ++ (c :: ys) ++ [0]) 0 tail
        simpa [Nat.add_assoc] using this
    · have hscan : ((c :: ys) ++ t :: 0 :: tail).takeWhile (fun x => x != 0x2E && x != 0)
          = (c :: ys) ++ [t] := by
        have e : (c :: ys) ++ t :: 0 :: tail = ((c :: ys) ++ [t]) ++ 0 :: tail := by simp
        rw [e]
        apply takeWhile_append_stop
        · intro x hx
          rcases List.mem_append.1 hx with h | h
          · exact hclean x h
          · simp only [List.mem_singleton] at h
            subst h
            simp [ht0, htd]
        · simp
      have hstop : (pre ++ (c :: ys) ++ t :: 0 :: tail).getD
          (pre.length + ((c :: ys) ++ [t]).length) 0 = 0 := by
        have := getD_append_length (pre ++ (c :: ys) ++ [t]) 0 tail
        simpa [Nat.add_assoc] using this
      refine ⟨pre ++ (c :: ys) ++ t :: 0 :: tail, pre.length + ((c :: ys) ++ [t]).length,
        ?_, ?_⟩
      · simp only [strtok, hdrop, hskip, List.length_nil, Nat.add_zero, hstart, if_neg hc.2,
          hscan, hstop, if_true]
      · exact hnone _ _ hstop

theorem cstr_append (y rest : List Nat) (h : ∀ x ∈ y, x ≠ 0) :
    cstr (y ++ rest) = y ++ cstr rest := by
  unfold cstr
  rw [List.takeWhile_append_of_pos]
  intro x hx
  simp [h x hx]

/-- The result of `ConvertDateToEuro` when the three calls of `strtok` return tokens. -/
theorem ConvertDateToEuro_tokens (ind : Indeterminate) (parm : List Nat) (day mon year : Nat)
    (m1 m2 m3 : List Nat) (p1 p2 p3 : Nat)
    (h1 : strtok (readBytes (parm ++ ind.afterParm) 10 ++ [ind.tmp10, 0] ++ ind.afterTmp)
      0x2E 0 = (some day, m1, p1))
    (h2 : strtok m1 0x2E p1 = (some mon, m2, p2))
    (h3 : strtok m2 0x2E p2 = (some year, m3, p3)) :
    ConvertDateToEuro ind parm
      = .ok (readBytes
          ((cstr (readBytes (m3.drop year) 4 ++ ind.afterYear) ++ [0x2D] ++ cstr (m3.drop mon)
              ++ [0x2D] ++ cstr (m3.drop day)) ++ [0]
            ++ (parm ++ ind.afterParm).drop
              ((cstr (readBytes (m3.drop year) 4 ++ ind.afterYear) ++ [0x2D]
                ++ cstr (m3.drop mon) ++ [0x2D] ++ cstr (m3.drop day)).length + 1))
          parm.length) := by
  unfold ConvertDateToEuro
  simp only [h1, h2, h3]

/-- When the second call of `strtok` in `ConvertDateToEuro` returns NULL, the process ends. -/
theorem ConvertDateToEuro_one_token (ind : Indeterminate) (parm : List Nat) (day : Option Nat)
    (m1 : List Nat) (p1 : Nat)
    (h1 : strtok (readBytes (parm ++ ind.afterParm) 10 ++ [ind.tmp10, 0] ++ ind.afterTmp)
      0x2E 0 = (day, m1, p1))
    (h2 : (strtok m1 0x2E p1).1 = none) :
    ConvertDateToEuro ind parm = .error Fault.nullPointer := by
  unfold ConvertDateToEuro
  simp only [h1]
  rcases e2 : strtok m1 0x2E p1 with ⟨mon, m2, p2⟩
  rw [e2] at h2
  simp only at h2
  subst h2
  rcases strtok m2 0x2E p2 with ⟨year, m3, p3⟩
  cases day <;> rfl

/-- When the third call of `strtok` in `ConvertDateToEuro` returns NULL, the process ends. -/
theorem ConvertDateToEuro_two_tokens (ind : Indeterminate) (parm : List Nat)
    (day mon : Option Nat) (m1 m2 : List Nat) (p1 p2 : Nat)
    (h1 : strtok (readBytes (parm ++ ind.afterParm) 10 ++ [ind.tmp10, 0] ++ ind.afterTmp)
      0x2E 0 = (day, m1, p1))
    (h2 : strtok m1 0x2E p1 = (mon, m2, p2))
    (h3 : (strtok m2 0x2E p2).1 = none) :
    ConvertDateToEuro ind parm = .error Fault.nullPointer := by
  unfold ConvertDateToEuro
  simp only [h1, h2]
  rcases e3 : strtok m2 0x2E p2 with ⟨year, m3, p3⟩
  rw [e3] at h3
  simp only at h3
  subst h3
  cases day <;> cases mon <;> rfl

/-- The first ten bytes of a value that starts with the bytes `X`, at most ten. -/
theorem readBytes_ten (X rest after : List Nat) (h : X.length ≤ 10) :
    readBytes (X ++ rest ++ after) 10 = X ++ readBytes (rest ++ after) (10 - X.length) := by
  have e : 10 = X.length + (10 - X.length) := by omega
  rw [List.append_assoc]
  nth_rewrite 1 [e]
  exact readBytes_append_add _ _ _

/-- The bytes of `parm->pBuffer` that the caller copies once the result string, which is not
longer than the value, and its terminator are stored in it. -/
theorem readBytes_result (result parm after : List Nat) (h : result.length ≤ parm.length) :
    readBytes (result ++ [0] ++ (parm ++ after).drop (result.length + 1)) parm.length
      = (result ++ 0 :: parm.drop (result.length + 1)).take parm.length := by
  rcases Nat.eq_or_lt_of_le h with heq | hlt
  · rw [← heq, List.append_assoc, readBytes_append_left, List.take_left]
  · have hd : (parm ++ after).drop (result.length + 1)
        = parm.drop (result.length + 1) ++ after :=
      List.drop_append_of_le_length (by omega)
    have hl : (result ++ 0 :: parm.drop (result.length + 1)).length = parm.length := by
      simp only [List.length_append, List.length_cons, List.length_drop]
      omega
    have e : result ++ [0] ++ (parm.drop (result.length + 1) ++ after)
        = (result ++ 0 :: parm.drop (result.length + 1)) ++ after := by simp
    have hrb := readBytes_append_left (result ++ 0 :: parm.drop (result.length + 1)) after
    rw [hl] at hrb
    rw [hd, e, hrb, ← hl, List.take_length]

/-- The result of `ConvertDateToEuro` on a date buffer that starts with a day token and a
month token, each ended by a dot, when the third call of `strtok` returns a token at the byte
after the second dot and leaves the bytes `U'` from there on. -/
theorem ConvertDateToEuro_three (ind : Indeterminate) (parm t1 t2 U U' : List Nat) (p3 : Nat)
    (h1 : t1 ≠ []) (h2 : t2 ≠ [])
    (ht1 : ∀ x ∈ t1, x ≠ 0x2E ∧ x ≠ 0) (ht2 : ∀ x ∈ t2, x ≠ 0x2E ∧ x ≠ 0)
    (hs : readBytes (parm ++ ind.afterParm) 10 ++ [ind.tmp10, 0] ++ ind.afterTmp
      = t1 ++ 0x2E :: (t2 ++ 0x2E :: U))
    (h3 : strtok (t1 ++ 0 :: (t2 ++ 0 :: U)) 0x2E (t1.length + 1 + t2.length + 1)
      = (some (t1.length + 1 + t2.length + 1), t1 ++ 0 :: (t2 ++ 0 :: U'), p3)) :
    ConvertDateToEuro ind parm
      = .ok (readBytes
          ((cstr (readBytes U' 4 ++ ind.afterYear) ++ 0x2D :: (t2 ++ 0x2D :: t1)) ++ [0]
            ++ (parm ++ ind.afterParm).drop
              ((cstr (readBytes U' 4 ++ ind.afterYear) ++ 0x2D :: (t2 ++ 0x2D :: t1)).length
                + 1))
          parm.length) := by
  have s1 := strtok_token [] t1 (t2 ++ 0x2E :: U) 0x2E (by decide) h1 ht1
  have s2 := strtok_token (t1 ++ [0]) t2 U 0x2E (by decide) h2 ht2
  simp only [List.nil_append, List.length_nil, Nat.zero_add, List.append_assoc,
    List.singleton_append, List.cons_append, List.length_append, List.length_singleton]
    at s1 s2
  rw [← hs] at s1
  rw [ConvertDateToEuro_tokens ind parm 0 (t1.length + 1) (t1.length + 1 + t2.length + 1)
    _ _ _ _ _ _ s1 s2 h3]
  have hd : cstr ((t1 ++ 0 :: (t2 ++ 0 :: U')).drop 0) = t1 := by
    rw [List.drop_zero]
    exact cstr_token t1 _ (fun x hx => (ht1 x hx).2)
  have hm : cstr ((t1 ++ 0 :: (t2 ++ 0 :: U')).drop (t1.length + 1)) = t2 := by
    have e : t1 ++ 0 :: (t2 ++ 0 :: U') = (t1 ++ [0]) ++ (t2 ++ 0 :: U') := by simp
    have hl : t1.length + 1 = (t1 ++ [0]).length := by simp
    rw [e, hl, List.drop_left]
    exact cstr_token t2 _ (fun x hx => (ht2 x hx).2)
  have hy : (t1 ++ 0 :: (t2 ++ 0 :: U')).drop (t1.length + 1 + t2.length + 1) = U' := by
    have e : t1 ++ 0 :: (t2 ++ 0 :: U') = (t1 ++ [0] ++ t2 ++ [0]) ++ U' := by simp
    have hl : t1.length + 1 + t2.length + 1 = (t1 ++ [0] ++ t2 ++ [0]).length := by
      simp only [List.length_append, List.length_singleton]
    rw [e, hl, List.drop_left]
  rw [hd, hm, hy]
  simp only [List.append_assoc, List.singleton_append, List.cons_append, List.nil_append]

/-- Claim C15, amended: `ConvertDateToEuro` checks neither the number of parts nor the length
of the year token, and its only fault is a read through a null token pointer. For a trimmed
value that starts with a non-empty day token, a dot, a non-empty month token, a dot and four
bytes of a year token, all inside its first ten bytes and none of them a dot or NUL, whatever
follows the four bytes (more year bytes, more parts): when the byte after the four-byte year
array is NUL, the field is the four year bytes, `-`, the month token, `-`, the day token, a NUL
and the bytes of the value that follow at the same index, cut to the length of the value. For
a trimmed value whose third token has one to three bytes and is ended by a dot inside the
first ten bytes, the field is built in the same way from that token. A trimmed value of ten or
more bytes whose first ten bytes are one token, or two tokens around one dot, ends the process
by a null pointer. Every fault is that one, and every field returned has the length of the
trimmed value. -/
theorem date_decode_validates_nothing (ind : Indeterminate) (parm : List Nat) :
    (∀ (t1 t2 y rest : List Nat),
      parm = t1 ++ 0x2E :: (t2 ++ 0x2E :: (y ++ rest)) →
      t1 ≠ [] → t2 ≠ [] → y.length = 4 →
      (∀ x ∈ t1 ++ t2 ++ y, x ≠ 0x2E ∧ x ≠ 0) →
      t1.length + t2.length + 6 ≤ 10 → cstr ind.afterYear = [] →
      ConvertDateToEuro ind parm
        = .ok (((y ++ 0x2D :: (t2 ++ 0x2D :: t1))
            ++ 0 :: parm.drop (t1.length + t2.length + 7)).take parm.length)) ∧
    (∀ (t1 t2 t3 rest : List Nat),
      parm = t1 ++ 0x2E :: (t2 ++ 0x2E :: (t3 ++ 0x2E :: rest)) →
      t1 ≠ [] → t2 ≠ [] → t3 ≠ [] → t3.length ≤ 3 →
      (∀ x ∈ t1 ++ t2 ++ t3, x ≠ 0x2E ∧ x ≠ 0) →
      t1.length + t2.length + t3.length + 3 ≤ 10 →
      ConvertDateToEuro ind parm
        = .ok (((t3 ++ 0x2D :: (t2 ++ 0x2D :: t1))
            ++ 0 :: parm.drop (t1.length + t2.length + t3.length + 3)).take parm.length)) ∧
    (∀ (X rest : List Nat), parm = X ++ rest → X.length = 10 →
      (∀ x ∈ X, x ≠ 0x2E ∧ x ≠ 0) →
      ConvertDateToEuro ind parm = .error Fault.nullPointer) ∧
    (∀ (t1 X rest : List Nat), parm = t1 ++ 0x2E :: (X ++ rest) →
      t1 ≠ [] → X ≠ [] → t1.length + X.length = 9 →
      (∀ x ∈ t1 ++ X, x ≠ 0x2E ∧ x ≠ 0) →
      ConvertDateToEuro ind parm = .error Fault.nullPointer) ∧
    (∀ e, ConvertDateToEuro ind parm = .error e → e = Fault.nullPointer) ∧
    (∀ field, ConvertDateToEuro ind parm = .ok field → field.length = parm.length) := by
  refine ⟨?_, ?_, ?_, ?_, ?_, ?_⟩
  · intro t1 t2 y rest hp h1 h2 hy4 hclean hl hterm
    have ht1 : ∀ x ∈ t1, x ≠ 0x2E ∧ x ≠ 0 := fun x hx => hclean x (by simp [hx])
    have ht2 : ∀ x ∈ t2, x ≠ 0x2E ∧ x ≠ 0 := fun x hx => hclean x (by simp [hx])
    have hy : ∀ x ∈ y, x ≠ 0x2E ∧ x ≠ 0 := fun x hx => hclean x (by simp [hx])
    have hyne : y ≠ [] := by
      intro h0; rw [h0] at hy4; simp at hy4
    have hr := readBytes_ten (t1 ++ 0x2E :: (t2 ++ 0x2E :: y)) rest ind.afterParm
      (by simp; omega)
    have hs : readBytes (parm ++ ind.afterParm) 10 ++ [ind.tmp10, 0] ++ ind.afterTmp
        = t1 ++ 0x2E :: (t2 ++ 0x2E :: (y ++
            (readBytes (rest ++ ind.afterParm) (10 - (t1 ++ 0x2E :: (t2 ++ 0x2E :: y)).length)
              ++ ind.tmp10 :: 0 :: ind.afterTmp))) := by
      have e : parm ++ ind.afterParm
          = t1 ++ 0x2E :: (t2 ++ 0x2E :: y) ++ rest ++ ind.afterParm := by rw [hp]; simp
      rw [e, hr]
      simp
    obtain ⟨T', p3, s3⟩ := strtok_prefix (t1 ++ [0] ++ t2 ++ [0]) y
      (readBytes (rest ++ ind.afterParm) (10 - (t1 ++ 0x2E :: (t2 ++ 0x2E :: y)).length)
        ++ ind.tmp10 :: 0 :: ind.afterTmp) 0x2E hyne hy
    have hl3 : (t1 ++ [0] ++ t2 ++ [0]).length = t1.length + 1 + t2.length + 1 := by
      simp only [List.length_append, List.length_singleton]
    rw [hl3] at s3
    simp only [List.append_assoc, List.singleton_append, List.cons_append, List.nil_append]
      at s3
    rw [ConvertDateToEuro_three ind parm t1 t2 _ (y ++ T') p3 h1 h2 ht1 ht2 hs s3]
    have hyb : readBytes (y ++ T') 4 = y := by
      rw [← hy4]; exact readBytes_append_left y T'
    have hcy : cstr (y ++ ind.afterYear) = y := by
      rw [cstr_append y _ (fun x hx => (hy x hx).2), hterm, List.append_nil]
    rw [hyb, hcy]
    have hlen : (y ++ 0x2D :: (t2 ++ 0x2D :: t1)).length ≤ parm.length := by
      rw [hp]; simp; omega
    have hidx : (y ++ 0x2D :: (t2 ++ 0x2D :: t1)).length + 1 = t1.length + t2.length + 7 := by
      simp; omega
    rw [readBytes_result _ parm ind.afterParm hlen, hidx]
  · intro t1 t2 t3 rest hp h1 h2 h3 h3l hclean hl
    have ht1 : ∀ x ∈ t1, x ≠ 0x2E ∧ x ≠ 0 := fun x hx => hclean x (by simp [hx])
    have ht2 : ∀ x ∈ t2, x ≠ 0x2E ∧ x ≠ 0 := fun x hx => hclean x (by simp [hx])
    have ht3 : ∀ x ∈ t3, x ≠ 0x2E ∧ x ≠ 0 := fun x hx => hclean x (by simp [hx])
    have hr := readBytes_ten (t1 ++ 0x2E :: (t2 ++ 0x2E :: (t3 ++ [0x2E]))) rest ind.afterParm
      (by simp; omega)
    have hs : readBytes (parm ++ ind.afterParm) 10 ++ [ind.tmp10, 0] ++ ind.afterTmp
        = t1 ++ 0x2E :: (t2 ++ 0x2E :: (t3 ++ 0x2E ::
            (readBytes (rest ++ ind.afterParm)
                (10 - (t1 ++ 0x2E :: (t2 ++ 0x2E :: (t3 ++ [0x2E]))).length)
              ++ ind.tmp10 :: 0 :: ind.afterTmp))) := by
      have e : parm ++ ind.afterParm
          = t1 ++ 0x2E :: (t2 ++ 0x2E :: (t3 ++ [0x2E])) ++ rest ++ ind.afterParm := by
        rw [hp]; simp
      rw [e, hr]
      simp
    have s3 := strtok_token (t1 ++ [0] ++ t2 ++ [0]) t3
      (readBytes (rest ++ ind.afterParm)
          (10 - (t1 ++ 0x2E :: (t2 ++ 0x2E :: (t3 ++ [0x2E]))).length)
        ++ ind.tmp10 :: 0 :: ind.afterTmp) 0x2E (by decide) h3 ht3
    have hl3 : (t1 ++ [0] ++ t2 ++ [0]).length = t1.length + 1 + t2.length + 1 := by
      simp only [List.length_append, List.length_singleton]
    rw [hl3] at s3
    simp only [List.append_assoc, List.singleton_append, List.cons_append, List.nil_append]
      at s3
    rw [ConvertDateToEuro_three ind parm t1 t2 _ _ _ h1 h2 ht1 ht2 hs s3]
    have hcy : ∀ Z : List Nat, cstr (readBytes (t3 ++ 0 :: Z) 4 ++ ind.afterYear) = t3 := by
      intro Z
      have e : t3 ++ 0 :: Z = (t3 ++ [0]) ++ Z := by simp
      have h4 : 4 = (t3 ++ [0]).length + (3 - t3.length) := by simp; omega
      rw [e]
      nth_rewrite 1 [h4]
      rw [readBytes_append_add]
      simp only [List.append_assoc, List.singleton_append]
      exact cstr_token t3 _ (fun x hx => (ht3 x hx).2)
    rw [hcy]
    have hlen : (t3 ++ 0x2D :: (t2 ++ 0x2D :: t1)).length ≤ parm.length := by
      rw [hp]; simp; omega
    have hidx : (t3 ++ 0x2D :: (t2 ++ 0x2D :: t1)).length + 1
        = t1.length + t2.length + t3.length + 3 := by
      simp; omega
    rw [readBytes_result _ parm ind.afterParm hlen, hidx]
  · intro X rest hp hX hclean
    have hne : X ≠ [] := by
      intro h0; rw [h0] at hX; simp at hX
    have hr := readBytes_ten X rest ind.afterParm (by omega)
    have hs : readBytes (parm ++ ind.afterParm) 10 ++ [ind.tmp10, 0] ++ ind.afterTmp
        = [] ++ X ++ ind.tmp10 :: 0 :: ind.afterTmp := by
      rw [hp, hr, hX]
      simp [readBytes]
    obtain ⟨mem', p, s1, s2⟩ := strtok_last [] X ind.tmp10 ind.afterTmp hne hclean
    rw [← hs] at s1
    exact ConvertDateToEuro_one_token ind parm _ mem' p s1 s2
  · intro t1 X rest hp h1 hXne hl hclean
    have ht1 : ∀ x ∈ t1, x ≠ 0x2E ∧ x ≠ 0 := fun x hx => hclean x (by simp [hx])
    have hXc : ∀ x ∈ X, x ≠ 0x2E ∧ x ≠ 0 := fun x hx => hclean x (by simp [hx])
    have hr := readBytes_ten (t1 ++ 0x2E :: X) rest ind.afterParm (by simp; omega)
    have hs : readBytes (parm ++ ind.afterParm) 10 ++ [ind.tmp10, 0] ++ ind.afterTmp
        = t1 ++ 0x2E :: (X ++ ind.tmp10 :: 0 :: ind.afterTmp) := by
      have e : parm ++ ind.afterParm = t1 ++ 0x2E :: X ++ rest ++ ind.afterParm := by
        rw [hp]; simp
      have h0 : 10 - (t1 ++ 0x2E :: X).length = 0 := by simp; omega
      rw [e, hr, h0]
      simp [readBytes]
    have s1 := strtok_token [] t1 (X ++ ind.tmp10 :: 0 :: ind.afterTmp) 0x2E (by decide) h1 ht1
    simp only [List.nil_append, List.length_nil, Nat.zero_add] at s1
    rw [← hs] at s1
    obtain ⟨mem', p, s2, s3⟩ := strtok_last (t1 ++ [0]) X ind.tmp10 ind.afterTmp hXne hXc
    simp only [List.append_assoc, List.singleton_append, List.cons_append, List.nil_append,
      List.length_append, List.length_singleton] at s2
    exact ConvertDateToEuro_two_tokens ind parm _ _ _ mem' _ p s1 s2 s3
  · intro e h
    unfold ConvertDateToEuro at h
    simp only at h
    split at h
    · cases h
    · cases h
      rfl
  · intro field h
    exact length_ConvertDateToEuro ind parm field h

/-- Witness of C15 amended: whatever the indeterminate bytes hold, once the byte after the
year array is NUL, the trimmed value `1.02.20200` is decoded to `2020-02-1` and a NUL byte. -/
theorem date_decode_validates_nothing_witness :
    ConvertDateToEuro ⟨[0x41], 0x42, [0x43], [0, 0x44]⟩
        [0x31, 0x2E, 0x30, 0x32, 0x2E, 0x32, 0x30, 0x32, 0x30, 0x30]
      = .ok ((([0x32, 0x30, 0x32, 0x30] ++ 0x2D :: ([0x30, 0x32] ++ 0x2D :: [0x31]))
          ++ 0 :: [0x31, 0x2E, 0x30, 0x32, 0x2E, 0x32, 0x30, 0x32, 0x30, 0x30].drop
            ([0x31].length + [0x30, 0x32].length + 7)).take
          [0x31, 0x2E, 0x30, 0x32, 0x2E, 0x32, 0x30, 0x32, 0x30, 0x30].length) :=
  (date_decode_validates_nothing ⟨[0x41], 0x42, [0x43], [0, 0x44]⟩
    [0x31, 0x2E, 0x30, 0x32, 0x2E, 0x32, 0x30, 0x32, 0x30, 0x30]).1
    [0x31] [0x30, 0x32] [0x32, 0x30, 0x32, 0x30] [0x30] rfl (by decide) (by decide) rfl
    (by decide) (by decide) (by decide)

end E2A
